import Mathlib

/-!
Verification development for the `axp` crate (a tiny parenthesized data
language: mode-switching tokenizer, recursive parser, bounded-width pretty
renderer).

The Rust sources are shallowly embedded:
* bytes are `List Nat` (each element a byte value `< 256`; no arithmetic
  overflows occur in the embedded code paths),
* `&str`/`String` values are Lean `String`s (`String.length` equals Rust's
  `chars().count()`),
* fallible steps (`expect`, `unreachable!`) are modelled with `Option`, where
  `none` marks the panic,
* the lazy token/unit iterators are modelled with fuel-indexed recursion; the
  fuel is chosen large enough (`2 * length + 2`) that it never runs out, which
  keeps every definition kernel-computable.

Sections follow the crate layout: `pretty.rs`, `lex.rs`, `item.rs`/`list.rs`/
`map.rs`, `parse.rs`, then the theorems.
-/

/-! ## UTF-8 (the fragment of `core::str::from_utf8` used by `pretty.rs`)

`utf8First bs` decodes the first Unicode scalar of `bs`: `some (cp, len)` for
a valid leading scalar (strict UTF-8: no overlongs, no surrogates, at most
U+10FFFF), `none` otherwise.  `utf8ValidLen` iterates it to obtain the length
of the longest valid prefix, i.e. Rust's `Utf8Error::valid_up_to`. -/

def utf8Cont (b : Nat) : Bool := 0x80 ≤ b && b ≤ 0xBF

def utf8First : List Nat → Option (Nat × Nat)
  | [] => none
  | b0 :: rest =>
    if b0 < 0x80 then some (b0, 1)
    else if 0xC2 ≤ b0 && b0 ≤ 0xDF then
      match rest with
      | b1 :: _ =>
        if utf8Cont b1 then some ((b0 - 0xC0) * 0x40 + (b1 - 0x80), 2) else none
      | [] => none
    else if 0xE0 ≤ b0 && b0 ≤ 0xEF then
      match rest with
      | b1 :: b2 :: _ =>
        let lo1 := if b0 = 0xE0 then 0xA0 else 0x80
        let hi1 := if b0 = 0xED then 0x9F else 0xBF
        if (lo1 ≤ b1 && b1 ≤ hi1) && utf8Cont b2 then
          some ((b0 - 0xE0) * 0x1000 + (b1 - 0x80) * 0x40 + (b2 - 0x80), 3)
        else none
      | _ => none
    else if 0xF0 ≤ b0 && b0 ≤ 0xF4 then
      match rest with
      | b1 :: b2 :: b3 :: _ =>
        let lo1 := if b0 = 0xF0 then 0x90 else 0x80
        let hi1 := if b0 = 0xF4 then 0x8F else 0xBF
        if ((lo1 ≤ b1 && b1 ≤ hi1) && utf8Cont b2) && utf8Cont b3 then
          some ((b0 - 0xF0) * 0x40000 + (b1 - 0x80) * 0x1000 +
            (b2 - 0x80) * 0x40 + (b3 - 0x80), 4)
        else none
      | _ => none
    else none

def utf8ValidLen : Nat → List Nat → Nat
  | 0, _ => 0
  | f + 1, bs =>
    match utf8First bs with
    | none => 0
    | some (_, l) => l + utf8ValidLen f (bs.drop l)

/-- Rust's `Utf8Error::valid_up_to` for a whole slice. -/
def validUpTo (bs : List Nat) : Nat := utf8ValidLen bs.length bs

/-- Rust's `str::from_utf8(bs).is_ok()`. -/
def isUtf8 (bs : List Nat) : Bool := validUpTo bs == bs.length

/-! ## `pretty.rs`: output units, coalescing, and the shortening renderer -/

def hexDigit (n : Nat) : Char := Char.ofNat (if n < 10 then 48 + n else 87 + n)

/-- Rust `format!("{:02x}", n)` for `n < 256`. -/
def hex2 (n : Nat) : String := String.mk [hexDigit (n / 16 % 16), hexDigit (n % 16)]

def toHexAux : Nat → Nat → List Char
  | 0, _ => []
  | _ + 1, 0 => []
  | f + 1, n => toHexAux f (n / 16) ++ [hexDigit (n % 16)]

/-- Rust `format!("{:x}", n)` (minimal lowercase hex digits). -/
def toHex (n : Nat) : String :=
  if n = 0 then "0" else String.mk (toHexAux n n)

/-- Rust `char::is_ascii_control`. -/
def isAsciiControl (cp : Nat) : Bool := cp ≤ 0x1F || cp == 0x7F

/-- Rust `char::is_control` (Unicode category Cc). -/
def charIsControl (cp : Nat) : Bool := cp ≤ 0x1F || (0x7F ≤ cp && cp ≤ 0x9F)

/-- Rust `char::is_whitespace` (Unicode `White_Space`). -/
def charIsWhiteSpace (cp : Nat) : Bool :=
  (0x09 ≤ cp && cp ≤ 0x0D) || cp == 0x20 || cp == 0x85 || cp == 0xA0 ||
  cp == 0x1680 || (0x2000 ≤ cp && cp ≤ 0x200A) || cp == 0x2028 ||
  cp == 0x2029 || cp == 0x202F || cp == 0x205F || cp == 0x3000

/-- The escaping of one decoded scalar in `OutputIterator::next`'s
`valid_char` (`pretty.rs` lines 78–87), including the `x_esc` branch. -/
def escapeScalar (cp : Nat) : String :=
  if cp = 0x5C then "\\\\"
  else if cp = 0x0D then "\\r"
  else if cp = 0x0A then "\\n"
  else if cp = 0x09 then "\\t"
  else if cp = 0x00 then "\\0"
  else if isAsciiControl cp then "\\x" ++ hex2 cp
  else if charIsControl cp && charIsWhiteSpace cp && 0xFF < cp then
    "\\X" ++ toHex cp ++ ";"
  else String.singleton (Char.ofNat cp)

/-- One output unit of `OutputIterator` (`pretty.rs` struct `Output`). -/
structure Output where
  contents : String
  input_len : Nat
  valid_utf8 : Bool
deriving DecidableEq

/-- `Output::char_count`. -/
def Output.charCount (o : Output) : Nat := o.contents.length

/-- One step of `OutputIterator::next`.  The Rust code distinguishes a fully
valid 4-byte window from a window with a positive `valid_up_to`; in both cases
it decodes the first scalar of the window, so the two branches collapse to a
single `utf8First` match (the panic-faithful version `outputNextE` below keeps
the original branch structure). -/
def outputNext : List Nat → Option (Output × List Nat)
  | [] => none
  | b :: rest =>
    match utf8First ((b :: rest).take 4) with
    | some (cp, l) => some (⟨escapeScalar cp, l, true⟩, (b :: rest).drop l)
    | none => some (⟨hex2 b, 1, false⟩, rest)

def outputUnits : Nat → List Nat → List Output
  | 0, _ => []
  | f + 1, bs =>
    match outputNext bs with
    | none => []
    | some (o, rest) => o :: outputUnits f rest

/-- The full unit stream of a byte string (`OutputIterator` run to the end). -/
def units (bs : List Nat) : List Output := outputUnits bs.length bs

/-- `coalesced` (`pretty.rs` lines 114–128): concatenate unit contents,
wrapping maximal invalid runs in `\U` … `;`. -/
def coalescedGo (invalid : Bool) : List Output → String
  | [] => ""
  | o :: os =>
    if o.valid_utf8 then
      (if invalid then ";" else "") ++ o.contents ++ coalescedGo false os
    else
      (if invalid then "" else "\\U") ++ o.contents ++ coalescedGo true os

def coalesced (os : List Output) : String := coalescedGo false os

/-- The width clamp at the top of `pretty` (`1..=6 => 6`). -/
def clampWidth (w : Nat) : Nat := if 1 ≤ w && w ≤ 6 then 6 else w

/-- The head loop of `pretty`: push units while the accumulated char count
stays below `w2`, breaking as soon as it reaches `w2`. -/
def headUnitsGo (w2 cc : Nat) : List Output → List Output
  | [] => []
  | o :: os => if w2 ≤ cc then [] else o :: headUnitsGo w2 (cc + o.charCount) os

def sumInputLen (os : List Output) : Nat :=
  os.foldr (fun o acc => o.input_len + acc) 0

/-- The tail character budget `width2 + (width % 2) - 1` of `pretty`. -/
def tailBudget (w : Nat) : Nat := w / 2 + w % 2 - 1

/-- The backwards `take_while` of `pretty` (lines 181–189): returns the number
of kept tail units and the bytes consumed, including the bytes of the unit
whose evaluation made the predicate fail (the Rust closure mutates `part2_len`
before the comparison). -/
def revTake (budget cc bytes : Nat) : List Output → Nat × Nat
  | [] => (0, bytes)
  | o :: os =>
    let cc2 := cc + o.charCount
    let bytes2 := bytes + o.input_len
    if cc2 ≤ budget then
      let r := revTake budget cc2 bytes2 os
      (r.1 + 1, r.2)
    else (0, bytes2)

/-- The units kept for the first half of `pretty`'s output (all units when the
clamped width is 0, i.e. no shortening). -/
def prettyHead (input : List Nat) (width : Nat) : List Output :=
  let w := clampWidth width
  if 0 < w then headUnitsGo (w / 2) 0 (units input) else units input

/-- The rendered first half of `pretty`'s output. -/
def prettyHeadStr (input : List Nat) (width : Nat) : String :=
  coalesced (prettyHead input width)

/-- `pretty` (`pretty.rs` lines 130–207). -/
def pretty (input : List Nat) (width : Nat) : String :=
  let w := clampWidth width
  let part1 := prettyHead input width
  let part1_len := sumInputLen part1
  let p := prettyHeadStr input width
  if 0 < w then
    let width2 := w / 2
    let start2 := max (input.length - 4 * width2) part1_len
    let output := units (input.drop start2)
    let r := revTake (tailBudget w) 0 0 output.reverse
    let consumed := input.length ≤ part1_len + r.2
    let start2b := if consumed then 0 else output.length - r.1
    (if consumed then p else p ++ "⠤") ++ coalesced (output.drop start2b)
  else p

/-! ### The panic-faithful renderer

`valid_char` in `pretty.rs` calls `.expect(SAFE_UTF8)` and `.expect(NON_EMPTY)`;
`outputNextE` keeps that branch structure and returns `none` where the Rust
code would panic.  The model drives the unit iterator eagerly over the whole
input (the Rust head loop stops pulling early), which can only report more
panics than the original; the refinement theorem shows there are none. -/

def validCharE (bs : List Nat) (n : Nat) : Option (Output × List Nat) :=
  let s := bs.take n
  if isUtf8 s then
    match utf8First s with
    | some (cp, l) => some (⟨escapeScalar cp, l, true⟩, bs.drop l)
    | none => none
  else none

def outputNextE : List Nat → Option (Option (Output × List Nat))
  | [] => some none
  | b :: rest =>
    let bs := b :: rest
    let n := min bs.length 4
    let s := bs.take n
    if isUtf8 s then (validCharE bs n).map some
    else
      let v := validUpTo s
      if 0 < v then (validCharE bs (min v 4)).map some
      else some (some (⟨hex2 b, 1, false⟩, rest))

def outputUnitsE : Nat → List Nat → Option (List Output)
  | 0, _ => some []
  | f + 1, bs =>
    match outputNextE bs with
    | none => none
    | some none => some []
    | some (some (o, rest)) => (outputUnitsE f rest).map (o :: ·)

def unitsE (bs : List Nat) : Option (List Output) := outputUnitsE bs.length bs

/-- `pretty` with the panic points of `OutputIterator::next` surfaced as
`none`. -/
def prettyE (input : List Nat) (width : Nat) : Option String :=
  let w := clampWidth width
  match unitsE input with
  | none => none
  | some us =>
    let part1 := if 0 < w then headUnitsGo (w / 2) 0 us else us
    let part1_len := sumInputLen part1
    let p := coalesced part1
    if 0 < w then
      let width2 := w / 2
      let start2 := max (input.length - 4 * width2) part1_len
      match unitsE (input.drop start2) with
      | none => none
      | some output =>
        let r := revTake (tailBudget w) 0 0 output.reverse
        let consumed := input.length ≤ part1_len + r.2
        let start2b := if consumed then 0 else output.length - r.1
        some ((if consumed then p else p ++ "⠤") ++ coalesced (output.drop start2b))
    else some p

/-- UTF-8 encoding of one scalar (Rust `char::encode_utf8`). -/
def utf8EncodeChar (c : Nat) : List Nat :=
  if c < 0x80 then [c]
  else if c < 0x800 then [0xC0 + c / 0x40, 0x80 + c % 0x40]
  else if c < 0x10000 then
    [0xE0 + c / 0x1000, 0x80 + c / 0x40 % 0x40, 0x80 + c % 0x40]
  else
    [0xF0 + c / 0x40000, 0x80 + c / 0x1000 % 0x40, 0x80 + c / 0x40 % 0x40,
      0x80 + c % 0x40]

/-- Rust `String::into_bytes` (UTF-8 bytes of a string). -/
def strBytes (s : String) : List Nat :=
  (s.data.map (fun c => utf8EncodeChar c.toNat)).flatten

/-! ## `lex.rs`: the mode-switching tokenizer

The Rust lexer is three `logos`-generated DFAs (`Base`, `Comment`, `Quoted`)
bridged by `AxpLexer`.  Each DFA applies maximal munch over its token
patterns; equal-length matches are resolved by pattern priority (a literal
byte counts 2, a character class counts 1, optional parts count 0).  The
functions below hand-translate each regex into explicit longest-match code.
`none` models an unmatched input (`logos` yields `Err(())`, which `AxpLexer`
turns into the `unreachable!` panic). -/

inductive Token where
  | WhiteSpace (s : List Nat)
  | Bare (s : List Nat)
  | Comment (s : List Nat)
  | Colon
  | Open
  | Close
  | Bad (s : List Nat)
  | Quoted (s : List Nat)
  | Esc (s : List Nat)
deriving DecidableEq

def isWsByte (b : Nat) : Bool := b == 32 || b == 10 || b == 13 || b == 9

/-- Byte class of `Base::Bare`: `[^:#\(\) \n\r\t\\"]`.  Note that NUL and all
non-ASCII bytes are bare bytes. -/
def isBareByte (b : Nat) : Bool :=
  !(b == 58 || b == 35 || b == 40 || b == 41 || b == 92 || b == 34 || isWsByte b)

def isNotNl (b : Nat) : Bool := !(b == 10 || b == 13)

def isHexByte (b : Nat) : Bool :=
  (48 ≤ b && b ≤ 57) || (97 ≤ b && b ≤ 102) || (65 ≤ b && b ≤ 70)

/-- A maximal run capped at `cap` bytes (the `{1,20}` / `{0,8}` repetitions). -/
def capRun (p : Nat → Bool) (cap : Nat) (bs : List Nat) : List Nat :=
  (bs.takeWhile p).take cap

/-- Result of one `Base`-mode DFA step, as acted on by `AxpLexer::next`:
an ordinary token, a comment opener (switches to `Comment` mode), or a quote
opener (records the guard, switches to `Quoted` mode, emits nothing). -/
inductive BaseTok where
  | tok (t : Token)
  | commentTok (s : List Nat)
  | quotedOpen (s : List Nat)

/-- Byte class of the `Base` guard subpattern body: `[^#\(\) \n\r\t\\"]`. -/
def isOpenGuardByte (b : Nat) : Bool :=
  !(b == 35 || b == 40 || b == 41 || b == 92 || b == 34 || isWsByte b)

/-- `Base`-mode match for input starting with `#`: the candidates are
`Comment` (`#+[ \t][^\n\r]{1,20}`), `Bad` (`#\([^\)]{1,8}\)?` and
`#[^ \t(]`), and `Quoted` (`(#(\(body{0,8}\))?)?"`); the longest match wins,
and on the only possible equal-length conflict (`#"`, length 2 for both `Bad`
and `Quoted`) the higher-priority `Bad` pattern wins. -/
def hashTok (bs : List Nat) : Option (BaseTok × List Nat) :=
  let k := (bs.takeWhile (· == 35)).length
  let after := bs.drop k
  let m := match after with
    | c :: body => if c == 32 || c == 9 then (capRun isNotNl 20 body).length else 0
    | [] => 0
  if 0 < m then
    some (.commentTok (bs.take (k + 1 + m)), bs.drop (k + 1 + m))
  else if 2 ≤ k then
    some (.tok (.Bad (bs.take 2)), bs.drop 2)
  else
    match after with
    | [] => none
    | x :: rest2 =>
      if x == 40 then
        let q := rest2.takeWhile isOpenGuardByte
        let qn := q.length
        if qn ≤ 8 ∧ ((rest2.drop qn) matches 41 :: 34 :: _) = true then
          some (.quotedOpen (bs.take (qn + 4)), bs.drop (qn + 4))
        else
          let j := (rest2.takeWhile (fun b => !(b == 41))).length
          let j1 := min j 8
          if 1 ≤ j then
            let badLen := 2 + j1 + (if (rest2.drop j1).head? == some 41 then 1 else 0)
            some (.tok (.Bad (bs.take badLen)), bs.drop badLen)
          else none
      else if x == 34 then
        some (.tok (.Bad [35, 34]), rest2)
      else
        some (.tok (.Bad [35, x]), rest2)

/-- One `Base`-mode DFA step (`enum Base` in `lex.rs`). -/
def baseTok : List Nat → Option (BaseTok × List Nat)
  | [] => none
  | b :: rest =>
    let bs := b :: rest
    if isWsByte b then
      let s := capRun isWsByte 20 bs
      some (.tok (.WhiteSpace s), bs.drop s.length)
    else if b == 58 then some (.tok .Colon, rest)
    else if b == 40 then some (.tok .Open, rest)
    else if b == 41 then some (.tok .Close, rest)
    else if b == 92 then some (.tok (.Bad [92]), rest)
    else if b == 34 then some (.quotedOpen [34], rest)
    else if b == 35 then hashTok bs
    else
      let s := capRun isBareByte 20 bs
      some (.tok (.Bare s), bs.drop s.length)

inductive QTok where
  | Part (s : List Nat)
  | Esc (s : List Nat)
  | Bad (s : List Nat)
  | End (s : List Nat)

def isQPartByte (b : Nat) : Bool := !(b == 92 || b == 34)

/-- Byte class of the `Quoted` guard subpattern body: `[^ \n\r\t\\"]`. -/
def isQGuardByte (b : Nat) : Bool := !(b == 92 || b == 34 || isWsByte b)

/-- The escape letters of `Quoted::Esc`: `["enrt0]`. -/
def isEscLetter (b : Nat) : Bool :=
  b == 34 || b == 101 || b == 110 || b == 114 || b == 116 || b == 48

/-- Match of the guard-prefixed `Quoted` patterns (`Esc`, `Bad`, `End`) at a
position where the guard `G` has already been matched; `afterG` is the input
after `G`.  Returns the matched token together with its total length counted
from the start of `G`. -/
def qFamily (gLen : Nat) (bs afterG : List Nat) : Option (QTok × Nat) :=
  match afterG with
  | 34 :: _ => some (.End (bs.take (gLen + 1)), gLen + 1)
  | 92 :: f :: r2 =>
    if isEscLetter f then some (.Esc (bs.take (gLen + 2)), gLen + 2)
    else if f == 120 then
      if (r2.take 2).length == 2 && (r2.take 2).all isHexByte then
        some (.Esc (bs.take (gLen + 4)), gLen + 4)
      else none
    else if f == 117 then
      match r2 with
      | 123 :: r3 =>
        let h := (r3.takeWhile isHexByte).length
        if 2 ≤ h ∧ h ≤ 8 ∧ (r3.drop h).head? = some 125 then
          some (.Esc (bs.take (gLen + 4 + h)), gLen + 4 + h)
        else none
      | _ => none
    else if isWsByte f then
      let w := (capRun isWsByte 20 (f :: r2)).length
      if ((f :: r2).drop w).head? == some 92 then
        some (.Esc (bs.take (gLen + 2 + w)), gLen + 2 + w)
      else some (.Bad (bs.take (gLen + 2)), gLen + 2)
    else some (.Bad (bs.take (gLen + 2)), gLen + 2)
  | _ => none

/-- The best guard-prefixed match (`Esc`/`Bad`/`End`) at the start of a
`Quoted`-mode position: the guard is either empty (first byte `\` or `"`) or
`#` plus at most 8 guard-class bytes. -/
def qFam : List Nat → Option (QTok × Nat)
  | [] => none
  | b :: rest =>
    if b == 92 || b == 34 then qFamily 0 (b :: rest) (b :: rest)
    else if b == 35 then
      if (rest.takeWhile isQGuardByte).length ≤ 8 then
        qFamily (1 + (rest.takeWhile isQGuardByte).length) (b :: rest)
          (rest.drop (rest.takeWhile isQGuardByte).length)
      else none
    else none

/-- One `Quoted`-mode DFA step (`enum Quoted` in `lex.rs`): the longest match
among `Part` (`[^\\"]{1,20}`) and the guard-prefixed `Esc`/`Bad`/`End`
patterns.  Equal lengths cannot occur (the family matches end in a byte the
`Part` class excludes). -/
def quotedTok : List Nat → Option (QTok × List Nat)
  | [] => none
  | b :: rest =>
    let bs := b :: rest
    let pLen := (capRun isQPartByte 20 bs).length
    match qFam bs with
    | some (t, n) =>
      if pLen ≤ n then some (t, bs.drop n)
      else some (.Part (bs.take pLen), bs.drop pLen)
    | none =>
      if 1 ≤ pLen then some (.Part (bs.take pLen), bs.drop pLen)
      else none

inductive CTok where
  | Part (s : List Nat)
  | End (s : List Nat)

/-- One `Comment`-mode DFA step (`enum Comment` in `lex.rs`). -/
def commentTok : List Nat → Option (CTok × List Nat)
  | [] => none
  | b :: rest =>
    if b == 10 || b == 13 then some (.End [b], rest)
    else
      let s := capRun isNotNl 20 (b :: rest)
      some (.Part s, (b :: rest).drop s.length)

inductive LexMode where
  | base
  | comment
  | quoted
deriving DecidableEq

/-- `AxpLexer::next` iterated to the end of the stream: `g` is the recorded
open guard (`AxpLexer::guard`), the result is `none` when a DFA step matches
nothing (the `unreachable!` panic in `AxpLexer::next`).  On end-of-input in
`Quoted` mode a synthetic `Bad "\""` is emitted and lexing falls back to
`Base` mode (`lex.rs` lines 258–261). -/
def lexGo : Nat → LexMode → List Nat → List Nat → Option (List Token)
  | 0, _, _, _ => none
  | f + 1, .base, g, bs =>
    match bs with
    | [] => some []
    | _ =>
      match baseTok bs with
      | none => none
      | some (.tok t, rest) => (lexGo f .base g rest).map (t :: ·)
      | some (.commentTok s, rest) => (lexGo f .comment g rest).map (Token.Comment s :: ·)
      | some (.quotedOpen s, rest) => lexGo f .quoted s.dropLast rest
  | f + 1, .comment, g, bs =>
    match bs with
    | [] => some []
    | _ =>
      match commentTok bs with
      | none => none
      | some (.Part s, rest) => (lexGo f .comment g rest).map (Token.Comment s :: ·)
      | some (.End s, rest) => (lexGo f .base g rest).map (Token.WhiteSpace s :: ·)
  | f + 1, .quoted, g, bs =>
    match bs with
    | [] => (lexGo f .base g []).map (Token.Bad [34] :: ·)
    | _ =>
      match quotedTok bs with
      | none => none
      | some (.Part s, rest) => (lexGo f .quoted g rest).map (Token.Quoted s :: ·)
      | some (.Esc s, rest) => (lexGo f .quoted g rest).map (Token.Esc s :: ·)
      | some (.Bad s, rest) => (lexGo f .quoted g rest).map (Token.Bad s :: ·)
      | some (.End s, rest) =>
        if g == s.dropLast then lexGo f .base g rest
        else (lexGo f .quoted g rest).map (Token.Quoted s :: ·)

/-- The token stream of `lex(input).collect::<Vec<_>>()`; `none` marks a panic
of `AxpLexer::next`. -/
def lex (bs : List Nat) : Option (List Token) :=
  lexGo (2 * bs.length + 2) .base [] bs

/-! ## `item.rs` / `list.rs` / `map.rs`: the value model

`Item` is the three-variant tree (`Atom(Vec<u8>)`, `List(Vec<Item>)`,
`Map(Vec<(Item, Item)>)`).  The vectors are mirrored by the mutual list types
`ItemList`/`ItemPairs` so that all functions below are structurally recursive
(and hence kernel-computable). -/

mutual
inductive Item where
  | atom : List Nat → Item
  | list : ItemList → Item
  | map : ItemPairs → Item
deriving DecidableEq

inductive ItemList where
  | nil : ItemList
  | cons : Item → ItemList → ItemList
deriving DecidableEq

inductive ItemPairs where
  | nil : ItemPairs
  | cons : Item → Item → ItemPairs → ItemPairs
deriving DecidableEq
end

/-- `List::push` (append at the end). -/
def ItemList.push : ItemList → Item → ItemList
  | .nil, x => .cons x .nil
  | .cons y ys, x => .cons y (ys.push x)

/-- `Map::push` (append the pair at the end). -/
def ItemPairs.push : ItemPairs → Item → Item → ItemPairs
  | .nil, k, v => .cons k v .nil
  | .cons k0 v0 ps, k, v => .cons k0 v0 (ps.push k v)

/-- `Item::nil()` — the canonical empty list. -/
def Item.nil : Item := Item.list .nil

mutual
/-- `Item::format` (`item.rs` lines 57–68): atoms render through
`pretty_short`, lists as `(` + space-joined elements + `)`, maps as `(` +
space-joined `key: value` entries + `)`.  Width `0` means full output. -/
def Item.format : Item → Nat → String
  | .atom s, w => pretty s w
  | .list xs, w => "(" ++ ItemList.formatElems xs w ++ ")"
  | .map ps, w => "(" ++ ItemPairs.formatEntries ps w ++ ")"

/-- `List::format`'s `join(" ")` over the elements. -/
def ItemList.formatElems : ItemList → Nat → String
  | .nil, _ => ""
  | .cons x .nil, w => x.format w
  | .cons x xs, w => x.format w ++ " " ++ ItemList.formatElems xs w

/-- `Map::format`'s `join(" ")` over `format_entry` (`map.rs` lines 36–41). -/
def ItemPairs.formatEntries : ItemPairs → Nat → String
  | .nil, _ => ""
  | .cons k v .nil, w => k.format w ++ ": " ++ v.format w
  | .cons k v ps, w => k.format w ++ ": " ++ v.format w ++ " " ++ ItemPairs.formatEntries ps w
end

/-! ## `parse.rs`: the recursive-descent parser

`parse_compound` is one loop with three sequential positions per iteration
(key candidate, colon decision, map value); `parseGo` makes the position an
explicit `Phase` so the whole parser is one fuel-indexed structural recursion.
The token list plays the role of the parser state: its head is
`Parser::token`, `skipWs` is `Parser::skip_ws`, dropping the head is
`Parser::next`.  A nested `parse_compound` returns with the terminating
`Close` still at the head of the remainder, exactly as the Rust parser leaves
it in `parser.token`.

Error values keep only the message head of the corresponding `throw!` site
(the Rust messages add formatted details and a `[module:line]` suffix, which
the claims do not touch).  The `unreachable!` arms of `parse_compound` for
`Esc`/`WhiteSpace`/`Comment` tokens are modelled as an `"unreachable"` error;
the white-space ones are dead after `skip_ws`, while an `Esc` token at key or
value position (as in the input `"\e`) really panics in the Rust code — no
claim touches such inputs. -/

instance {α β : Type} [DecidableEq α] [DecidableEq β] : DecidableEq (Except α β) := fun a b =>
  match a, b with
  | .ok x, .ok y =>
    if h : x = y then isTrue (by rw [h]) else isFalse (fun hh => h (Except.ok.inj hh))
  | .error x, .error y =>
    if h : x = y then isTrue (by rw [h]) else isFalse (fun hh => h (Except.error.inj hh))
  | .ok _, .error _ => isFalse (fun hh => Except.noConfusion hh)
  | .error _, .ok _ => isFalse (fun hh => Except.noConfusion hh)

def Token.isSkip : Token → Bool
  | .WhiteSpace _ => true
  | .Comment _ => true
  | _ => false

def skipWs (ts : List Token) : List Token := ts.dropWhile Token.isSkip

inductive Phase where
  | key
  | afterKey (key : Item)
  | value (key : Item)

def parseGo : Nat → Bool → Phase → Item → List Token → Except String (Item × List Token)
  | 0, _, _, _, _ => .error "fuel"
  | f + 1, top, .key, item, ts =>
    match skipWs ts with
    | .Bare s :: r1 => parseGo f top (.afterKey (Item.atom s)) item r1
    | .Open :: r1 =>
      match parseGo f false .key (Item.list .nil) r1 with
      | .error e => .error e
      | .ok (key, r2) => parseGo f top (.afterKey key) item (r2.drop 1)
    | .Quoted _ :: _ => .error "todo"
    | .Bad _ :: _ => .error "bad"
    | .Colon :: _ => .error "unexpected :"
    | .Close :: r1 => if top then .error "unexpected )" else .ok (item, .Close :: r1)
    | [] => if top then .ok (item, []) else .error "unexpected end"
    | .Esc _ :: _ => .error "unreachable"
    | .WhiteSpace _ :: _ => .error "unreachable"
    | .Comment _ :: _ => .error "unreachable"
  | f + 1, top, .afterKey key, item, ts =>
    match skipWs ts, item with
    | .Colon :: r2, .list .nil => parseGo f top (.value key) (Item.map .nil) r2
    | t2, .list xs => parseGo f top .key (.list (xs.push key)) t2
    | .Colon :: r2, .map ps => parseGo f top (.value key) (.map ps) r2
    | _ :: _, .map _ => .error "unexpected token"
    | [], .map _ => .error "unexpected end"
    | _, .atom _ => .error "unreachable"
  | f + 1, top, .value key, item, ts =>
    match skipWs ts with
    | .Bare s :: r3 =>
      match item with
      | .map ps => parseGo f top .key (.map (ps.push key (Item.atom s))) r3
      | _ => .error "unreachable"
    | .Open :: r3 =>
      match parseGo f false .key (Item.list .nil) (Token.Open :: r3) with
      | .error e => .error e
      | .ok (value, r4) =>
        match item with
        | .map ps => parseGo f top .key (.map (ps.push key value)) (r4.drop 1)
        | _ => .error "unreachable"
    | .Quoted _ :: _ => .error "todo"
    | .Bad _ :: _ => .error "bad"
    | .Colon :: _ => .error "unexpected :"
    | .Close :: _ => .error "unexpected )"
    | [] => .error "unexpected end"
    | .Esc _ :: _ => .error "unreachable"
    | .WhiteSpace _ :: _ => .error "unreachable"
    | .Comment _ :: _ => .error "unreachable"

/-- `parse` (`parse.rs` lines 83–87): lex the input and run `parse_compound`
at top level on an empty list.  The outer `none` marks a tokenizer panic. -/
def parse (bs : List Nat) : Option (Except String Item) :=
  match lex bs with
  | none => none
  | some ts => some ((parseGo (4 * ts.length + 4) true .key (Item.list .nil) ts).map Prod.fst)

/-! ## Basic lemmas about the tokenizer

Every DFA step consumes at least one byte, hence `lexGo`'s result does not
depend on the fuel once the fuel is at least `2 * length + 2`. -/

theorem capRun_length_le (p : Nat → Bool) (c : Nat) (bs : List Nat) :
    (capRun p c bs).length ≤ c := by
  simp only [capRun, List.length_take]
  omega

theorem capRun_length_le_len (p : Nat → Bool) (c : Nat) (bs : List Nat) :
    (capRun p c bs).length ≤ bs.length := by
  have h := (List.takeWhile_sublist (l := bs) p).length_le
  simp only [capRun, List.length_take]
  omega

theorem capRun_pos (p : Nat → Bool) (c : Nat) (b : Nat) (bs : List Nat)
    (hp : p b = true) (hc : 1 ≤ c) : 1 ≤ (capRun p c (b :: bs)).length := by
  simp only [capRun, List.takeWhile_cons, hp, if_true, List.length_take]
  simp only [List.length_cons]
  omega

theorem hashTok_consumes (bs : List Nat) (t : BaseTok) (r : List Nat)
    (h : hashTok bs = some (t, r)) : ∃ n, 1 ≤ n ∧ r = bs.drop n := by
  simp only [hashTok] at h
  split at h
  · simp only [Option.some.injEq, Prod.mk.injEq] at h
    exact ⟨_, by omega, h.2.symm⟩
  · split at h
    · simp only [Option.some.injEq, Prod.mk.injEq] at h
      exact ⟨2, by omega, h.2.symm⟩
    · split at h
      · exact absurd h (by simp)
      · rename_i hm hk x rest2 hafter
        have hr2 : rest2 = bs.drop ((bs.takeWhile (· == 35)).length + 1) := by
          have h1 := congrArg (List.drop 1) hafter
          rw [List.drop_drop] at h1
          simpa [Nat.add_comm] using h1.symm
        split at h
        · split at h
          · simp only [Option.some.injEq, Prod.mk.injEq] at h
            exact ⟨_, by omega, h.2.symm⟩
          · split at h
            · simp only [Option.some.injEq, Prod.mk.injEq] at h
              exact ⟨_, by omega, h.2.symm⟩
            · exact absurd h (by simp)
        · split at h
          · simp only [Option.some.injEq, Prod.mk.injEq] at h
            exact ⟨(bs.takeWhile (· == 35)).length + 1, by omega, by rw [← h.2, hr2]⟩
          · simp only [Option.some.injEq, Prod.mk.injEq] at h
            exact ⟨(bs.takeWhile (· == 35)).length + 1, by omega, by rw [← h.2, hr2]⟩

theorem baseTok_consumes (bs : List Nat) (t : BaseTok) (r : List Nat)
    (h : baseTok bs = some (t, r)) : r.length < bs.length := by
  match bs with
  | [] => simp [baseTok] at h
  | b :: rest =>
    simp only [baseTok] at h
    have hlen : ∀ n, 1 ≤ n → ((b :: rest).drop n).length < (b :: rest).length := by
      intro n hn
      simp only [List.length_drop, List.length_cons]
      omega
    split at h
    · rename_i hws
      simp only [Option.some.injEq, Prod.mk.injEq] at h
      rw [← h.2]
      exact hlen _ (capRun_pos _ _ _ _ hws (by omega))
    · split at h
      · simp only [Option.some.injEq, Prod.mk.injEq] at h
        rw [← h.2]; simp
      · split at h
        · simp only [Option.some.injEq, Prod.mk.injEq] at h
          rw [← h.2]; simp
        · split at h
          · simp only [Option.some.injEq, Prod.mk.injEq] at h
            rw [← h.2]; simp
          · split at h
            · simp only [Option.some.injEq, Prod.mk.injEq] at h
              rw [← h.2]; simp
            · split at h
              · simp only [Option.some.injEq, Prod.mk.injEq] at h
                rw [← h.2]; simp
              · split at h
                · obtain ⟨n, hn, hr⟩ := hashTok_consumes _ _ _ h
                  rw [hr]; exact hlen n hn
                · rename_i h1 h2 h3 h4 h5 h6 h7
                  simp only [Option.some.injEq, Prod.mk.injEq] at h
                  rw [← h.2]
                  refine hlen _ (capRun_pos _ _ _ _ ?_ (by omega))
                  have eqf : ∀ (x : Nat), ¬((b == x) = true) → (b == x) = false := by
                    intro x hx
                    cases e : b == x
                    · rfl
                    · exact absurd e hx
                  have hws : isWsByte b = false := by
                    cases hw : isWsByte b
                    · rfl
                    · exact absurd hw h1
                  simp [isBareByte, eqf 58 h2, eqf 35 h7, eqf 40 h3, eqf 41 h4,
                    eqf 92 h5, eqf 34 h6, hws]

theorem qFamily_pos (g : Nat) (bs afterG : List Nat) (t : QTok) (n : Nat)
    (h : qFamily g bs afterG = some (t, n)) : 1 ≤ n := by
  simp only [qFamily] at h
  repeat' split at h
  all_goals simp only [Option.some.injEq, Prod.mk.injEq, reduceCtorEq] at h
  all_goals omega

theorem qFam_pos (bs : List Nat) (t : QTok) (n : Nat)
    (h : qFam bs = some (t, n)) : 1 ≤ n := by
  match bs with
  | [] => simp [qFam] at h
  | b :: rest =>
    simp only [qFam] at h
    split at h
    · exact qFamily_pos _ _ _ _ _ h
    · split at h
      · split at h
        · exact qFamily_pos _ _ _ _ _ h
        · exact absurd h (by simp)
      · exact absurd h (by simp)

theorem quotedTok_consumes (bs : List Nat) (t : QTok) (r : List Nat)
    (h : quotedTok bs = some (t, r)) : r.length < bs.length := by
  match bs with
  | [] => simp [quotedTok] at h
  | b :: rest =>
    simp only [quotedTok] at h
    have hlen : ∀ n, 1 ≤ n → ((b :: rest).drop n).length < (b :: rest).length := by
      intro n hn
      simp only [List.length_drop, List.length_cons]
      omega
    split at h
    · rename_i tq nq hfam
      have hn : 1 ≤ nq := qFam_pos _ _ _ hfam
      split at h
      · simp only [Option.some.injEq, Prod.mk.injEq] at h
        rw [← h.2]; exact hlen _ hn
      · rename_i hp
        simp only [Option.some.injEq, Prod.mk.injEq] at h
        rw [← h.2]; exact hlen _ (by omega)
    · split at h
      · rename_i hp
        simp only [Option.some.injEq, Prod.mk.injEq] at h
        rw [← h.2]; exact hlen _ hp
      · exact absurd h (by simp)

theorem commentTok_consumes (bs : List Nat) (t : CTok) (r : List Nat)
    (h : commentTok bs = some (t, r)) : r.length < bs.length := by
  match bs with
  | [] => simp [commentTok] at h
  | b :: rest =>
    simp only [commentTok] at h
    split at h
    · simp only [Option.some.injEq, Prod.mk.injEq] at h
      rw [← h.2]; simp
    · rename_i hb
      simp only [Option.some.injEq, Prod.mk.injEq] at h
      rw [← h.2]
      have : 1 ≤ (capRun isNotNl 20 (b :: rest)).length := by
        refine capRun_pos _ _ _ _ ?_ (by omega)
        simp only [isNotNl]
        simp only [Bool.or_eq_true, beq_iff_eq, not_or] at hb ⊢
        simp [hb.1, hb.2]
      simp only [List.length_drop, List.length_cons]
      omega

theorem lexGo_nil_base (f : Nat) (gd : List Nat) (hf : 1 ≤ f) :
    lexGo f .base gd [] = some [] := by
  match f with
  | g + 1 => rfl

theorem lexGo_fuel (n : Nat) : ∀ (bs : List Nat) (f g : Nat) (md : LexMode) (gd : List Nat),
    bs.length ≤ n → 2 * bs.length + 2 ≤ f → 2 * bs.length + 2 ≤ g →
    lexGo f md gd bs = lexGo g md gd bs := by
  induction n with
  | zero =>
    intro bs f g md gd hlen hf hg
    have hbs : bs = [] := List.length_eq_zero.mp (by omega)
    subst hbs
    obtain ⟨f1, rfl⟩ : ∃ f1, f = f1 + 1 := ⟨f - 1, by omega⟩
    obtain ⟨g1, rfl⟩ : ∃ g1, g = g1 + 1 := ⟨g - 1, by omega⟩
    cases md <;> simp only [lexGo] <;>
      rw [lexGo_nil_base f1 gd (by omega), lexGo_nil_base g1 gd (by omega)]
  | succ m ih =>
    intro bs f g md gd hlen hf hg
    match bs with
    | [] =>
      obtain ⟨f1, rfl⟩ : ∃ f1, f = f1 + 1 := ⟨f - 1, by omega⟩
      obtain ⟨g1, rfl⟩ : ∃ g1, g = g1 + 1 := ⟨g - 1, by omega⟩
      cases md <;> simp only [lexGo] <;>
        rw [lexGo_nil_base f1 gd (by omega), lexGo_nil_base g1 gd (by omega)]
    | b :: rest =>
      obtain ⟨f1, rfl⟩ : ∃ f1, f = f1 + 1 := ⟨f - 1, by omega⟩
      obtain ⟨g1, rfl⟩ : ∃ g1, g = g1 + 1 := ⟨g - 1, by omega⟩
      have hrec : ∀ (bs' : List Nat) (md' : LexMode) (gd' : List Nat),
          bs'.length < (b :: rest).length →
          lexGo f1 md' gd' bs' = lexGo g1 md' gd' bs' := by
        intro bs' md' gd' hlt
        exact ih bs' f1 g1 md' gd' (by omega) (by omega) (by omega)
      cases md with
      | base =>
        simp only [lexGo]
        rcases hb : baseTok (b :: rest) with _ | ⟨bt, r⟩
        · rfl
        · have hcons := baseTok_consumes _ _ _ hb
          cases bt with
          | tok t => dsimp only; rw [hrec r .base gd hcons]
          | commentTok s => dsimp only; rw [hrec r .comment gd hcons]
          | quotedOpen s => dsimp only; rw [hrec r .quoted s.dropLast hcons]
      | comment =>
        simp only [lexGo]
        rcases hb : commentTok (b :: rest) with _ | ⟨ct, r⟩
        · rfl
        · have hcons := commentTok_consumes _ _ _ hb
          cases ct with
          | Part s => dsimp only; rw [hrec r .comment gd hcons]
          | End s => dsimp only; rw [hrec r .base gd hcons]
      | quoted =>
        simp only [lexGo]
        rcases hb : quotedTok (b :: rest) with _ | ⟨qt, r⟩
        · rfl
        · have hcons := quotedTok_consumes _ _ _ hb
          cases qt with
          | Part s => dsimp only; rw [hrec r .quoted gd hcons]
          | Esc s => dsimp only; rw [hrec r .quoted gd hcons]
          | Bad s => dsimp only; rw [hrec r .quoted gd hcons]
          | End s =>
            dsimp only
            cases hgd : (gd == s.dropLast) with
            | true =>
              simp only [hgd, if_true]
              exact hrec r .base gd hcons
            | false =>
              simp only [hgd, Bool.false_eq_true, if_false]
              rw [hrec r .quoted gd hcons]

/-- `lexGo` at any sufficient fuel agrees with the canonical entry `lex`. -/
theorem lexGo_eq_lex (f : Nat) (bs : List Nat) (hf : 2 * bs.length + 2 ≤ f) :
    lexGo f .base [] bs = lex bs :=
  lexGo_fuel bs.length bs f (2 * bs.length + 2) .base [] le_rfl hf le_rfl

/-! ## Token size bounds -/

/-- The per-token byte-span cap asserted by the spec for chained runs:
`Bare`, `WhiteSpace` and `Quoted` content tokens never exceed 20 bytes. -/
def capOk : Token → Bool
  | .Bare s => decide (s.length ≤ 20)
  | .WhiteSpace s => decide (s.length ≤ 20)
  | .Quoted s => decide (s.length ≤ 20)
  | _ => true

theorem baseTok_tok_capOk (bs : List Nat) (t : Token) (r : List Nat)
    (h : baseTok bs = some (.tok t, r)) : capOk t = true := by
  match bs with
  | [] => simp [baseTok] at h
  | b :: rest =>
    simp only [baseTok] at h
    split at h
    · simp only [Option.some.injEq, Prod.mk.injEq, BaseTok.tok.injEq] at h
      rw [← h.1]
      simp only [capOk, decide_eq_true_eq]
      exact capRun_length_le _ _ _
    · split at h
      · simp only [Option.some.injEq, Prod.mk.injEq, BaseTok.tok.injEq] at h
        rw [← h.1]; rfl
      · split at h
        · simp only [Option.some.injEq, Prod.mk.injEq, BaseTok.tok.injEq] at h
          rw [← h.1]; rfl
        · split at h
          · simp only [Option.some.injEq, Prod.mk.injEq, BaseTok.tok.injEq] at h
            rw [← h.1]; rfl
          · split at h
            · simp only [Option.some.injEq, Prod.mk.injEq, BaseTok.tok.injEq] at h
              rw [← h.1]; rfl
            · split at h
              · simp only [Option.some.injEq, Prod.mk.injEq, reduceCtorEq, false_and] at h
              · split at h
                · -- hashTok: the only `.tok` results are `Bad`, for which `capOk` holds
                  simp only [hashTok] at h
                  split at h
                  · simp only [Option.some.injEq, Prod.mk.injEq, reduceCtorEq,
                      false_and] at h
                  · split at h
                    · simp only [Option.some.injEq, Prod.mk.injEq, BaseTok.tok.injEq] at h
                      rw [← h.1]; rfl
                    · split at h
                      · exact absurd h (by simp)
                      · split at h
                        · split at h
                          · simp only [Option.some.injEq, Prod.mk.injEq, reduceCtorEq,
                              false_and] at h
                          · split at h
                            · simp only [Option.some.injEq, Prod.mk.injEq,
                                BaseTok.tok.injEq] at h
                              rw [← h.1]; rfl
                            · exact absurd h (by simp)
                        · split at h
                          · simp only [Option.some.injEq, Prod.mk.injEq,
                              BaseTok.tok.injEq] at h
                            rw [← h.1]; rfl
                          · simp only [Option.some.injEq, Prod.mk.injEq,
                              BaseTok.tok.injEq] at h
                            rw [← h.1]; rfl
                · simp only [Option.some.injEq, Prod.mk.injEq, BaseTok.tok.injEq] at h
                  rw [← h.1]
                  simp only [capOk, decide_eq_true_eq]
                  exact capRun_length_le _ _ _

theorem qFamily_end_take (g : Nat) (bs afterG : List Nat) (s : List Nat) (n : Nat)
    (h : qFamily g bs afterG = some (.End s, n)) : s.length ≤ g + 1 := by
  simp only [qFamily] at h
  repeat' split at h
  all_goals simp only [Option.some.injEq, Prod.mk.injEq, QTok.End.injEq,
    reduceCtorEq, false_and] at h
  rw [← h.1]
  have := List.length_take_le (g + 1) bs
  omega

theorem quotedTok_capOk (bs : List Nat) (t : QTok) (r : List Nat)
    (h : quotedTok bs = some (t, r)) :
    (∀ s, t = .Part s → s.length ≤ 20) ∧ (∀ s, t = .End s → s.length ≤ 20) := by
  match bs with
  | [] => simp [quotedTok] at h
  | b :: rest =>
    simp only [quotedTok] at h
    split at h
    · rename_i tq nq hfam
      split at h
      · simp only [Option.some.injEq, Prod.mk.injEq] at h
        obtain ⟨rfl, -⟩ := h
        constructor
        · intro s hs
          subst hs
          -- a `Part` result never comes out of `qFam`
          exfalso
          simp only [qFam] at hfam
          split at hfam
          · simp only [qFamily] at hfam
            repeat' split at hfam
            all_goals simp at hfam
          · split at hfam
            · split at hfam
              · simp only [qFamily] at hfam
                repeat' split at hfam
                all_goals simp at hfam
              · simp at hfam
            · simp at hfam
        · intro s hs
          subst hs
          have h10 : s.length ≤ 10 → s.length ≤ 20 := by omega
          simp only [qFam] at hfam
          split at hfam
          · have := qFamily_end_take _ _ _ _ _ hfam
            omega
          · split at hfam
            · split at hfam
              · rename_i hgb
                have := qFamily_end_take _ _ _ _ _ hfam
                omega
              · simp at hfam
            · simp at hfam
      · simp only [Option.some.injEq, Prod.mk.injEq] at h
        obtain ⟨rfl, -⟩ := h
        refine ⟨fun s hs => ?_, fun s hs => by simp at hs⟩
        obtain rfl := QTok.Part.inj hs.symm
        have := List.length_take_le (capRun isQPartByte 20 (b :: rest)).length (b :: rest)
        have := capRun_length_le isQPartByte 20 (b :: rest)
        omega
    · split at h
      · simp only [Option.some.injEq, Prod.mk.injEq] at h
        obtain ⟨rfl, -⟩ := h
        refine ⟨fun s hs => ?_, fun s hs => by simp at hs⟩
        obtain rfl := QTok.Part.inj hs.symm
        have := List.length_take_le (capRun isQPartByte 20 (b :: rest)).length (b :: rest)
        have := capRun_length_le isQPartByte 20 (b :: rest)
        omega
      · exact absurd h (by simp)

theorem commentTok_end_ws (bs : List Nat) (s : List Nat) (r : List Nat)
    (h : commentTok bs = some (.End s, r)) : s.length ≤ 20 := by
  match bs with
  | [] => simp [commentTok] at h
  | b :: rest =>
    simp only [commentTok] at h
    split at h
    · simp only [Option.some.injEq, Prod.mk.injEq, CTok.End.injEq] at h
      rw [← h.1]; simp
    · simp only [Option.some.injEq, Prod.mk.injEq, reduceCtorEq, false_and] at h

/-- Main cap lemma: every `Bare`, `WhiteSpace` or `Quoted` token of a
successful lex has a byte span of at most 20. -/
theorem lexGo_capOk (f : Nat) : ∀ (md : LexMode) (gd bs : List Nat) (ts : List Token),
    lexGo f md gd bs = some ts → ts.all capOk = true := by
  induction f with
  | zero => intro md gd bs ts h; simp [lexGo] at h
  | succ f ih =>
    intro md gd bs ts h
    cases md with
    | base =>
      match bs with
      | [] =>
        simp only [lexGo] at h
        obtain rfl := Option.some.inj h
        rfl
      | b :: rest =>
        simp only [lexGo] at h
        rcases hb : baseTok (b :: rest) with _ | ⟨bt, r⟩ <;> rw [hb] at h
        · simp at h
        · cases bt with
          | tok t =>
            dsimp only at h
            rcases Option.map_eq_some'.mp h with ⟨ts', hts', rfl⟩
            simp only [List.all_cons, Bool.and_eq_true]
            exact ⟨baseTok_tok_capOk _ _ _ hb, ih _ _ _ _ hts'⟩
          | commentTok s =>
            dsimp only at h
            rcases Option.map_eq_some'.mp h with ⟨ts', hts', rfl⟩
            simp only [List.all_cons, Bool.and_eq_true]
            exact ⟨rfl, ih _ _ _ _ hts'⟩
          | quotedOpen s =>
            dsimp only at h
            exact ih _ _ _ _ h
    | comment =>
      match bs with
      | [] =>
        simp only [lexGo] at h
        obtain rfl := Option.some.inj h
        rfl
      | b :: rest =>
        simp only [lexGo] at h
        rcases hb : commentTok (b :: rest) with _ | ⟨ct, r⟩ <;> rw [hb] at h
        · simp at h
        · cases ct with
          | Part s =>
            dsimp only at h
            rcases Option.map_eq_some'.mp h with ⟨ts', hts', rfl⟩
            simp only [List.all_cons, Bool.and_eq_true]
            exact ⟨rfl, ih _ _ _ _ hts'⟩
          | End s =>
            dsimp only at h
            rcases Option.map_eq_some'.mp h with ⟨ts', hts', rfl⟩
            simp only [List.all_cons, Bool.and_eq_true]
            refine ⟨?_, ih _ _ _ _ hts'⟩
            simp only [capOk, decide_eq_true_eq]
            exact commentTok_end_ws _ _ _ hb
    | quoted =>
      match bs with
      | [] =>
        simp only [lexGo] at h
        rcases Option.map_eq_some'.mp h with ⟨ts', hts', rfl⟩
        simp only [List.all_cons, Bool.and_eq_true]
        exact ⟨rfl, ih _ _ _ _ hts'⟩
      | b :: rest =>
        simp only [lexGo] at h
        rcases hb : quotedTok (b :: rest) with _ | ⟨qt, r⟩ <;> rw [hb] at h
        · simp at h
        · cases qt with
          | Part s =>
            dsimp only at h
            rcases Option.map_eq_some'.mp h with ⟨ts', hts', rfl⟩
            simp only [List.all_cons, Bool.and_eq_true]
            refine ⟨?_, ih _ _ _ _ hts'⟩
            simp only [capOk, decide_eq_true_eq]
            exact (quotedTok_capOk _ _ _ hb).1 s rfl
          | Esc s =>
            dsimp only at h
            rcases Option.map_eq_some'.mp h with ⟨ts', hts', rfl⟩
            simp only [List.all_cons, Bool.and_eq_true]
            exact ⟨rfl, ih _ _ _ _ hts'⟩
          | Bad s =>
            dsimp only at h
            rcases Option.map_eq_some'.mp h with ⟨ts', hts', rfl⟩
            simp only [List.all_cons, Bool.and_eq_true]
            exact ⟨rfl, ih _ _ _ _ hts'⟩
          | End s =>
            dsimp only at h
            split at h
            · exact ih _ _ _ _ h
            · rcases Option.map_eq_some'.mp h with ⟨ts', hts', rfl⟩
              simp only [List.all_cons, Bool.and_eq_true]
              refine ⟨?_, ih _ _ _ _ hts'⟩
              simp only [capOk, decide_eq_true_eq]
              exact (quotedTok_capOk _ _ _ hb).2 s rfl

/-! ## One-step unfolding equations for `lexGo` -/

theorem lexGo_base_cons (f : Nat) (gd : List Nat) (b : Nat) (rest : List Nat) :
    lexGo (f + 1) .base gd (b :: rest) =
      match baseTok (b :: rest) with
      | none => none
      | some (.tok t, r) => (lexGo f .base gd r).map (t :: ·)
      | some (.commentTok s, r) => (lexGo f .comment gd r).map (Token.Comment s :: ·)
      | some (.quotedOpen s, r) => lexGo f .quoted s.dropLast r := rfl

theorem lexGo_comment_cons (f : Nat) (gd : List Nat) (b : Nat) (rest : List Nat) :
    lexGo (f + 1) .comment gd (b :: rest) =
      match commentTok (b :: rest) with
      | none => none
      | some (.Part s, r) => (lexGo f .comment gd r).map (Token.Comment s :: ·)
      | some (.End s, r) => (lexGo f .base gd r).map (Token.WhiteSpace s :: ·) := rfl

theorem lexGo_quoted_cons (f : Nat) (gd : List Nat) (b : Nat) (rest : List Nat) :
    lexGo (f + 1) .quoted gd (b :: rest) =
      match quotedTok (b :: rest) with
      | none => none
      | some (.Part s, r) => (lexGo f .quoted gd r).map (Token.Quoted s :: ·)
      | some (.Esc s, r) => (lexGo f .quoted gd r).map (Token.Esc s :: ·)
      | some (.Bad s, r) => (lexGo f .quoted gd r).map (Token.Bad s :: ·)
      | some (.End s, r) =>
        if gd == s.dropLast then lexGo f .base gd r
        else (lexGo f .quoted gd r).map (Token.Quoted s :: ·) := rfl

/-! ## Claim theorems: tokenizer (C5, C6, C7) -/

/-- C5, counterexample: the claim says a NUL byte is emitted as its own
single-byte `Bad` token; in fact the tokenizer treats NUL as an ordinary
bare-word byte, so `lex [0]` yields one `Bare` token and no `Bad` token at
all (the crate's own test asserts `Bare(b"a\0b")`). -/
theorem c5_counterexample : lex [0] = some [Token.Bare [0]] := by decide

/-- C5, amended: only the stray backslash is emitted as its own single-byte
`Bad` token with lexing continuing after it; a NUL byte lexes as an ordinary
`Bare` byte, and a stray `#` (followed by a byte other than space, tab, `(`,
`"` and `#`) is emitted as a two-byte `Bad` token covering the `#` and the
following byte. -/
theorem c5_amended :
    (∀ rest, lex (92 :: rest) = (lex rest).map (fun ts => Token.Bad [92] :: ts)) ∧
    lex [0] = some [Token.Bare [0]] ∧
    (∀ b rest, ¬(b = 32 ∨ b = 9 ∨ b = 40 ∨ b = 34 ∨ b = 35) →
      lex (35 :: b :: rest) = (lex rest).map (fun ts => Token.Bad [35, b] :: ts)) := by
  refine ⟨?_, by decide, ?_⟩
  · intro rest
    have hfe : 2 * (92 :: rest).length + 2 = (2 * rest.length + 3) + 1 := by
      simp only [List.length_cons]; omega
    have hb : baseTok (92 :: rest) = some (.tok (.Bad [92]), rest) := rfl
    rw [lex, hfe, lexGo_base_cons, hb]
    dsimp only
    rw [lexGo_eq_lex _ _ (by omega)]
  · intro b rest hn
    have h32 : (b == 32) = false := by simp; omega
    have h9 : (b == 9) = false := by simp; omega
    have h40 : (b == 40) = false := by simp; omega
    have h34 : (b == 34) = false := by simp; omega
    have h35 : (b == 35) = false := by simp; omega
    have h10 : isWsByte b = true ∨ isWsByte b = false := by
      cases isWsByte b <;> simp
    have hb : baseTok (35 :: b :: rest) = some (.tok (.Bad [35, b]), rest) := by
      simp only [baseTok, hashTok, isWsByte, List.takeWhile_cons, h35]
      norm_num [h32, h9, h40, h34]
    have hfe : 2 * (35 :: b :: rest).length + 2 = (2 * rest.length + 5) + 1 := by
      simp only [List.length_cons]; omega
    rw [lex, hfe, lexGo_base_cons, hb]
    dsimp only
    rw [lexGo_eq_lex _ _ (by omega)]

/-- C5, amended, witness at `#k` (bytes `35, 107`) and empty continuation. -/
theorem c5_amended_witness :
    ¬((107 : Nat) = 32 ∨ (107 : Nat) = 9 ∨ (107 : Nat) = 40 ∨ (107 : Nat) = 34 ∨
      (107 : Nat) = 35) ∧
    lex [35, 107] = (lex []).map (fun ts => Token.Bad [35, 107] :: ts) :=
  ⟨by decide, c5_amended.2.2 107 [] (by decide)⟩

/-- C6, counterexample: the claim says no single token's byte span exceeds the
20-byte cap; but the `Base`-mode comment pattern `#+[ \t][^\n\r]{1,20}` has an
unbounded `#+` prefix, so 21 `#`s followed by a space and one body byte lex as
one 23-byte `Comment` token. -/
theorem c6_counterexample :
    lex (List.replicate 21 35 ++ [32, 97]) =
      some [Token.Comment (List.replicate 21 35 ++ [32, 97])] ∧
    (List.replicate 21 35 ++ [32, 97]).length = 23 := by decide

/-- C6, amended: every `Bare`, `WhiteSpace` and `Quoted` token of a successful
lex spans at most 20 bytes (longer runs are chained as consecutive capped
tokens); the `Base`-mode `Comment` token is exempt since its `#+` opener is
unbounded. -/
theorem c6_amended (bs : List Nat) (ts : List Token) (h : lex bs = some ts) :
    ts.all capOk = true :=
  lexGo_capOk _ _ _ _ _ h

/-- C6, amended, witness: the crate's own 36-byte bare-run test input. -/
theorem c6_amended_witness :
    lex (strBytes "0123456789abcdefghijklmnopqrstuvwxyz") =
      some [Token.Bare (strBytes "0123456789abcdefghij"),
        Token.Bare (strBytes "klmnopqrstuvwxyz")] ∧
    ([Token.Bare (strBytes "0123456789abcdefghij"),
      Token.Bare (strBytes "klmnopqrstuvwxyz")]).all capOk = true :=
  ⟨by decide, c6_amended (strBytes "0123456789abcdefghijklmnopqrstuvwxyz")
    [Token.Bare (strBytes "0123456789abcdefghij"),
      Token.Bare (strBytes "klmnopqrstuvwxyz")] (by decide)⟩

/-- C7, counterexample: the claim says an input ending inside `Quoted` mode
yields exactly one synthetic `Bad` token and clean termination; but the input
`"\` (quote then lone backslash) leaves the `Quoted`-mode DFA with no matching
token, which `AxpLexer::next` turns into the `unreachable!` panic (modelled as
`none`), not a `Bad` token. -/
theorem c7_counterexample : lex [34, 92] = none := by decide

/-- C7, amended: whenever the byte stream is exhausted while the lexer is in
`Quoted` mode (with any recorded guard), exactly one synthetic `Bad "\""`
token is emitted for the missing closing quote, the lexer falls back to
`Base` mode, and the token stream ends cleanly; but an unmatched byte
sequence in `Quoted` mode aborts instead (see the counterexample). -/
theorem c7_amended (g : List Nat) (f : Nat) (hf : 2 ≤ f) :
    lexGo f .quoted g [] = some [Token.Bad [34]] := by
  obtain ⟨f1, rfl⟩ : ∃ f1, f = f1 + 1 := ⟨f - 1, by omega⟩
  simp only [lexGo]
  rw [lexGo_nil_base f1 g (by omega)]
  rfl

/-- C7, amended, witness at guard `#(gd)` and fuel 2. -/
theorem c7_amended_witness :
    2 ≤ 2 ∧ lexGo 2 .quoted [35, 40, 103, 100, 41] [] = some [Token.Bad [34]] :=
  ⟨by decide, c7_amended [35, 40, 103, 100, 41] 2 (by decide)⟩

/-! ## Lemmas about the pretty renderer -/

/-- Printable ASCII other than backslash: rendered verbatim as one character
per byte. -/
def isPlainAscii (b : Nat) : Bool := (0x20 ≤ b && b ≤ 0x7E) && !(b == 92)

def sumCC (os : List Output) : Nat := (os.map Output.charCount).sum

theorem escapeScalar_plain (b : Nat) (h1 : 32 ≤ b) (h2 : b ≤ 126) (h3 : b ≠ 92) :
    escapeScalar b = String.singleton (Char.ofNat b) := by
  unfold escapeScalar
  rw [if_neg (by omega), if_neg (by omega), if_neg (by omega), if_neg (by omega),
    if_neg (by omega), if_neg (by simp [isAsciiControl]; omega),
    if_neg (by simp [charIsControl]; omega)]

theorem outputNext_plain (b : Nat) (rest : List Nat) (h : isPlainAscii b = true) :
    outputNext (b :: rest) = some (⟨String.singleton (Char.ofNat b), 1, true⟩, rest) := by
  simp only [isPlainAscii, Bool.and_eq_true, Bool.not_eq_true', beq_eq_false_iff_ne,
    decide_eq_true_eq] at h
  obtain ⟨⟨h1, h2⟩, h3⟩ := h
  have htake : (b :: rest).take 4 = b :: rest.take 3 := rfl
  have hu : utf8First ((b :: rest).take 4) = some (b, 1) := by
    rw [htake]
    simp only [utf8First]
    rw [if_pos (by omega)]
  simp only [outputNext]
  rw [hu]
  dsimp only
  rw [escapeScalar_plain b h1 h2 h3]
  rfl

/-- The unit of one plain ASCII byte. -/
def plainUnit (b : Nat) : Output := ⟨String.singleton (Char.ofNat b), 1, true⟩

theorem outputUnits_plain (bs : List Nat) (hp : ∀ b ∈ bs, isPlainAscii b = true) :
    ∀ f, bs.length ≤ f → outputUnits f bs = bs.map plainUnit := by
  induction bs with
  | nil =>
    intro f _
    match f with
    | 0 => rfl
    | g + 1 => rfl
  | cons b rest ih =>
    intro f hf
    match f with
    | g + 1 =>
      simp only [outputUnits]
      rw [outputNext_plain b rest (hp b (by simp))]
      simp only [List.map_cons]
      rw [ih (fun x hx => hp x (by simp [hx])) g (by simpa using hf)]
      rfl

theorem units_plain (bs : List Nat) (hp : ∀ b ∈ bs, isPlainAscii b = true) :
    units bs = bs.map plainUnit :=
  outputUnits_plain bs hp bs.length le_rfl

theorem coalesced_head_ones (us : List Output) (hv : ∀ u ∈ us, u.valid_utf8 = true)
    (hc : ∀ u ∈ us, u.charCount = 1) :
    ∀ w2 cc, (coalescedGo false (headUnitsGo w2 cc us)).length = min (w2 - cc) us.length := by
  induction us with
  | nil => intro w2 cc; simp [headUnitsGo, coalescedGo]
  | cons u us ih =>
    intro w2 cc
    simp only [headUnitsGo]
    by_cases hcc : w2 ≤ cc
    · rw [if_pos hcc]
      simp [coalescedGo]
      omega
    · rw [if_neg hcc]
      have hvu : u.valid_utf8 = true := hv u (by simp)
      have h1 : u.contents.length = 1 := hc u (by simp)
      simp only [coalescedGo, hvu, if_true]
      have h2 : u.charCount = 1 := hc u (by simp)
      simp only [String.length_append, h1, List.length_cons, h2,
        Bool.false_eq_true, if_false, String.length_empty]
      rw [ih (fun x hx => hv x (by simp [hx])) (fun x hx => hc x (by simp [hx]))
        w2 (cc + 1)]
      omega

theorem clampWidth_pos (w : Nat) (hw : 0 < w) : 0 < clampWidth w := by
  unfold clampWidth
  split <;> omega

theorem clampWidth_div2_ge (w : Nat) : w / 2 ≤ clampWidth w / 2 := by
  unfold clampWidth
  split
  · rename_i h
    simp only [Bool.and_eq_true, decide_eq_true_eq] at h
    omega
  · omega

/-- C8, counterexample: the claim says the head half consists of
`(width+1)/2` decoded characters; at width 7 on the crate's own test input
the head is `"abc"` — 3 characters, not `(7+1)/2 = 4` (the code computes
`width / 2`). -/
theorem c8_counterexample :
    (prettyHeadStr (strBytes "abcdefghijklmn") 7).length = 3 ∧ (7 + 1) / 2 = 4 ∧
    pretty (strBytes "abcdefghijklmn") 7 = "abc⠤lmn" := by decide

/-- C8, amended: widths 1–6 are clamped up to 6; the head half then consists
of `min (clampedWidth / 2) (input length)` decoded characters — the budget is
`floor(width/2)`, not `(width+1)/2` — and the tail-half character budget is
`clampedWidth / 2 + clampedWidth % 2 - 1 = (clampedWidth+1)/2 - 1`. -/
theorem c8_amended (bs : List Nat) (w : Nat) (hw : 0 < w)
    (hp : ∀ b ∈ bs, isPlainAscii b = true) :
    (prettyHeadStr bs w).length = min (clampWidth w / 2) bs.length ∧
    tailBudget (clampWidth w) = (clampWidth w + 1) / 2 - 1 := by
  constructor
  · have hW : 0 < clampWidth w := clampWidth_pos w hw
    have hu : units bs = bs.map plainUnit := units_plain bs hp
    simp only [prettyHeadStr, prettyHead, coalesced]
    rw [if_pos hW, hu]
    have hv : ∀ u ∈ bs.map plainUnit, u.valid_utf8 = true := by
      intro u hu'
      rcases List.mem_map.mp hu' with ⟨b, _, rfl⟩
      rfl
    have hc : ∀ u ∈ bs.map plainUnit, u.charCount = 1 := by
      intro u hu'
      rcases List.mem_map.mp hu' with ⟨b, _, rfl⟩
      rfl
    rw [coalesced_head_ones _ hv hc (clampWidth w / 2) 0]
    simp
  · unfold tailBudget
    omega

/-- C8, amended, witness at `"abcdefgh"` and width 7. -/
theorem c8_amended_witness :
    (0 < 7 ∧ ∀ b ∈ strBytes "abcdefgh", isPlainAscii b = true) ∧
    ((prettyHeadStr (strBytes "abcdefgh") 7).length = min (clampWidth 7 / 2)
      (strBytes "abcdefgh").length ∧
     tailBudget (clampWidth 7) = (clampWidth 7 + 1) / 2 - 1) :=
  ⟨⟨by decide, by decide⟩, c8_amended (strBytes "abcdefgh") 7 (by decide) (by decide)⟩

theorem utf8First_bounds (bs : List Nat) (cp l : Nat) (h : utf8First bs = some (cp, l)) :
    1 ≤ l ∧ l ≤ bs.length := by
  match bs with
  | [] => simp [utf8First] at h
  | b0 :: rest =>
    simp only [utf8First] at h
    repeat' split at h
    all_goals simp only [Option.some.injEq, Prod.mk.injEq, reduceCtorEq] at h
    all_goals obtain ⟨-, rfl⟩ := h
    all_goals simp_all [List.length_cons]
    all_goals omega

theorem escapeScalar_len_pos (cp : Nat) : 1 ≤ (escapeScalar cp).length := by
  unfold escapeScalar
  repeat' split
  · decide
  · decide
  · decide
  · decide
  · decide
  · rw [String.length_append]
    have h2 : "\\x".length = 2 := by decide
    omega
  · rw [String.length_append, String.length_append]
    have h2 : "\\X".length = 2 := by decide
    omega
  · have h1 : (String.singleton (Char.ofNat cp)).length = 1 := rfl
    omega

theorem outputNext_step (bs : List Nat) (o : Output) (r : List Nat)
    (h : outputNext bs = some (o, r)) :
    1 ≤ o.charCount ∧ 1 ≤ o.input_len ∧ o.input_len + r.length = bs.length := by
  match bs with
  | [] => simp [outputNext] at h
  | b :: rest =>
    simp only [outputNext] at h
    split at h
    · rename_i cp l hu
      obtain ⟨h1, h2⟩ := utf8First_bounds _ _ _ hu
      have h3 : l ≤ (b :: rest).length := by
        have h4 := List.length_take 4 (b :: rest)
        omega
      simp only [Option.some.injEq, Prod.mk.injEq] at h
      obtain ⟨he, hr⟩ := h
      subst he; subst hr
      refine ⟨escapeScalar_len_pos cp, h1, ?_⟩
      simp only [List.length_drop]
      omega
    · simp only [Option.some.injEq, Prod.mk.injEq] at h
      obtain ⟨he, hr⟩ := h
      subst he; subst hr
      have h2 : (hex2 b).length = 2 := rfl
      refine ⟨?_, Nat.le_refl 1, ?_⟩
      · show 1 ≤ (hex2 b).length
        omega
      · simp only [List.length_cons]
        omega

theorem outputNext_some (b : Nat) (rest : List Nat) :
    ∃ o r, outputNext (b :: rest) = some (o, r) := by
  simp only [outputNext]
  rcases utf8First ((b :: rest).take 4) with _ | ⟨cp, l⟩
  · exact ⟨_, _, rfl⟩
  · exact ⟨_, _, rfl⟩

theorem sumInputLen_outputUnits (f : Nat) : ∀ (bs : List Nat), bs.length ≤ f →
    sumInputLen (outputUnits f bs) = bs.length := by
  induction f with
  | zero =>
    intro bs h
    obtain rfl : bs = [] := List.length_eq_zero.mp (by omega)
    rfl
  | succ f ih =>
    intro bs hf
    match bs with
    | [] => rfl
    | b :: rest =>
      obtain ⟨o, r, ho⟩ := outputNext_some b rest
      obtain ⟨-, hpos, hsum⟩ := outputNext_step _ _ _ ho
      simp only [outputUnits, ho]
      simp only [sumInputLen, List.foldr_cons]
      have : sumInputLen (outputUnits f r) = r.length :=
        ih r (by simp only [List.length_cons] at hf hsum; omega)
      simp only [sumInputLen] at this
      rw [this]
      simp only [List.length_cons] at hsum ⊢
      omega

theorem sumInputLen_units (bs : List Nat) : sumInputLen (units bs) = bs.length :=
  sumInputLen_outputUnits bs.length bs le_rfl

theorem units_cc_pos (f : Nat) : ∀ (bs : List Nat) (u : Output),
    u ∈ outputUnits f bs → 1 ≤ u.charCount := by
  induction f with
  | zero => intro bs u h; simp [outputUnits] at h
  | succ f ih =>
    intro bs u h
    match bs with
    | [] => simp [outputUnits, outputNext] at h
    | b :: rest =>
      obtain ⟨o, r, ho⟩ := outputNext_some b rest
      simp only [outputUnits, ho, List.mem_cons] at h
      rcases h with rfl | h
      · exact (outputNext_step _ _ _ ho).1
      · exact ih r u h

theorem sumCC_le_coalesced (us : List Output) : ∀ (inv : Bool),
    sumCC us ≤ (coalescedGo inv us).length := by
  induction us with
  | nil => intro inv; simp [sumCC, coalescedGo]
  | cons u us ih =>
    intro inv
    have hcc : u.charCount = u.contents.length := rfl
    have hf := ih false
    have ht := ih true
    simp only [sumCC, List.map_cons, List.sum_cons] at hf ht ⊢
    simp only [coalescedGo]
    cases hv : u.valid_utf8 with
    | false =>
      simp only [hv, Bool.false_eq_true, if_false]
      cases inv with
      | false =>
        simp only [Bool.false_eq_true, if_false, String.length_append]
        have hU : "\\U".length = 2 := by decide
        omega
      | true =>
        simp only [if_true, String.length_append, String.length_empty]
        omega
    | true =>
      simp only [hv, if_true]
      cases inv with
      | false =>
        simp only [Bool.false_eq_true, if_false, String.length_append,
          String.length_empty]
        omega
      | true =>
        simp only [if_true, String.length_append]
        have hS : ";".length = 1 := by decide
        omega

theorem headUnitsGo_all (us : List Output) (h1 : ∀ u ∈ us, 1 ≤ u.charCount) :
    ∀ w2 cc, cc + sumCC us ≤ w2 → headUnitsGo w2 cc us = us := by
  induction us with
  | nil => intro w2 cc _; rfl
  | cons u us ih =>
    intro w2 cc hsum
    simp only [sumCC, List.map_cons, List.sum_cons] at hsum
    have hu : 1 ≤ u.charCount := h1 u (by simp)
    simp only [headUnitsGo]
    rw [if_neg (by omega)]
    rw [ih (fun x hx => h1 x (by simp [hx])) w2 (cc + u.charCount) (by
      simp only [sumCC]; omega)]

/-! ### Width monotonicity of the shortener

`shownBytes` counts the input bytes whose decoded units reach the output of
`pretty`: the head half's consumed bytes plus the bytes of the tail units
kept by the backwards scan (all remaining window bytes when the `consumed`
check fires).  Its locals mirror `pretty` line for line. -/

def shownBytes (input : List Nat) (width : Nat) : Nat :=
  let w := clampWidth width
  let part1 := prettyHead input width
  let part1_len := sumInputLen part1
  if 0 < w then
    let width2 := w / 2
    let start2 := max (input.length - 4 * width2) part1_len
    let output := units (input.drop start2)
    let r := revTake (tailBudget w) 0 0 output.reverse
    let consumed := input.length ≤ part1_len + r.2
    let start2b := if consumed then 0 else output.length - r.1
    part1_len + sumInputLen (output.drop start2b)
  else input.length

theorem sumInputLen_append (a b : List Output) :
    sumInputLen (a ++ b) = sumInputLen a + sumInputLen b := by
  induction a with
  | nil => simp [sumInputLen]
  | cons o a ih => simp only [List.cons_append, sumInputLen, List.foldr_cons] at *; omega

theorem sumInputLen_reverse (l : List Output) :
    sumInputLen l.reverse = sumInputLen l := by
  induction l with
  | nil => rfl
  | cons o l ih =>
    rw [List.reverse_cons, sumInputLen_append, ih]
    simp only [sumInputLen, List.foldr_cons, List.foldr_nil]
    omega

theorem sumInputLen_drop_le (l : List Output) (k : Nat) :
    sumInputLen (l.drop k) ≤ sumInputLen l := by
  conv_rhs => rw [← List.take_append_drop k l]
  rw [sumInputLen_append]
  omega

theorem sumInputLen_take_mono (l : List Output) (j k : Nat) (h : j ≤ k) :
    sumInputLen (l.take j) ≤ sumInputLen (l.take k) := by
  rw [← List.take_append_drop j (l.take k), List.take_take, Nat.min_eq_left h,
    sumInputLen_append]
  omega

theorem sumCC_append (a b : List Output) : sumCC (a ++ b) = sumCC a + sumCC b := by
  simp [sumCC]

theorem rt_r1_le (l : List Output) : ∀ B cc by1,
    (revTake B cc by1 l).1 ≤ l.length := by
  induction l with
  | nil => intro B cc by1; simp [revTake]
  | cons o l ih =>
    intro B cc by1
    simp only [revTake]
    split
    · simp only [List.length_cons]
      have := ih B (cc + o.charCount) (by1 + o.input_len)
      omega
    · simp

theorem rt_r2_ge (l : List Output) : ∀ B cc by1, by1 ≤ (revTake B cc by1 l).2 := by
  induction l with
  | nil => intro B cc by1; simp [revTake]
  | cons o l ih =>
    intro B cc by1
    simp only [revTake]
    split
    · have := ih B (cc + o.charCount) (by1 + o.input_len)
      omega
    · simp

theorem rt_r2_le (l : List Output) : ∀ B cc by1,
    (revTake B cc by1 l).2 ≤ by1 + sumInputLen l := by
  induction l with
  | nil => intro B cc by1; simp [revTake, sumInputLen]
  | cons o l ih =>
    intro B cc by1
    simp only [revTake, sumInputLen, List.foldr_cons]
    split
    · have := ih B (cc + o.charCount) (by1 + o.input_len)
      simp only [sumInputLen] at this
      omega
    · simp only [sumInputLen]
      have : 0 ≤ List.foldr (fun o acc => o.input_len + acc) 0 l := Nat.zero_le _
      omega

theorem rt_mono_budget (l : List Output) : ∀ B B' cc by1, B ≤ B' →
    (revTake B cc by1 l).1 ≤ (revTake B' cc by1 l).1 ∧
    (revTake B cc by1 l).2 ≤ (revTake B' cc by1 l).2 := by
  induction l with
  | nil => intro B B' cc by1 _; simp [revTake]
  | cons o l ih =>
    intro B B' cc by1 hB
    simp only [revTake]
    by_cases h1 : cc + o.charCount ≤ B
    · rw [if_pos h1, if_pos (by omega)]
      have := ih B B' (cc + o.charCount) (by1 + o.input_len) hB
      exact ⟨by omega, this.2⟩
    · rw [if_neg h1]
      split
      · have h2 := rt_r2_ge l B' (cc + o.charCount) (by1 + o.input_len)
        exact ⟨by omega, by omega⟩
      · exact ⟨le_rfl, le_rfl⟩

theorem rt_pass (l : List Output) : ∀ B cc by1, cc + sumCC l ≤ B →
    revTake B cc by1 l = (l.length, by1 + sumInputLen l) := by
  induction l with
  | nil => intro B cc by1 _; simp [revTake, sumInputLen]
  | cons o l ih =>
    intro B cc by1 h
    have hcc : sumCC (o :: l) = o.charCount + sumCC l := by simp [sumCC]
    simp only [revTake]
    rw [if_pos (by omega)]
    rw [ih B (cc + o.charCount) (by1 + o.input_len) (by omega)]
    simp only [List.length_cons, sumInputLen, List.foldr_cons, Prod.mk.injEq]
    exact ⟨trivial, by omega⟩

theorem rt_append_pass (l x : List Output) : ∀ B cc by1, cc + sumCC l ≤ B →
    revTake B cc by1 (l ++ x)
      = ((revTake B (cc + sumCC l) (by1 + sumInputLen l) x).1 + l.length,
         (revTake B (cc + sumCC l) (by1 + sumInputLen l) x).2) := by
  induction l with
  | nil =>
    intro B cc by1 _
    simp [sumCC, sumInputLen]
  | cons o l ih =>
    intro B cc by1 h
    have hcc : sumCC (o :: l) = o.charCount + sumCC l := by simp [sumCC]
    have hil : sumInputLen (o :: l) = o.input_len + sumInputLen l := by
      simp only [sumInputLen, List.foldr_cons]
    show revTake B cc by1 (o :: (l ++ x)) = _
    simp only [revTake]
    rw [if_pos (by omega)]
    rw [ih B (cc + o.charCount) (by1 + o.input_len) (by omega)]
    simp only [List.length_cons, hcc, hil, Prod.mk.injEq, ← Nat.add_assoc]

theorem rt_append_fail (l x : List Output) : ∀ B cc by1, cc ≤ B →
    ¬(cc + sumCC l ≤ B) → revTake B cc by1 (l ++ x) = revTake B cc by1 l := by
  induction l with
  | nil =>
    intro B cc by1 hcB h
    simp only [sumCC, List.map_nil, List.sum_nil] at h
    omega
  | cons o l ih =>
    intro B cc by1 hcB h
    have hcc : sumCC (o :: l) = o.charCount + sumCC l := by simp [sumCC]
    show revTake B cc by1 (o :: (l ++ x)) = _
    simp only [revTake]
    by_cases h1 : cc + o.charCount ≤ B
    · rw [if_pos h1, if_pos h1,
        ih B (cc + o.charCount) (by1 + o.input_len) h1 (by omega)]
    · rw [if_neg h1, if_neg h1]

theorem rt_head_kept (o : Output) (l : List Output) (B cc by1 : Nat)
    (h : 1 ≤ (revTake B cc by1 (o :: l)).1) : cc + o.charCount ≤ B := by
  by_contra hc
  simp only [revTake, if_neg hc] at h
  omega

theorem utf8First_shape (bs : List Nat) (cp l : Nat) (h : utf8First bs = some (cp, l)) :
    l = 1 ∨ (2 ≤ l ∧ 0x80 ≤ cp ∧
      ∀ b ∈ (bs.drop 1).take (l - 1), 0x80 ≤ b ∧ b ≤ 0xBF) := by
  match bs with
  | [] => simp [utf8First] at h
  | b0 :: rest =>
    simp only [utf8First] at h
    by_cases h1 : b0 < 0x80
    · rw [if_pos h1] at h
      simp only [Option.some.injEq, Prod.mk.injEq] at h
      exact .inl h.2.symm
    · rw [if_neg h1] at h
      by_cases h2 : (0xC2 ≤ b0 && b0 ≤ 0xDF) = true
      · rw [if_pos h2] at h
        simp only [Bool.and_eq_true, decide_eq_true_eq] at h2
        rcases rest with _ | ⟨b1, r2⟩
        · simp at h
        · dsimp only at h
          simp only [Option.ite_none_right_eq_some, Option.some.injEq,
            Prod.mk.injEq, utf8Cont, Bool.and_eq_true, decide_eq_true_eq] at h
          obtain ⟨⟨hb1a, hb1b⟩, hcp, hl⟩ := h
          refine .inr ⟨by omega, by omega, ?_⟩
          intro b hb
          rw [← hl] at hb
          simp only [List.drop_succ_cons, List.drop_zero, List.take_succ_cons,
            List.take_zero, List.mem_singleton] at hb
          subst hb
          exact ⟨hb1a, hb1b⟩
      · rw [if_neg h2] at h
        by_cases h3 : (0xE0 ≤ b0 && b0 ≤ 0xEF) = true
        · rw [if_pos h3] at h
          simp only [Bool.and_eq_true, decide_eq_true_eq] at h3
          rcases rest with _ | ⟨b1, _ | ⟨b2, r2⟩⟩
          · simp at h
          · simp at h
          · dsimp only at h
            simp only [Option.ite_none_right_eq_some, Option.some.injEq,
              Prod.mk.injEq, utf8Cont, Bool.and_eq_true, decide_eq_true_eq] at h
            obtain ⟨⟨⟨hb1a, hb1b⟩, hb2a, hb2b⟩, hcp, hl⟩ := h
            have hb1lo : 0x80 ≤ b1 := by
              by_cases he : b0 = 0xE0 <;> simp [he] at hb1a <;> omega
            have hb1hi : b1 ≤ 0xBF := by
              by_cases he : b0 = 0xED <;> simp [he] at hb1b <;> omega
            refine .inr ⟨by omega, ?_, ?_⟩
            · by_cases he : b0 = 0xE0
              · subst he
                norm_num at hb1a
                omega
              · have : 0xE1 ≤ b0 := by omega
                omega
            · intro b hb
              rw [← hl] at hb
              simp only [List.drop_succ_cons, List.drop_zero, List.take_succ_cons,
                List.take_zero, List.mem_cons, List.mem_singleton,
                List.not_mem_nil, or_false] at hb
              rcases hb with rfl | rfl
              · exact ⟨hb1lo, hb1hi⟩
              · exact ⟨hb2a, hb2b⟩
        · rw [if_neg h3] at h
          by_cases h4 : (0xF0 ≤ b0 && b0 ≤ 0xF4) = true
          · rw [if_pos h4] at h
            simp only [Bool.and_eq_true, decide_eq_true_eq] at h4
            rcases rest with _ | ⟨b1, _ | ⟨b2, _ | ⟨b3, r2⟩⟩⟩
            · simp at h
            · simp at h
            · simp at h
            · dsimp only at h
              simp only [Option.ite_none_right_eq_some, Option.some.injEq,
                Prod.mk.injEq, utf8Cont, Bool.and_eq_true, decide_eq_true_eq] at h
              obtain ⟨⟨⟨⟨hb1a, hb1b⟩, hb2a, hb2b⟩, hb3a, hb3b⟩, hcp, hl⟩ := h
              have hb1lo : 0x80 ≤ b1 := by
                by_cases he : b0 = 0xF0 <;> simp [he] at hb1a <;> omega
              have hb1hi : b1 ≤ 0xBF := by
                by_cases he : b0 = 0xF4 <;> simp [he] at hb1b <;> omega
              refine .inr ⟨by omega, ?_, ?_⟩
              · by_cases he : b0 = 0xF0
                · subst he
                  norm_num at hb1a
                  omega
                · have : 0xF1 ≤ b0 := by omega
                  omega
              · intro b hb
                rw [← hl] at hb
                simp only [List.drop_succ_cons, List.drop_zero, List.take_succ_cons,
                  List.take_zero, List.mem_cons, List.mem_singleton,
                  List.not_mem_nil, or_false] at hb
                rcases hb with rfl | rfl | rfl
                · exact ⟨hb1lo, hb1hi⟩
                · exact ⟨hb2a, hb2b⟩
                · exact ⟨hb3a, hb3b⟩
          · rw [if_neg h4] at h
            simp at h

theorem utf8First_cont_none (b : Nat) (t : List Nat) (h80 : 0x80 ≤ b)
    (hbf : b ≤ 0xBF) : utf8First (b :: t) = none := by
  simp only [utf8First]
  rw [if_neg (by omega), if_neg (by simp; omega), if_neg (by simp; omega),
    if_neg (by simp; omega)]

theorem outputNext_cont (b : Nat) (t : List Nat) (h80 : 0x80 ≤ b)
    (hbf : b ≤ 0xBF) :
    outputNext (b :: t) = some (⟨hex2 b, 1, false⟩, t) := by
  simp only [outputNext]
  rw [show (b :: t).take 4 = b :: t.take 3 from rfl,
    utf8First_cont_none b _ h80 hbf]

theorem escapeScalar_singleton (cp : Nat) (h : 0x80 ≤ cp) :
    escapeScalar cp = String.singleton (Char.ofNat cp) := by
  unfold escapeScalar
  rw [if_neg (by omega), if_neg (by omega), if_neg (by omega), if_neg (by omega),
    if_neg (by omega), if_neg (by simp [isAsciiControl]; omega), if_neg ?_]
  intro hcon
  simp only [Bool.and_eq_true, decide_eq_true_eq, charIsControl,
    Bool.or_eq_true] at hcon
  omega

theorem outputNext_tail (bs : List Nat) (o : Output) (r : List Nat)
    (h : outputNext bs = some (o, r)) : r = bs.drop o.input_len := by
  match bs with
  | [] => simp [outputNext] at h
  | b :: t =>
    simp only [outputNext] at h
    rcases hu : utf8First ((b :: t).take 4) with _ | ⟨cp, l⟩ <;> rw [hu] at h <;>
      dsimp only at h <;>
      simp only [Option.some.injEq, Prod.mk.injEq] at h
    · obtain ⟨rfl, rfl⟩ := h
      rfl
    · obtain ⟨rfl, rfl⟩ := h
      rfl

theorem outputNext_big (bs : List Nat) (o : Output) (r : List Nat)
    (h : outputNext bs = some (o, r)) (h2 : 2 ≤ o.input_len) :
    o.charCount = 1 ∧ o.input_len ≤ 4 ∧
    (∀ b ∈ (bs.drop 1).take (o.input_len - 1), 0x80 ≤ b ∧ b ≤ 0xBF) := by
  match bs with
  | [] => simp [outputNext] at h
  | b :: t =>
    simp only [outputNext] at h
    rcases hu : utf8First ((b :: t).take 4) with _ | ⟨cp, l⟩ <;> rw [hu] at h <;>
      dsimp only at h <;>
      simp only [Option.some.injEq, Prod.mk.injEq] at h
    · obtain ⟨rfl, rfl⟩ := h
      simp at h2
    · obtain ⟨rfl, rfl⟩ := h
      simp only [Output.charCount] at *
      have hb := utf8First_bounds _ _ _ hu
      have hl4 : l ≤ 4 := by
        have := hb.2
        have : ((b :: t).take 4).length ≤ 4 := by
          simp [List.length_take]
        omega
      rcases utf8First_shape _ _ _ hu with h1 | ⟨hl2, hcp, hint⟩
      · omega
      · refine ⟨?_, hl4, ?_⟩
        · rw [escapeScalar_singleton cp hcp]
          rfl
        · intro x hx
          apply hint
          have he : ((b :: t).take 4).drop 1 = t.take 3 := rfl
          rw [he, List.take_take, Nat.min_eq_left (by omega)]
          simpa using hx

theorem outputUnits_nil (f : Nat) : outputUnits f [] = [] := by
  match f with
  | 0 => rfl
  | g + 1 => rfl

theorem outputUnits_eq_units (n : Nat) : ∀ (bs : List Nat) (f : Nat),
    bs.length ≤ n → bs.length ≤ f → outputUnits f bs = units bs := by
  induction n with
  | zero =>
    intro bs f hn _
    obtain rfl : bs = [] := List.length_eq_zero.mp (by omega)
    rw [outputUnits_nil, units, outputUnits_nil]
  | succ n ih =>
    intro bs f hn hf
    match bs with
    | [] => rw [outputUnits_nil, units, outputUnits_nil]
    | b :: t =>
      obtain ⟨f1, rfl⟩ : ∃ f1, f = f1 + 1 := ⟨f - 1, by simp at hf; omega⟩
      show _ = outputUnits (b :: t).length (b :: t)
      rw [show (b :: t).length = t.length + 1 from rfl]
      simp only [outputUnits]
      rcases ho : outputNext (b :: t) with _ | ⟨u, r⟩
      · rfl
      · dsimp only
        obtain ⟨_, hil, hlen⟩ := outputNext_step _ _ _ ho
        simp only [List.length_cons] at hlen hn hf
        have hr1 : r.length ≤ n := by omega
        rw [ih r f1 hr1 (by omega), ih r t.length hr1 (by omega)]

theorem units_cons (bs : List Nat) (o : Output) (r : List Nat)
    (h : outputNext bs = some (o, r)) : units bs = o :: units r := by
  match bs with
  | [] => simp [outputNext] at h
  | b :: t =>
    show outputUnits (b :: t).length (b :: t) = _
    rw [show (b :: t).length = t.length + 1 from rfl]
    simp only [outputUnits, h]
    obtain ⟨_, hil, hlen⟩ := outputNext_step _ _ _ h
    simp only [List.length_cons] at hlen
    rw [outputUnits_eq_units r.length r t.length le_rfl (by omega)]

theorem units_drop_prefix : ∀ (P : List Output) (bs : List Nat) (R : List Output),
    units bs = P ++ R → units (bs.drop (sumInputLen P)) = R := by
  intro P
  induction P with
  | nil =>
    intro bs R h
    simpa [sumInputLen] using h
  | cons o P ih =>
    intro bs R h
    match bs with
    | [] =>
      rw [show units ([] : List Nat) = [] from rfl] at h
      exact absurd h (by simp)
    | b :: t =>
      obtain ⟨o0, r, ho⟩ := outputNext_some b t
      rw [units_cons _ _ _ ho] at h
      simp only [List.cons_append, List.cons.injEq] at h
      obtain ⟨heq, hur⟩ := h
      have hr := outputNext_tail _ _ _ ho
      have := ih r R hur
      rw [hr, List.drop_drop] at this
      have hsum : sumInputLen (o :: P) = o0.input_len + sumInputLen P := by
        rw [← heq]
        simp only [sumInputLen, List.foldr_cons]
      rw [hsum]
      exact this

theorem frame_orphans : ∀ (k : Nat) (bs : List Nat),
    (∀ b ∈ bs.take k, 0x80 ≤ b ∧ b ≤ 0xBF) → k ≤ bs.length →
    units bs = ((bs.take k).map (fun b => (⟨hex2 b, 1, false⟩ : Output)))
      ++ units (bs.drop k) := by
  intro k
  induction k with
  | zero => intro bs _ _; simp
  | succ k ih =>
    intro bs hc hk
    match bs with
    | [] => simp at hk
    | b :: t =>
      have hb := hc b (by simp)
      rw [units_cons _ _ _ (outputNext_cont b t hb.1 hb.2)]
      rw [List.take_succ_cons, List.map_cons, List.cons_append, List.drop_succ_cons]
      rw [ih t (fun x hx => hc x (by simp [List.take_succ_cons, hx]))
        (by simp at hk; omega)]

theorem frame_compare (n : Nat) : ∀ (bs : List Nat) (s' s : Nat), s' ≤ s →
    s ≤ bs.length → s - s' ≤ n →
    (∃ p, units (bs.drop s') = p ++ units (bs.drop s)) ∨
    (∃ p U e, s < e ∧ e ≤ bs.length ∧
      units (bs.drop s') = p ++ U :: units (bs.drop e) ∧
      units (bs.drop s)
        = ((bs.drop s).take (e - s)).map (fun b => (⟨hex2 b, 1, false⟩ : Output))
          ++ units (bs.drop e) ∧
      U.charCount = 1 ∧ e - s ≤ U.input_len) := by
  induction n with
  | zero =>
    intro bs s' s hss hsl hn
    obtain rfl : s' = s := by omega
    exact .inl ⟨[], by simp⟩
  | succ n ih =>
    intro bs s' s hss hsl hn
    by_cases heq : s' = s
    · subst heq
      exact .inl ⟨[], by simp⟩
    · have hlt : s' < s := by omega
      have hne : bs.drop s' ≠ [] := by
        intro hnil
        have := List.drop_eq_nil_iff_le.mp hnil
        omega
      match hd : bs.drop s', hne with
      | b :: t, _ =>
        obtain ⟨o, r, ho⟩ := outputNext_some b t
        have ho2 : outputNext (bs.drop s') = some (o, r) := by rw [hd]; exact ho
        have hr := outputNext_tail _ _ _ ho2
        have hstep := outputNext_step _ _ _ ho2
        rw [List.drop_drop] at hr
        by_cases hcase : s' + o.input_len ≤ s
        · rcases ih bs (s' + o.input_len) s hcase hsl (by omega) with
            ⟨p, hp⟩ | ⟨p, U, e, he1, he2, hp, hq, hU1, hU2⟩
          · refine .inl ⟨o :: p, ?_⟩
            rw [units_cons _ _ _ ho, hr, hp]
            rfl
          · refine .inr ⟨o :: p, U, e, he1, he2, ?_, hq, hU1, hU2⟩
            rw [units_cons _ _ _ ho, hr, hp]
            rfl
        · have hbig : 2 ≤ o.input_len := by omega
          obtain ⟨hcc1, hil4, hint⟩ := outputNext_big _ _ _ ho2 hbig
          have he0 : s < s' + o.input_len := by omega
          have he0len : s' + o.input_len ≤ bs.length := by
            have : (bs.drop s').length = bs.length - s' := List.length_drop _ _
            have h3 := hstep.2.2
            omega
          refine .inr ⟨[], o, s' + o.input_len, he0, he0len, ?_, ?_, hcc1, by omega⟩
          · rw [units_cons _ _ _ ho, hr]
            rfl
          · have hcont : ∀ b2 ∈ (bs.drop s).take (s' + o.input_len - s),
                0x80 ≤ b2 ∧ b2 ≤ 0xBF := by
              intro b2 hb2
              apply hint
              have hds : bs.drop s = ((bs.drop s').drop 1).drop (s - s' - 1) := by
                rw [List.drop_drop, List.drop_drop]
                congr 1
                omega
              rw [hds] at hb2
              have htt : (((bs.drop s').drop 1).drop (s - s' - 1)).take
                    (s' + o.input_len - s)
                  = (((bs.drop s').drop 1).take (o.input_len - 1)).drop
                    (s - s' - 1) := by
                rw [List.drop_take]
                congr 1
                omega
              rw [htt] at hb2
              exact List.mem_of_mem_drop hb2
            have := frame_orphans (s' + o.input_len - s) (bs.drop s) hcont
              (by rw [List.length_drop]; omega)
            rw [this, List.drop_drop]
            congr 3
            omega

/-! ### Head-loop and tail-scan bookkeeping for the width-monotonicity proof -/

theorem hug_stop (us : List Output) (w2 cc : Nat) (h : w2 ≤ cc) :
    headUnitsGo w2 cc us = [] := by
  match us with
  | [] => rfl
  | o :: os => simp only [headUnitsGo, if_pos h]

theorem hug_prefix (us : List Output) : ∀ w2 cc,
    ∃ Q, us = headUnitsGo w2 cc us ++ Q := by
  induction us with
  | nil => intro w2 cc; exact ⟨[], rfl⟩
  | cons o os ih =>
    intro w2 cc
    by_cases h : w2 ≤ cc
    · exact ⟨o :: os, by rw [hug_stop _ _ _ h]; rfl⟩
    · obtain ⟨Q, hQ⟩ := ih w2 (cc + o.charCount)
      refine ⟨Q, ?_⟩
      simp only [headUnitsGo, if_neg h]
      rw [List.cons_append, ← hQ]

theorem hug_succ (us : List Output) : ∀ w2 cc, (∀ u ∈ us, 1 ≤ u.charCount) →
    headUnitsGo (w2 + 1) cc us = headUnitsGo w2 cc us ∨
    ∃ U, headUnitsGo (w2 + 1) cc us = headUnitsGo w2 cc us ++ [U] := by
  induction us with
  | nil => intro w2 cc _; exact .inl rfl
  | cons o os ih =>
    intro w2 cc hcc
    by_cases h : w2 ≤ cc
    · rw [hug_stop (o :: os) w2 cc h]
      by_cases h1 : w2 + 1 ≤ cc
      · rw [hug_stop (o :: os) (w2 + 1) cc h1]
        exact .inl rfl
      · refine .inr ⟨o, ?_⟩
        have ho := hcc o (by simp)
        simp only [headUnitsGo, if_neg h1]
        rw [hug_stop os (w2 + 1) (cc + o.charCount) (by omega)]
        rfl
    · have h1 : ¬ (w2 + 1 ≤ cc) := by omega
      simp only [headUnitsGo, if_neg h, if_neg h1]
      rcases ih w2 (cc + o.charCount) (fun u hu => hcc u (by simp [hu]))
        with he | ⟨U, he⟩
      · exact .inl (by rw [he])
      · exact .inr ⟨U, by rw [he]; rfl⟩

theorem units_head (m : List Nat) (U : Output) (L : List Output)
    (h : units m = U :: L) :
    outputNext m = some (U, m.drop U.input_len) ∧ units (m.drop U.input_len) = L := by
  match m with
  | [] => simp [units, outputUnits] at h
  | b :: t =>
    obtain ⟨o, r, ho⟩ := outputNext_some b t
    rw [units_cons _ _ _ ho] at h
    simp only [List.cons.injEq] at h
    obtain ⟨heq, hL⟩ := h
    have hr := outputNext_tail _ _ _ ho
    subst heq
    exact ⟨by rw [ho, hr], by rw [← hr]; exact hL⟩

theorem units_il_pos (f : Nat) : ∀ (bs : List Nat) (u : Output),
    u ∈ outputUnits f bs → 1 ≤ u.input_len := by
  induction f with
  | zero => intro bs u h; simp [outputUnits] at h
  | succ f ih =>
    intro bs u h
    match bs with
    | [] => simp [outputUnits, outputNext] at h
    | b :: rest =>
      obtain ⟨o, r, ho⟩ := outputNext_some b rest
      simp only [outputUnits, ho, List.mem_cons] at h
      rcases h with rfl | h
      · exact (outputNext_step _ _ _ ho).2.1
      · exact ih r u h

theorem sumInputLen_take_le (l : List Output) (k : Nat) :
    sumInputLen (l.take k) ≤ sumInputLen l := by
  conv_rhs => rw [← List.take_append_drop k l]
  rw [sumInputLen_append]
  omega

theorem sumInputLen_le_length : ∀ (M : List Output),
    (∀ u ∈ M, u.input_len = 1) → sumInputLen M ≤ M.length := by
  intro M
  induction M with
  | nil => intro _; simp [sumInputLen]
  | cons o os ih =>
    intro h
    have h1 : o.input_len = 1 := h o (by simp)
    have h2 := ih (fun u hu => h u (by simp [hu]))
    simp only [sumInputLen, List.foldr_cons, List.length_cons]
    simp only [sumInputLen] at h2
    omega

theorem sumInputLen_pos_of_ne_nil (M : List Output)
    (hil : ∀ u ∈ M, 1 ≤ u.input_len) (h : M ≠ []) : 1 ≤ sumInputLen M := by
  match M with
  | [] => exact absurd rfl h
  | o :: os =>
    have h1 := hil o (by simp)
    simp only [sumInputLen, List.foldr_cons]
    omega

/-- The backwards scan either passes the whole list within budget, or stops at
an explicit split point, counting the failing unit's bytes. -/
theorem rt_split (l : List Output) : ∀ B cc by1, cc ≤ B →
    (cc + sumCC l ≤ B ∧ revTake B cc by1 l = (l.length, by1 + sumInputLen l)) ∨
    (∃ T o rest, l = T ++ o :: rest ∧ cc + sumCC T ≤ B ∧
      B < cc + sumCC T + o.charCount ∧
      revTake B cc by1 l = (T.length, by1 + sumInputLen T + o.input_len)) := by
  induction l with
  | nil =>
    intro B cc by1 h
    exact .inl ⟨by simp [sumCC]; omega, by simp [revTake, sumInputLen]⟩
  | cons o l ih =>
    intro B cc by1 h
    have hcc : sumCC (o :: l) = o.charCount + sumCC l := by simp [sumCC]
    by_cases h1 : cc + o.charCount ≤ B
    · rcases ih B (cc + o.charCount) (by1 + o.input_len) h1 with
        ⟨ha, hb⟩ | ⟨T, u, rest, hsplit, ha, hb, hc⟩
      · refine .inl ⟨by omega, ?_⟩
        simp only [revTake]
        rw [if_pos h1, hb]
        have h5 : sumInputLen (o :: l) = o.input_len + sumInputLen l := rfl
        simp only [List.length_cons, Prod.mk.injEq]
        exact ⟨trivial, by omega⟩
      · have h6 : sumCC (o :: T) = o.charCount + sumCC T := by simp [sumCC]
        refine .inr ⟨o :: T, u, rest, by rw [hsplit]; rfl, by omega, by omega, ?_⟩
        simp only [revTake]
        rw [if_pos h1, hc]
        have h7 : sumInputLen (o :: T) = o.input_len + sumInputLen T := rfl
        simp only [List.length_cons, Prod.mk.injEq]
        exact ⟨trivial, by omega⟩
    · refine .inr ⟨[], o, l, rfl, by simp [sumCC]; omega, by simp [sumCC]; omega, ?_⟩
      simp only [revTake]
      rw [if_neg h1]
      simp [sumInputLen]

/-- The input bytes of the tail units kept by the backwards scan. -/
def kbF (B : Nat) (M : List Output) : Nat :=
  sumInputLen (M.take (revTake B 0 0 M).1)

theorem kbF_le (B : Nat) (M : List Output) : kbF B M ≤ sumInputLen M :=
  sumInputLen_take_le M _

theorem kbF_mono_budget (B B' : Nat) (M : List Output) (h : B ≤ B') :
    kbF B M ≤ kbF B' M :=
  sumInputLen_take_mono M _ _ (rt_mono_budget M B B' 0 0 h).1

theorem rt_append_stop (M x : List Output) (B : Nat) (h : ¬ sumCC M ≤ B) :
    revTake B 0 0 (M ++ x) = revTake B 0 0 M := by
  rcases rt_split M B 0 0 (Nat.zero_le B) with ⟨ha, _⟩ | ⟨T, o, rest, hsplit, ha, hb, _⟩
  · omega
  · have hTo : ¬ (0 + sumCC (T ++ [o]) ≤ B) := by
      have h9 : sumCC [o] = o.charCount := by simp [sumCC]
      rw [sumCC_append, h9]
      omega
    have e1 : M ++ x = (T ++ [o]) ++ (rest ++ x) := by rw [hsplit]; simp
    have e2 : M = (T ++ [o]) ++ rest := by rw [hsplit]; simp
    rw [e1, rt_append_fail (T ++ [o]) (rest ++ x) B 0 0 (Nat.zero_le B) hTo]
    conv_rhs => rw [e2, rt_append_fail (T ++ [o]) rest B 0 0 (Nat.zero_le B) hTo]

theorem kbF_append_fail (M x : List Output) (B : Nat) (h : ¬ sumCC M ≤ B) :
    kbF B (M ++ x) = kbF B M := by
  simp only [kbF, rt_append_stop M x B h]
  rw [List.take_append_of_le_length (rt_r1_le M B 0 0)]

theorem kbF_append_grow (M x : List Output) (B : Nat) :
    kbF B M ≤ kbF B (M ++ x) := by
  by_cases h : sumCC M ≤ B
  · have hpass := rt_append_pass M x B 0 0 (by omega)
    have h1 : M.length ≤ (revTake B 0 0 (M ++ x)).1 := by
      rw [hpass]; exact Nat.le_add_left _ _
    calc kbF B M ≤ sumInputLen M := kbF_le B M
    _ = sumInputLen ((M ++ x).take M.length) := by rw [List.take_left]
    _ ≤ sumInputLen ((M ++ x).take (revTake B 0 0 (M ++ x)).1) :=
        sumInputLen_take_mono _ _ _ h1
    _ = kbF B (M ++ x) := rfl
  · rw [kbF_append_fail M x B h]

theorem kbF_append_pass (M x : List Output) (B : Nat) (h : sumCC M ≤ B) :
    kbF B (M ++ x) = sumInputLen M +
      sumInputLen (x.take (revTake B (0 + sumCC M) (0 + sumInputLen M) x).1) := by
  have hpass := rt_append_pass M x B 0 0 (by omega)
  simp only [kbF]
  rw [hpass]
  show sumInputLen ((M ++ x).take
    ((revTake B (0 + sumCC M) (0 + sumInputLen M) x).1 + M.length)) = _
  have hcomm : (revTake B (0 + sumCC M) (0 + sumInputLen M) x).1 + M.length
      = M.length + (revTake B (0 + sumCC M) (0 + sumInputLen M) x).1 :=
    Nat.add_comm _ _
  rw [hcomm, List.take_append, sumInputLen_append]

theorem kbF_append_pass_le (M x : List Output) (B : Nat) (h : sumCC M ≤ B) :
    sumInputLen M ≤ kbF B (M ++ x) := by
  rw [kbF_append_pass M x B h]
  omega

theorem sumInputLen_take_reverse (L : List Output) (j : Nat) :
    sumInputLen (L.reverse.take j) = sumInputLen (L.drop (L.length - j)) := by
  rw [List.take_reverse, sumInputLen_reverse]

theorem clampWidth_big (w : Nat) (h : 6 ≤ w) : clampWidth w = w := by
  unfold clampWidth
  split
  · rename_i hcond
    simp only [Bool.and_eq_true, decide_eq_true_eq] at hcond
    omega
  · rfl

theorem prettyHead_pos (bs : List Nat) (v : Nat) (h : 0 < clampWidth v) :
    prettyHead bs v = headUnitsGo (clampWidth v / 2) 0 (units bs) := by
  simp only [prettyHead]
  rw [if_pos h]

/-- The pieces of `pretty`'s second half, named for reuse. -/
def p1Of (bs : List Nat) (v : Nat) : Nat := sumInputLen (prettyHead bs v)

def s2Of (bs : List Nat) (v : Nat) : Nat :=
  max (bs.length - 4 * (clampWidth v / 2)) (p1Of bs v)

def outOf (bs : List Nat) (v : Nat) : List Output := units (bs.drop (s2Of bs v))

def rOf (bs : List Nat) (v : Nat) : Nat × Nat :=
  revTake (tailBudget (clampWidth v)) 0 0 (outOf bs v).reverse

theorem shownBytes_pos (bs : List Nat) (v : Nat) (h : 0 < clampWidth v) :
    shownBytes bs v = p1Of bs v +
      (if bs.length ≤ p1Of bs v + (rOf bs v).2
       then sumInputLen (outOf bs v)
       else kbF (tailBudget (clampWidth v)) (outOf bs v).reverse) := by
  simp only [shownBytes, p1Of, s2Of, outOf, rOf, kbF]
  rw [if_pos h]
  by_cases hc : bs.length ≤ sumInputLen (prettyHead bs v) +
      (revTake (tailBudget (clampWidth v)) 0 0 (units (bs.drop (max
        (bs.length - 4 * (clampWidth v / 2))
        (sumInputLen (prettyHead bs v))))).reverse).2
  · rw [if_pos hc, if_pos hc, List.drop_zero]
  · rw [if_neg hc, if_neg hc, sumInputLen_take_reverse]

theorem p1_le_len (bs : List Nat) (v : Nat) : p1Of bs v ≤ bs.length := by
  by_cases h : 0 < clampWidth v
  · obtain ⟨Q, hQ⟩ := hug_prefix (units bs) (clampWidth v / 2) 0
    have h1 : sumInputLen (units bs) = bs.length := sumInputLen_units bs
    rw [hQ, sumInputLen_append] at h1
    simp only [p1Of, prettyHead]
    rw [if_pos h]
    omega
  · simp only [p1Of, prettyHead]
    rw [if_neg h, sumInputLen_units]

theorem p1_le_s2 (bs : List Nat) (v : Nat) : p1Of bs v ≤ s2Of bs v :=
  le_max_right _ _

theorem s2_le_len (bs : List Nat) (v : Nat) : s2Of bs v ≤ bs.length :=
  max_le (Nat.sub_le _ _) (p1_le_len bs v)

theorem sil_out (bs : List Nat) (v : Nat) :
    sumInputLen (outOf bs v) = bs.length - s2Of bs v := by
  simp only [outOf]
  rw [sumInputLen_units, List.length_drop]

theorem consumed_start (bs : List Nat) (v : Nat)
    (hc : bs.length ≤ p1Of bs v + (rOf bs v).2) : s2Of bs v = p1Of bs v := by
  have h1 : (rOf bs v).2 ≤ sumInputLen (outOf bs v) := by
    have h0 := rt_r2_le (outOf bs v).reverse (tailBudget (clampWidth v)) 0 0
    rw [sumInputLen_reverse] at h0
    simpa [rOf] using h0
  have h2 := sil_out bs v
  have h3 := s2_le_len bs v
  have h4 := p1_le_s2 bs v
  omega

theorem shownBytes_consumed (bs : List Nat) (v : Nat) (h : 0 < clampWidth v)
    (hc : bs.length ≤ p1Of bs v + (rOf bs v).2) : shownBytes bs v = bs.length := by
  rw [shownBytes_pos bs v h, if_pos hc, sil_out bs v, consumed_start bs v hc]
  have := p1_le_len bs v
  omega

theorem shownBytes_le_len (bs : List Nat) (v : Nat) : shownBytes bs v ≤ bs.length := by
  by_cases h : 0 < clampWidth v
  · by_cases hc : bs.length ≤ p1Of bs v + (rOf bs v).2
    · rw [shownBytes_consumed bs v h hc]
    · rw [shownBytes_pos bs v h, if_neg hc]
      have h1 : kbF (tailBudget (clampWidth v)) (outOf bs v).reverse
          ≤ sumInputLen (outOf bs v) := by
        have h0 := kbF_le (tailBudget (clampWidth v)) (outOf bs v).reverse
        rwa [sumInputLen_reverse] at h0
      have h2 := sil_out bs v
      have h3 := p1_le_s2 bs v
      have h4 := s2_le_len bs v
      omega
  · simp only [shownBytes]
    rw [if_neg h]

theorem shownBytes_congr (bs : List Nat) (v v' : Nat)
    (h : clampWidth v = clampWidth v') : shownBytes bs v = shownBytes bs v' := by
  simp only [shownBytes, prettyHead, h]

theorem clampWidth_small (w : Nat) (h1 : 1 ≤ w) (h2 : w ≤ 6) : clampWidth w = 6 := by
  unfold clampWidth
  split
  · rfl
  · rename_i hcond
    simp only [Bool.and_eq_true, decide_eq_true_eq] at hcond
    omega

/-- Even step: width `w` and `w + 1` share the head and the byte window; only
the tail budget grows by one. -/
theorem shownBytes_mono_even (bs : List Nat) (w : Nat) (h6 : 6 ≤ w)
    (he : w % 2 = 0) : shownBytes bs w ≤ shownBytes bs (w + 1) := by
  have hcw : clampWidth w = w := clampWidth_big w h6
  have hcw' : clampWidth (w + 1) = w + 1 := clampWidth_big (w + 1) (by omega)
  have h0 : 0 < clampWidth w := by rw [hcw]; omega
  have h0' : 0 < clampWidth (w + 1) := by rw [hcw']; omega
  have hdiv : (w + 1) / 2 = w / 2 := by omega
  have hph : prettyHead bs (w + 1) = prettyHead bs w := by
    rw [prettyHead_pos bs (w + 1) h0', prettyHead_pos bs w h0, hcw, hcw', hdiv]
  have hp1 : p1Of bs (w + 1) = p1Of bs w := by simp only [p1Of, hph]
  have hs2 : s2Of bs (w + 1) = s2Of bs w := by
    simp only [s2Of, hp1, hcw, hcw', hdiv]
  have hout : outOf bs (w + 1) = outOf bs w := by simp only [outOf, hs2]
  have hB : tailBudget (clampWidth w) ≤ tailBudget (clampWidth (w + 1)) := by
    rw [hcw, hcw']
    simp only [tailBudget]
    omega
  have hr2 : (rOf bs w).2 ≤ (rOf bs (w + 1)).2 := by
    simp only [rOf, hout]
    exact (rt_mono_budget _ _ _ 0 0 hB).2
  by_cases hcons : bs.length ≤ p1Of bs w + (rOf bs w).2
  · have hcons' : bs.length ≤ p1Of bs (w + 1) + (rOf bs (w + 1)).2 := by
      rw [hp1]; omega
    rw [shownBytes_consumed bs w h0 hcons, shownBytes_consumed bs (w + 1) h0' hcons']
  · rw [shownBytes_pos bs w h0, if_neg hcons, shownBytes_pos bs (w + 1) h0', hp1, hout]
    split
    · have h1 := kbF_le (tailBudget (clampWidth w)) (outOf bs w).reverse
      rw [sumInputLen_reverse] at h1
      omega
    · exact Nat.add_le_add_left (kbF_mono_budget _ _ _ hB) _

/-- Odd step: width `w` and `w + 1` share the tail budget; the byte window
grows by four bytes and the head loop may take one more unit. -/
theorem shownBytes_mono_odd (bs : List Nat) (w : Nat) (h6 : 6 ≤ w)
    (ho : w % 2 = 1) : shownBytes bs w ≤ shownBytes bs (w + 1) := by
  have hcw : clampWidth w = w := clampWidth_big w h6
  have hcw' : clampWidth (w + 1) = w + 1 := clampWidth_big (w + 1) (by omega)
  have h0 : 0 < clampWidth w := by rw [hcw]; omega
  have h0' : 0 < clampWidth (w + 1) := by rw [hcw']; omega
  have hdiv : clampWidth w / 2 = w / 2 := by rw [hcw]
  have hdiv' : clampWidth (w + 1) / 2 = w / 2 + 1 := by rw [hcw']; omega
  have hB : tailBudget (clampWidth w) = w / 2 := by
    rw [hcw]; simp only [tailBudget]; omega
  have hB' : tailBudget (clampWidth (w + 1)) = w / 2 := by
    rw [hcw']; simp only [tailBudget]; omega
  have hcc1 : ∀ u ∈ units bs, 1 ≤ u.charCount :=
    fun u hu => units_cc_pos bs.length bs u hu
  have hph : prettyHead bs w = headUnitsGo (w / 2) 0 (units bs) := by
    rw [prettyHead_pos bs w h0, hdiv]
  have hph' : prettyHead bs (w + 1) = headUnitsGo (w / 2 + 1) 0 (units bs) := by
    rw [prettyHead_pos bs (w + 1) h0', hdiv']
  have hp1w : p1Of bs w = sumInputLen (headUnitsGo (w / 2) 0 (units bs)) := by
    simp only [p1Of, hph]
  have hp1w' : p1Of bs (w + 1)
      = sumInputLen (headUnitsGo (w / 2 + 1) 0 (units bs)) := by
    simp only [p1Of, hph']
  have hp1le : p1Of bs w ≤ p1Of bs (w + 1) := by
    rw [hp1w, hp1w']
    rcases hug_succ (units bs) (w / 2) 0 hcc1 with hE | ⟨U0, hE⟩
    · rw [hE]
    · rw [hE, sumInputLen_append]
      omega
  have hs2w : s2Of bs w = max (bs.length - 4 * (w / 2)) (p1Of bs w) := by
    simp only [s2Of, hdiv]
  have hs2w' : s2Of bs (w + 1)
      = max (bs.length - 4 * (w / 2 + 1)) (p1Of bs (w + 1)) := by
    simp only [s2Of, hdiv']
  by_cases hcons' : bs.length ≤ p1Of bs (w + 1) + (rOf bs (w + 1)).2
  · rw [shownBytes_consumed bs (w + 1) h0' hcons']
    exact shownBytes_le_len bs w
  by_cases hss : s2Of bs (w + 1) ≤ s2Of bs w
  · -- the new window still starts at or before the old one, at most 4 bytes earlier
    have hgap : s2Of bs w - s2Of bs (w + 1) ≤ 4 := by
      have h1 : bs.length - 4 * (w / 2 + 1) ≤ s2Of bs (w + 1) := by
        rw [hs2w']; exact le_max_left _ _
      have h2 : p1Of bs (w + 1) ≤ s2Of bs (w + 1) := p1_le_s2 bs (w + 1)
      have h4 : bs.length - 4 * (w / 2) ≤ s2Of bs (w + 1) + 4 := by omega
      have h5 : p1Of bs w ≤ s2Of bs (w + 1) + 4 := by omega
      have h7 : max (bs.length - 4 * (w / 2)) (p1Of bs w) ≤ s2Of bs (w + 1) + 4 :=
        max_le h4 h5
      omega
    by_cases hcons : bs.length ≤ p1Of bs w + (rOf bs w).2
    · exfalso
      have hsp : s2Of bs w = p1Of bs w := consumed_start bs w hcons
      have hsq : s2Of bs (w + 1) = s2Of bs w := by
        have h2 : p1Of bs (w + 1) ≤ s2Of bs (w + 1) := p1_le_s2 bs (w + 1)
        omega
      have hout : outOf bs (w + 1) = outOf bs w := by simp only [outOf, hsq]
      have hr : rOf bs (w + 1) = rOf bs w := by
        simp only [rOf, hout, hB, hB']
      apply hcons'
      rw [hr]
      omega
    · rw [shownBytes_pos bs w h0, if_neg hcons,
        shownBytes_pos bs (w + 1) h0', if_neg hcons', hB, hB']
      rcases frame_compare 4 bs (s2Of bs (w + 1)) (s2Of bs w) hss (s2_le_len bs w)
        hgap with ⟨p, hp⟩ | ⟨p, Uc, e, he1, he2, hpq, hq, hU1, hU2⟩
      · have hout : outOf bs (w + 1) = p ++ outOf bs w := hp
        rw [hout]
        have h1 : kbF (w / 2) (outOf bs w).reverse
            ≤ kbF (w / 2) ((p ++ outOf bs w).reverse) := by
          rw [List.reverse_append]
          exact kbF_append_grow _ _ _
        omega
      · -- the old window starts inside a unit of the new window's decoding
        have houtw : outOf bs w =
            ((bs.drop (s2Of bs w)).take (e - s2Of bs w)).map
              (fun b => (⟨hex2 b, 1, false⟩ : Output)) ++ units (bs.drop e) := hq
        have hout' : outOf bs (w + 1) = p ++ Uc :: units (bs.drop e) := hpq
        rw [houtw, hout']
        set R := units (bs.drop e) with hR
        set orph := ((bs.drop (s2Of bs w)).take (e - s2Of bs w)).map
          (fun b => (⟨hex2 b, 1, false⟩ : Output)) with horph
        have hrevw : (orph ++ R).reverse = R.reverse ++ orph.reverse :=
          List.reverse_append _ _
        have hrev' : (p ++ Uc :: R).reverse = (R.reverse ++ [Uc]) ++ p.reverse := by
          rw [List.reverse_append, List.reverse_cons]
        rw [hrevw, hrev']
        by_cases hRp : sumCC R.reverse ≤ w / 2
        · have horphprops : ∀ u ∈ orph, u.input_len = 1 ∧ u.charCount = 2 := by
            intro u hu
            rw [horph] at hu
            rcases List.mem_map.mp hu with ⟨b, _, rfl⟩
            exact ⟨rfl, rfl⟩
          have hkw := kbF_append_pass R.reverse orph.reverse (w / 2) hRp
          set j1 := (revTake (w / 2) (0 + sumCC R.reverse)
            (0 + sumInputLen R.reverse) orph.reverse).1 with hj1
          have hj1le : j1 ≤ e - s2Of bs w := by
            have h1 := rt_r1_le orph.reverse (w / 2) (0 + sumCC R.reverse)
              (0 + sumInputLen R.reverse)
            have h5 : orph.reverse.length ≤ e - s2Of bs w := by
              rw [List.length_reverse, horph, List.length_map, List.length_take]
              exact Nat.min_le_left _ _
            omega
          have htk : sumInputLen (orph.reverse.take j1) ≤ j1 := by
            have h1 : ∀ u ∈ orph.reverse.take j1, u.input_len = 1 := by
              intro u hu
              have h2 := List.mem_of_mem_take hu
              rw [List.mem_reverse] at h2
              exact (horphprops u h2).1
            have h3 := sumInputLen_le_length (orph.reverse.take j1) h1
            have h4 := List.length_take_le j1 orph.reverse
            omega
          rcases Nat.eq_zero_or_pos j1 with hj0 | hjpos
          · have h00 : sumInputLen (orph.reverse.take j1) = 0 := by
              rw [hj0]
              rfl
            have hge : sumInputLen R.reverse
                ≤ kbF (w / 2) ((R.reverse ++ [Uc]) ++ p.reverse) := by
              rw [List.append_assoc]
              exact kbF_append_pass_le R.reverse ([Uc] ++ p.reverse) (w / 2) hRp
            rw [hkw]
            omega
          · rcases horev : orph.reverse with _ | ⟨O1, rest1⟩
            · exfalso
              rw [horev] at hj1
              simp [revTake] at hj1
              omega
            · rw [horev] at hkw hj1 htk
              have hkept : (0 + sumCC R.reverse) + O1.charCount ≤ w / 2 := by
                apply rt_head_kept O1 rest1 (w / 2) (0 + sumCC R.reverse)
                  (0 + sumInputLen R.reverse)
                omega
              have hO1cc : O1.charCount = 2 := by
                have h2 : O1 ∈ orph := by
                  rw [← List.mem_reverse, horev]
                  simp
                exact (horphprops O1 h2).2
              have hpassU : sumCC (R.reverse ++ [Uc]) ≤ w / 2 := by
                rw [sumCC_append]
                have h9 : sumCC [Uc] = Uc.charCount := by simp [sumCC]
                omega
              have hge : sumInputLen (R.reverse ++ [Uc])
                  ≤ kbF (w / 2) ((R.reverse ++ [Uc]) ++ p.reverse) :=
                kbF_append_pass_le _ _ _ hpassU
              have hsilUc : sumInputLen [Uc] = Uc.input_len := by
                simp [sumInputLen]
              have hsilRU : sumInputLen (R.reverse ++ [Uc])
                  = sumInputLen R.reverse + Uc.input_len := by
                rw [sumInputLen_append, hsilUc]
              rw [hkw]
              omega
        · rw [kbF_append_fail R.reverse orph.reverse _ hRp,
            List.append_assoc, kbF_append_fail R.reverse _ _ hRp]
          omega
  · -- the head took one more unit and the new window starts at the new head end
    have hlt : s2Of bs w < s2Of bs (w + 1) := by omega
    have hs'p : s2Of bs (w + 1) = p1Of bs (w + 1) := by
      rcases max_choice (bs.length - 4 * (w / 2 + 1)) (p1Of bs (w + 1)) with hmc | hmc
      · exfalso
        have h1 : bs.length - 4 * (w / 2) ≤ s2Of bs w := by
          rw [hs2w]; exact le_max_left _ _
        have h2 : s2Of bs (w + 1) = bs.length - 4 * (w / 2 + 1) := by
          rw [hs2w']; exact hmc
        omega
      · rw [hs2w']; exact hmc
    have hp1lt : p1Of bs w < p1Of bs (w + 1) := by
      have := p1_le_s2 bs w
      omega
    rcases hug_succ (units bs) (w / 2) 0 hcc1 with hE | ⟨U, hE⟩
    · exfalso
      have : p1Of bs (w + 1) = p1Of bs w := by rw [hp1w, hp1w', hE]
      omega
    · obtain ⟨Q', hQ'⟩ := hug_prefix (units bs) (w / 2 + 1) 0
      have hQ2 : units bs = headUnitsGo (w / 2) 0 (units bs) ++ (U :: Q') := by
        conv_lhs => rw [hQ']
        rw [hE]
        simp
      have hsilU : sumInputLen [U] = U.input_len := by simp [sumInputLen]
      have hadd : p1Of bs (w + 1) = p1Of bs w + U.input_len := by
        rw [hp1w', hE, sumInputLen_append, hsilU, hp1w]
      have hm : units (bs.drop (p1Of bs w)) = U :: Q' := by
        rw [hp1w]
        exact units_drop_prefix _ bs _ hQ2
      obtain ⟨hoN, hQn⟩ := units_head (bs.drop (p1Of bs w)) U Q' hm
      have hout' : outOf bs (w + 1) = Q' := by
        show units (bs.drop (s2Of bs (w + 1))) = Q'
        rw [hs'p, hp1w']
        exact units_drop_prefix _ bs _ hQ'
      have hqlen : p1Of bs (w + 1) + sumInputLen Q' = bs.length := by
        have h1 : sumInputLen (units bs) = bs.length := sumInputLen_units bs
        rw [hQ', sumInputLen_append] at h1
        rw [hp1w']
        omega
      have hcons'of : ¬ sumCC Q'.reverse ≤ w / 2 := by
        intro hQk
        apply hcons'
        have hrw : rOf bs (w + 1) = revTake (w / 2) 0 0 Q'.reverse := by
          simp only [rOf, hB', hout']
        rw [hrw, rt_pass Q'.reverse (w / 2) 0 0 (by omega)]
        show bs.length ≤ p1Of bs (w + 1) + (0 + sumInputLen Q'.reverse)
        rw [sumInputLen_reverse]
        omega
      by_cases hcons : bs.length ≤ p1Of bs w + (rOf bs w).2
      · exfalso
        have hsp : s2Of bs w = p1Of bs w := consumed_start bs w hcons
        have houtw : outOf bs w = U :: Q' := by
          show units (bs.drop (s2Of bs w)) = U :: Q'
          rw [hsp]; exact hm
        have h1 : (rOf bs w).2 ≤ sumInputLen (outOf bs w) := by
          have h0a := rt_r2_le (outOf bs w).reverse (tailBudget (clampWidth w)) 0 0
          rw [sumInputLen_reverse] at h0a
          simpa [rOf] using h0a
        have h2 : sumInputLen (outOf bs w) = bs.length - s2Of bs w := sil_out bs w
        have hp1len : p1Of bs w ≤ bs.length := p1_le_len bs w
        have hilpos : ∀ u ∈ (outOf bs w).reverse, 1 ≤ u.input_len := by
          intro u hu
          rw [List.mem_reverse] at hu
          exact units_il_pos (bs.drop (s2Of bs w)).length (bs.drop (s2Of bs w)) u hu
        have hrw : rOf bs w = revTake (w / 2) 0 0 (outOf bs w).reverse := by
          simp only [rOf, hB]
        rcases rt_split (outOf bs w).reverse (w / 2) 0 0 (Nat.zero_le _)
          with ⟨hA2, _⟩ | ⟨T, o, rest, hsp2, hA2, _, hC2⟩
        · apply hcons'of
          rw [houtw, List.reverse_cons, sumCC_append] at hA2
          omega
        · have hr2 : (rOf bs w).2 = 0 + sumInputLen T + o.input_len := by
            rw [hrw, hC2]
          have hsilsplit : sumInputLen (outOf bs w)
              = sumInputLen T + o.input_len + sumInputLen rest := by
            have h8 : sumInputLen (outOf bs w)
                = sumInputLen (outOf bs w).reverse := (sumInputLen_reverse _).symm
            rw [h8, hsp2, sumInputLen_append]
            have h9 : sumInputLen (o :: rest)
                = o.input_len + sumInputLen rest := rfl
            omega
          have hrest : rest = [] := by
            by_contra hne
            have hpos := sumInputLen_pos_of_ne_nil rest
              (fun u hu => hilpos u (by rw [hsp2]; simp [hu])) hne
            omega
          subst hrest
          have heq2 : T ++ [o] = Q'.reverse ++ [U] := by
            rw [← hsp2, houtw, List.reverse_cons]
          have hlen2 : T.length = Q'.reverse.length := by
            have h9 := congrArg List.length heq2
            simp at h9
            rw [List.length_reverse]
            omega
          obtain ⟨hTQ, _⟩ := List.append_inj heq2 hlen2
          apply hcons'of
          rw [← hTQ]
          omega
      · rw [shownBytes_pos bs w h0, if_neg hcons,
          shownBytes_pos bs (w + 1) h0', if_neg hcons', hB, hB', hout']
        have hX : ∃ X, (outOf bs w).reverse = Q'.reverse ++ X := by
          by_cases hsp : s2Of bs w = p1Of bs w
          · refine ⟨[U], ?_⟩
            have houtw : outOf bs w = U :: Q' := by
              show units (bs.drop (s2Of bs w)) = U :: Q'
              rw [hsp]; exact hm
            rw [houtw, List.reverse_cons]
          · have hd1 : p1Of bs w < s2Of bs w := by
              have := p1_le_s2 bs w
              omega
            have hd2 : s2Of bs w < p1Of bs w + U.input_len := by
              rw [← hadd]
              omega
            have hbig : 2 ≤ U.input_len := by omega
            obtain ⟨_, hil4, hint⟩ := outputNext_big _ _ _ hoN hbig
            have hcont : ∀ b2 ∈ (bs.drop (s2Of bs w)).take
                  (p1Of bs w + U.input_len - s2Of bs w),
                0x80 ≤ b2 ∧ b2 ≤ 0xBF := by
              intro b2 hb2
              apply hint
              have hds : bs.drop (s2Of bs w) =
                  ((bs.drop (p1Of bs w)).drop 1).drop
                    (s2Of bs w - p1Of bs w - 1) := by
                rw [List.drop_drop, List.drop_drop]
                congr 1
                omega
              rw [hds] at hb2
              have htt : (((bs.drop (p1Of bs w)).drop 1).drop
                      (s2Of bs w - p1Of bs w - 1)).take
                    (p1Of bs w + U.input_len - s2Of bs w)
                  = (((bs.drop (p1Of bs w)).drop 1).take (U.input_len - 1)).drop
                    (s2Of bs w - p1Of bs w - 1) := by
                rw [List.drop_take]
                congr 1
                omega
              rw [htt] at hb2
              exact List.mem_of_mem_drop hb2
            have hklen : p1Of bs w + U.input_len - s2Of bs w
                ≤ (bs.drop (s2Of bs w)).length := by
              rw [List.length_drop]
              have h7 : p1Of bs w + U.input_len ≤ bs.length := by
                rw [← hadd]
                exact p1_le_len bs (w + 1)
              omega
            have hfo := frame_orphans (p1Of bs w + U.input_len - s2Of bs w)
              (bs.drop (s2Of bs w)) hcont hklen
            have hdq : (bs.drop (s2Of bs w)).drop
                  (p1Of bs w + U.input_len - s2Of bs w)
                = (bs.drop (p1Of bs w)).drop U.input_len := by
              rw [List.drop_drop, List.drop_drop]
              congr 1
              omega
            refine ⟨(((bs.drop (s2Of bs w)).take
              (p1Of bs w + U.input_len - s2Of bs w)).map
              (fun b => (⟨hex2 b, 1, false⟩ : Output))).reverse, ?_⟩
            show (units (bs.drop (s2Of bs w))).reverse = _
            rw [hfo, hdq, hQn, List.reverse_append]
        obtain ⟨X, hXe⟩ := hX
        rw [hXe, kbF_append_fail Q'.reverse X (w / 2) hcons'of]
        omega

/-- One-step width monotonicity of the input-byte coverage of `pretty`. -/
theorem shownBytes_mono (bs : List Nat) (w : Nat) (h : 1 ≤ w) :
    shownBytes bs w ≤ shownBytes bs (w + 1) := by
  by_cases h6 : w < 6
  · apply le_of_eq
    apply shownBytes_congr
    rw [clampWidth_small w h (by omega),
      clampWidth_small (w + 1) (by omega) (by omega)]
  · by_cases he : w % 2 = 0
    · exact shownBytes_mono_even bs w (by omega) he
    · exact shownBytes_mono_odd bs w (by omega) (by omega)

/-- Width monotonicity over any width increase (both widths `≥ 1`). -/
theorem shownBytes_mono_le (bs : List Nat) (w w' : Nat) (h1 : 1 ≤ w)
    (h : w ≤ w') : shownBytes bs w ≤ shownBytes bs w' := by
  induction w', h using Nat.le_induction with
  | base => exact le_rfl
  | succ n hmn ih => exact le_trans ih (shownBytes_mono bs n (by omega))

/-- The C9 counterexample input: seven copies of the 4-byte scalar U+20000. -/
def c9input : List Nat := (List.replicate 7 [0xF0, 0xA0, 0x80, 0x80]).flatten

/-- C9, counterexample: the claim says the gap marker disappears once the
width is at least the input's full rendered character count; `c9input`
renders as 7 characters, yet at width 7 the output still contains the gap
marker (the backward tail scan reaches only `4 * (width/2)` bytes, which
misses one character of this input). -/
theorem c9_counterexample :
    (pretty c9input 0).length = 7 ∧
    (pretty c9input 7).data.contains '⠤' = true ∧
    pretty c9input 7 ≠ pretty c9input 0 := by decide

/-- Once *half* the width is at least the input's full rendered character
count (`(pretty bs 0).length ≤ w / 2`), the head loop consumes the entire
input, no gap marker is inserted, and the output equals the full lossless
rendering `pretty bs 0`. -/
theorem pretty_eq_lossless_of_half_width (bs : List Nat) (w : Nat) (hw : 0 < w)
    (hc : (pretty bs 0).length ≤ w / 2) : pretty bs w = pretty bs 0 := by
  have hW : 0 < clampWidth w := clampWidth_pos w hw
  have hp0 : pretty bs 0 = coalesced (units bs) := rfl
  have hsum : sumCC (units bs) ≤ w / 2 := by
    have h1 := sumCC_le_coalesced (units bs) false
    rw [hp0] at hc
    simp only [coalesced] at hc
    omega
  have hhead : headUnitsGo (clampWidth w / 2) 0 (units bs) = units bs := by
    refine headUnitsGo_all _ (fun u hu => units_cc_pos _ _ _ hu) _ 0 ?_
    have h5 : sumCC (outputUnits bs.length bs) = sumCC (units bs) := rfl
    have h6 := clampWidth_div2_ge w
    omega
  have hph : prettyHead bs w = units bs := by
    simp only [prettyHead]
    rw [if_pos hW, hhead]
  have hps : prettyHeadStr bs w = coalesced (units bs) := by
    simp only [prettyHeadStr]
    rw [hph]
  have hlen : sumInputLen (prettyHead bs w) = bs.length := by
    rw [hph]; exact sumInputLen_units bs
  simp only [pretty]
  rw [if_pos hW, hlen, hps]
  have hmax : max (bs.length - 4 * (clampWidth w / 2)) bs.length = bs.length :=
    Nat.max_eq_right (Nat.sub_le _ _)
  rw [hmax, List.drop_length]
  have hun : units ([] : List Nat) = [] := rfl
  rw [hun]
  simp only [List.reverse_nil, revTake, List.length_nil, List.drop_zero]
  rw [if_pos (by omega), if_pos (by omega)]
  have hemp : coalesced (List.drop 0 ([] : List Output)) = "" := rfl
  rw [hemp]
  have happ : coalesced (units bs) ++ "" = coalesced (units bs) := by simp
  rw [happ]
  rfl

/-- C9, amended: (1) width monotonicity holds in the sense of input-byte
coverage — for widths `1 ≤ w ≤ w'`, `shownBytes` (the number of input bytes
whose decoded units reach the output of `pretty`: head bytes plus kept tail
bytes) never decreases; (2) the gap marker disappears and the output equals
the full lossless rendering once *half* the width is at least the input's
full rendered character count (`(pretty bs 0).length ≤ w / 2`) — the
original threshold `width ≥ character count` is refuted by
`c9_counterexample`. -/
theorem c9_amended :
    (∀ (bs : List Nat) (w w' : Nat), 1 ≤ w → w ≤ w' →
      shownBytes bs w ≤ shownBytes bs w') ∧
    (∀ (bs : List Nat) (w : Nat), 0 < w → (pretty bs 0).length ≤ w / 2 →
      pretty bs w = pretty bs 0) :=
  ⟨shownBytes_mono_le, pretty_eq_lossless_of_half_width⟩

/-- C9, amended, witness: both conjuncts instantiated — byte-coverage
monotonicity at `c9input` from width 7 to width 8, and the half-width
threshold equality at `"ab"` and width 4. -/
theorem c9_amended_witness :
    ((1 ≤ 7 ∧ 7 ≤ 8) ∧ shownBytes c9input 7 ≤ shownBytes c9input 8) ∧
    ((0 < 4 ∧ (pretty (strBytes "ab") 0).length ≤ 4 / 2) ∧
      pretty (strBytes "ab") 4 = pretty (strBytes "ab") 0) :=
  ⟨⟨⟨by decide, by decide⟩, c9_amended.1 c9input 7 8 (by decide) (by decide)⟩,
   ⟨⟨by decide, by decide⟩, c9_amended.2 (strBytes "ab") 4 (by decide) (by decide)⟩⟩

/-! ## UTF-8 prefix lemmas and the no-panic refinement of `pretty` (C4) -/

theorem utf8First_take (bs : List Nat) (cp l m : Nat) (h : utf8First bs = some (cp, l))
    (hm : l ≤ m) : utf8First (bs.take m) = some (cp, l) := by
  obtain ⟨hl1, _⟩ := utf8First_bounds bs cp l h
  match bs, m with
  | [], _ => simp [utf8First] at h
  | b0 :: rest, 0 => omega
  | b0 :: rest, m + 1 =>
    rw [List.take_succ_cons]
    simp only [utf8First] at h ⊢
    by_cases h1 : b0 < 0x80
    · rw [if_pos h1] at h ⊢
      exact h
    · rw [if_neg h1] at h ⊢
      by_cases h2 : (0xC2 ≤ b0 && b0 ≤ 0xDF) = true
      · rw [if_pos h2] at h ⊢
        rcases rest with _ | ⟨b1, rest2⟩
        · simp at h
        · dsimp only at h
          split at h
          · rename_i hc
            simp only [Option.some.injEq, Prod.mk.injEq] at h
            obtain ⟨rfl, rfl⟩ := h
            obtain ⟨m', rfl⟩ : ∃ m', m = m' + 1 := ⟨m - 1, by omega⟩
            rw [List.take_succ_cons]
            dsimp only
            rw [if_pos hc]
          · simp at h
      · rw [if_neg h2] at h ⊢
        by_cases h3 : (0xE0 ≤ b0 && b0 ≤ 0xEF) = true
        · rw [if_pos h3] at h ⊢
          rcases rest with _ | ⟨b1, _ | ⟨b2, rest2⟩⟩
          · simp at h
          · simp at h
          · dsimp only at h
            simp only [Option.ite_none_right_eq_some, Option.some.injEq, Prod.mk.injEq] at h
            obtain ⟨hc, rfl, rfl⟩ := h
            obtain ⟨m', rfl⟩ : ∃ m', m = m' + 2 := ⟨m - 2, by omega⟩
            rw [List.take_succ_cons, List.take_succ_cons]
            dsimp only
            rw [if_pos hc]
        · rw [if_neg h3] at h ⊢
          by_cases h4 : (0xF0 ≤ b0 && b0 ≤ 0xF4) = true
          · rw [if_pos h4] at h ⊢
            rcases rest with _ | ⟨b1, _ | ⟨b2, _ | ⟨b3, rest2⟩⟩⟩
            · simp at h
            · simp at h
            · simp at h
            · dsimp only at h
              simp only [Option.ite_none_right_eq_some, Option.some.injEq, Prod.mk.injEq] at h
              obtain ⟨hc, rfl, rfl⟩ := h
              obtain ⟨m', rfl⟩ : ∃ m', m = m' + 3 := ⟨m - 3, by omega⟩
              rw [List.take_succ_cons, List.take_succ_cons, List.take_succ_cons]
              dsimp only
              rw [if_pos hc]
          · rw [if_neg h4] at h
            simp at h

theorem utf8ValidLen_le (f : Nat) : ∀ bs : List Nat, utf8ValidLen f bs ≤ bs.length := by
  induction f with
  | zero => intro bs; simp [utf8ValidLen]
  | succ f ih =>
    intro bs
    simp only [utf8ValidLen]
    rcases h : utf8First bs with _ | ⟨cp, l⟩ <;> dsimp only
    · omega
    · obtain ⟨h1, h2⟩ := utf8First_bounds bs cp l h
      have h3 := ih (bs.drop l)
      simp only [List.length_drop] at h3
      omega

theorem utf8ValidLen_nil (f : Nat) : utf8ValidLen f [] = 0 := by
  match f with
  | 0 => rfl
  | g + 1 => rfl

theorem vp_fuel (n : Nat) : ∀ (bs : List Nat) (f g : Nat), bs.length ≤ n →
    n ≤ f → n ≤ g → utf8ValidLen f bs = utf8ValidLen g bs := by
  induction n with
  | zero =>
    intro bs f g hlen _ _
    obtain rfl : bs = [] := List.length_eq_zero.mp (by omega)
    rw [utf8ValidLen_nil, utf8ValidLen_nil]
  | succ n ih =>
    intro bs f g hlen hf hg
    match bs with
    | [] => rw [utf8ValidLen_nil, utf8ValidLen_nil]
    | b :: rest =>
      obtain ⟨f1, rfl⟩ : ∃ f1, f = f1 + 1 := ⟨f - 1, by omega⟩
      obtain ⟨g1, rfl⟩ : ∃ g1, g = g1 + 1 := ⟨g - 1, by omega⟩
      simp only [utf8ValidLen]
      rcases h : utf8First (b :: rest) with _ | ⟨cp, l⟩
      · rfl
      · dsimp only
        obtain ⟨h1, h2⟩ := utf8First_bounds _ cp l h
        have hd : ((b :: rest).drop l).length ≤ n := by
          simp only [List.length_drop, List.length_cons] at *
          omega
        rw [ih ((b :: rest).drop l) f1 g1 hd (by omega) (by omega)]

theorem vp_pos_first (bs : List Nat) (h : 0 < validUpTo bs) :
    ∃ cp l, utf8First bs = some (cp, l) ∧ l ≤ validUpTo bs := by
  match bs with
  | [] => simp [validUpTo, utf8ValidLen] at h
  | b :: rest =>
    unfold validUpTo at h ⊢
    simp only [List.length_cons, utf8ValidLen] at h ⊢
    rcases hu : utf8First (b :: rest) with _ | ⟨cp, l⟩
    · rw [hu] at h
      simp at h
    · rw [hu] at h
      dsimp only at h ⊢
      exact ⟨cp, l, rfl, by omega⟩

theorem vp_take_valid (n : Nat) : ∀ bs : List Nat, bs.length ≤ n →
    validUpTo (bs.take (validUpTo bs)) = validUpTo bs := by
  induction n with
  | zero =>
    intro bs hlen
    obtain rfl : bs = [] := List.length_eq_zero.mp (by omega)
    rfl
  | succ n ih =>
    intro bs hlen
    match bs with
    | [] => rfl
    | b :: rest =>
      rcases hu : utf8First (b :: rest) with _ | ⟨cp, l⟩
      · have hv : validUpTo (b :: rest) = 0 := by
          unfold validUpTo
          simp only [List.length_cons, utf8ValidLen, hu]
        rw [hv]
        rfl
      · obtain ⟨h1, h2⟩ := utf8First_bounds _ cp l hu
        have hv : validUpTo (b :: rest) = l + validUpTo ((b :: rest).drop l) := by
          unfold validUpTo
          simp only [List.length_cons, utf8ValidLen, hu]
          have := vp_fuel ((b :: rest).drop l).length ((b :: rest).drop l)
            rest.length ((b :: rest).drop l).length
            le_rfl (by simp only [List.length_drop, List.length_cons]; omega) le_rfl
          rw [this]
        set w := validUpTo ((b :: rest).drop l) with hw
        rw [hv]
        have hfirst : utf8First ((b :: rest).take (l + w)) = some (cp, l) :=
          utf8First_take _ _ _ _ hu (by omega)
        have hdt : ((b :: rest).take (l + w)).drop l = ((b :: rest).drop l).take w := by
          rw [List.drop_take]
          congr 1
          omega
        have hlen2 : ((b :: rest).take (l + w)).length = min (l + w) (b :: rest).length :=
          List.length_take _ _
        have hwle : w ≤ ((b :: rest).drop l).length := by
          rw [hw]
          exact utf8ValidLen_le _ _
        unfold validUpTo
        rw [List.length_take]
        have hmin : min (l + w) (b :: rest).length = l + w := by
          simp only [List.length_drop] at hwle
          simp only [List.length_cons] at *
          omega
        rw [hmin]
        obtain ⟨f1, hf1⟩ : ∃ f1, l + w = f1 + 1 := ⟨l + w - 1, by omega⟩
        rw [hf1]
        simp only [utf8ValidLen]
        rw [← hf1, hfirst]
        dsimp only
        rw [hdt]
        have hih : validUpTo (((b :: rest).drop l).take w) = w := by
          have := ih ((b :: rest).drop l)
            (by simp only [List.length_drop, List.length_cons] at hlen ⊢; omega)
          rw [hw]
          exact this
        unfold validUpTo at hih
        have hfuel := vp_fuel ((((b :: rest).drop l).take w)).length
          ((((b :: rest).drop l)).take w) f1 (((((b :: rest).drop l)).take w)).length
          le_rfl (by rw [List.length_take]; omega) le_rfl
        rw [hfuel, hih]

theorem outputNextE_eq (bs : List Nat) : outputNextE bs = some (outputNext bs) := by
  match bs with
  | [] => rfl
  | b :: rest =>
    have htm : (b :: rest).take (min (b :: rest).length 4) = (b :: rest).take 4 := by
      rcases Nat.le_total (b :: rest).length 4 with hle | hle
      · rw [Nat.min_eq_left hle, List.take_of_length_le hle, List.take_length]
      · rw [Nat.min_eq_right hle]
    simp only [outputNextE, outputNext]
    rw [htm]
    by_cases hval : isUtf8 ((b :: rest).take 4) = true
    · rw [if_pos hval]
      have hne : ((b :: rest).take 4) ≠ [] := by
        simp [List.take_eq_nil_iff]
      have hpos : 0 < validUpTo ((b :: rest).take 4) := by
        simp only [isUtf8, beq_iff_eq] at hval
        rw [hval]
        simp [List.length_take]
      obtain ⟨cp, l, hu, hle⟩ := vp_pos_first _ hpos
      simp only [validCharE, htm]
      rw [if_pos hval, hu]
      rfl
    · rw [if_neg hval]
      by_cases hv : 0 < validUpTo ((b :: rest).take 4)
      · rw [if_pos hv]
        obtain ⟨cp, l, hu, hle⟩ := vp_pos_first _ hv
        set s := (b :: rest).take 4 with hs
        set v := validUpTo s with hvdef
        have hvs : v ≤ s.length := utf8ValidLen_le _ _
        have hs4 : s.length ≤ 4 := by
          rw [hs]; exact List.length_take_le _ _
        have hminv : min v 4 = v := Nat.min_eq_left (by omega)
        have htv : (b :: rest).take v = s.take v := by
          rw [hs, List.take_take]
          congr 1
          omega
        have hvalid : isUtf8 ((b :: rest).take v) = true := by
          rw [htv]
          simp only [isUtf8, beq_iff_eq]
          have h1 := vp_take_valid s.length s le_rfl
          rw [← hvdef] at h1
          rw [h1, List.length_take]
          omega
        have hfirst : utf8First ((b :: rest).take v) = some (cp, l) := by
          rw [htv]
          exact utf8First_take s cp l v hu hle
        simp only [validCharE, hminv]
        rw [if_pos hvalid, hfirst, hu]
        rfl
      · rw [if_neg hv]
        have hnone : utf8First ((b :: rest).take 4) = none := by
          rcases hu : utf8First ((b :: rest).take 4) with _ | ⟨cp, l⟩
          · rfl
          · exfalso
            apply hv
            have hne : (b :: rest).take 4 ≠ [] := by
              simp [List.take_eq_nil_iff]
            match hss : (b :: rest).take 4, hu with
            | s0 :: srest, hu =>
              unfold validUpTo
              simp only [List.length_cons, utf8ValidLen]
              rw [hu]
              dsimp only
              have := (utf8First_bounds _ _ _ hu).1
              omega
        rw [hnone]

theorem outputUnitsE_eq (f : Nat) : ∀ bs : List Nat,
    outputUnitsE f bs = some (outputUnits f bs) := by
  induction f with
  | zero => intro bs; rfl
  | succ f ih =>
    intro bs
    simp only [outputUnitsE, outputUnits, outputNextE_eq bs]
    rcases outputNext bs with _ | ⟨o, r⟩
    · rfl
    · simp [ih r]

theorem unitsE_eq (bs : List Nat) : unitsE bs = some (units bs) :=
  outputUnitsE_eq bs.length bs

/-- C4: the pretty/shorten renderer is total — the panic-faithful model
`prettyE` (with `OutputIterator`'s `expect` sites surfaced as `none`) never
fails and agrees with `pretty` on every byte string and width, valid or
invalid UTF-8 alike. -/
theorem c4_confirmed (bs : List Nat) (w : Nat) : prettyE bs w = some (pretty bs w) := by
  simp only [prettyE, pretty, prettyHeadStr, prettyHead, coalesced]
  rw [unitsE_eq]
  dsimp only
  by_cases hW : 0 < clampWidth w
  · rw [if_pos hW, if_pos hW, if_pos hW, unitsE_eq]
  · rw [if_neg hW, if_neg hW, if_neg hW]

/-! ## C1: the round-trip class

A tree round-trips through `format` and `parse` when its atoms render
verbatim and re-lex as single `Bare` tokens, and its maps avoid the code
paths that are broken in `parse.rs` (`parse_quoted` is a `todo`, the empty
map renders as `()` which re-parses as a list, and the value position of a
map mishandles compound values).  `goodAtomByte` carves out the printable
ASCII bytes that `pretty` emits unescaped and that `Base::Bare` accepts. -/

def goodAtomByte (b : Nat) : Bool :=
  decide (33 ≤ b) && decide (b ≤ 126) && !(b == 34) && !(b == 35) &&
    !(b == 40) && !(b == 41) && !(b == 58) && !(b == 92)

def Item.isAtom : Item → Bool
  | .atom _ => true
  | _ => false

mutual
/-- The round-trip-good trees: atoms are nonempty runs of at most 20 plain
bare bytes, lists have good elements, maps are nonempty with good keys and
good *atom* values. -/
def Item.good : Item → Bool
  | .atom s => !s.isEmpty && decide (s.length ≤ 20) && s.all goodAtomByte
  | .list xs => ItemList.goodElems xs
  | .map ps => ItemPairs.goodNE ps

def ItemList.goodElems : ItemList → Bool
  | .nil => true
  | .cons x xs => Item.good x && ItemList.goodElems xs

def ItemPairs.goodNE : ItemPairs → Bool
  | .nil => false
  | .cons k v ps => Item.good k && Item.good v && v.isAtom && ItemPairs.goodTail ps

def ItemPairs.goodTail : ItemPairs → Bool
  | .nil => true
  | .cons k v ps => Item.good k && Item.good v && v.isAtom && ItemPairs.goodTail ps
end

mutual
/-- Structural size, the induction measure for the round-trip proofs. -/
def Item.sizeI : Item → Nat
  | .atom _ => 1
  | .list xs => xs.sizeL + 1
  | .map ps => ps.sizeP + 1

def ItemList.sizeL : ItemList → Nat
  | .nil => 1
  | .cons x xs => x.sizeI + xs.sizeL + 1

def ItemPairs.sizeP : ItemPairs → Nat
  | .nil => 1
  | .cons k v ps => k.sizeI + v.sizeI + ps.sizeP + 1
end

mutual
/-- The token stream that the rendering of a good tree lexes to. -/
def Item.elemToks : Item → List Token
  | .atom s => [Token.Bare s]
  | .list xs => Token.Open :: ItemList.elemsToks xs ++ [Token.Close]
  | .map ps => Token.Open :: ItemPairs.pairsToks ps ++ [Token.Close]

def ItemList.elemsToks : ItemList → List Token
  | .nil => []
  | .cons x .nil => Item.elemToks x
  | .cons x xs => Item.elemToks x ++ Token.WhiteSpace [32] :: ItemList.elemsToks xs

def ItemPairs.pairsToks : ItemPairs → List Token
  | .nil => []
  | .cons k v .nil =>
    Item.elemToks k ++ Token.Colon :: Token.WhiteSpace [32] :: Item.elemToks v
  | .cons k v ps =>
    Item.elemToks k ++ Token.Colon :: Token.WhiteSpace [32] ::
      (Item.elemToks v ++ Token.WhiteSpace [32] :: ItemPairs.pairsToks ps)
end

def ItemList.appendL : ItemList → ItemList → ItemList
  | .nil, ys => ys
  | .cons x xs, ys => .cons x (ItemList.appendL xs ys)

def ItemPairs.appendP : ItemPairs → ItemPairs → ItemPairs
  | .nil, qs => qs
  | .cons k v ps, qs => .cons k v (ItemPairs.appendP ps qs)

/-- The byte that may follow a rendered element: end of input, a space
separator, a closing paren, or the colon after a key. -/
def safeFollow (rest : List Nat) : Bool :=
  match rest with
  | [] => true
  | b :: _ => b == 32 || b == 41 || b == 58

def nonWsHead (rest : List Nat) : Bool :=
  match rest with
  | [] => true
  | b :: _ => !isWsByte b

theorem sizeI_pos (v : Item) : 1 ≤ v.sizeI := by
  match v with
  | .atom s => simp [Item.sizeI]
  | .list xs => simp [Item.sizeI]
  | .map ps => simp [Item.sizeI]

theorem sizeL_pos (xs : ItemList) : 1 ≤ xs.sizeL := by
  match xs with
  | .nil => simp [ItemList.sizeL]
  | .cons x xs => simp [ItemList.sizeL]

theorem sizeP_pos (ps : ItemPairs) : 1 ≤ ps.sizeP := by
  match ps with
  | .nil => simp [ItemPairs.sizeP]
  | .cons k v ps => simp [ItemPairs.sizeP]

theorem goodNE_tail (ps : ItemPairs) (h : ItemPairs.goodNE ps = true) :
    ItemPairs.goodTail ps = true := by
  match ps with
  | .nil => simp [ItemPairs.goodNE] at h
  | .cons k v ps => exact h

theorem appendL_nil (acc : ItemList) : ItemList.appendL acc .nil = acc := by
  match acc with
  | .nil => rfl
  | .cons x xs => simp only [ItemList.appendL, appendL_nil xs]

theorem appendL_push (acc : ItemList) (x : Item) (xs : ItemList) :
    ItemList.appendL (acc.push x) xs = ItemList.appendL acc (.cons x xs) := by
  match acc with
  | .nil => rfl
  | .cons a as => simp only [ItemList.push, ItemList.appendL, appendL_push as x xs]

theorem appendP_nil (acc : ItemPairs) : ItemPairs.appendP acc .nil = acc := by
  match acc with
  | .nil => rfl
  | .cons k v ps => simp only [ItemPairs.appendP, appendP_nil ps]

theorem appendP_push (acc : ItemPairs) (k v : Item) (ps : ItemPairs) :
    ItemPairs.appendP (acc.push k v) ps = ItemPairs.appendP acc (.cons k v ps) := by
  match acc with
  | .nil => rfl
  | .cons a b qs => simp only [ItemPairs.push, ItemPairs.appendP, appendP_push qs k v ps]

theorem goodAtomByte_facts (b : Nat) (h : goodAtomByte b = true) :
    isWsByte b = false ∧ (b == 58) = false ∧ (b == 40) = false ∧
    (b == 41) = false ∧ (b == 92) = false ∧ (b == 34) = false ∧
    (b == 35) = false ∧ isBareByte b = true ∧ isPlainAscii b = true ∧
    33 ≤ b ∧ b ≤ 126 := by
  simp only [goodAtomByte, Bool.and_eq_true, decide_eq_true_eq,
    Bool.not_eq_true', beq_eq_false_iff_ne] at h
  obtain ⟨⟨⟨⟨⟨⟨⟨h33, h126⟩, h34⟩, h35⟩, h40⟩, h41⟩, h58⟩, h92⟩ := h
  have hws : isWsByte b = false := by
    simp only [isWsByte, Bool.or_eq_false_iff, beq_eq_false_iff_ne]
    omega
  refine ⟨hws, by simp [h58], by simp [h40], by simp [h41], by simp [h92],
    by simp [h34], by simp [h35], ?_, ?_, h33, h126⟩
  · simp only [isBareByte, hws, Bool.or_false, Bool.or_eq_false_iff,
      beq_eq_false_iff_ne, Bool.not_eq_true']
    exact ⟨⟨⟨⟨⟨h58, h35⟩, h40⟩, h41⟩, h92⟩, h34⟩
  · simp only [isPlainAscii, Bool.and_eq_true, decide_eq_true_eq,
      Bool.not_eq_true', beq_eq_false_iff_ne]
    exact ⟨⟨by omega, by omega⟩, h92⟩

/-! ### Good atoms render verbatim through `pretty` -/

theorem charOfNat_toNat : ∀ b, b < 128 → (Char.ofNat b).toNat = b := by decide

theorem utf8EncodeChar_ascii (b : Nat) (h : b < 128) : utf8EncodeChar b = [b] := by
  unfold utf8EncodeChar
  rw [if_pos h]

theorem strBytes_append (a b : String) :
    strBytes (a ++ b) = strBytes a ++ strBytes b := by
  unfold strBytes
  rw [String.data_append, List.map_append, List.flatten_append]

theorem coalesced_plain_data (s : List Nat) :
    (coalesced (s.map plainUnit)).data = s.map (fun b => Char.ofNat b) := by
  induction s with
  | nil => rfl
  | cons b t ih =>
    rw [List.map_cons]
    show (coalescedGo false (plainUnit b :: t.map plainUnit)).data = _
    have hstep : coalescedGo false (plainUnit b :: t.map plainUnit)
        = "" ++ (plainUnit b).contents ++ coalescedGo false (t.map plainUnit) := rfl
    rw [hstep]
    simp only [String.data_append]
    rw [show coalescedGo false (t.map plainUnit) = coalesced (t.map plainUnit) from rfl,
      ih]
    rfl

theorem strBytes_pretty_plain (s : List Nat) (hp : ∀ b ∈ s, isPlainAscii b = true)
    (hle : ∀ b ∈ s, b < 128) : strBytes (pretty s 0) = s := by
  have h0 : pretty s 0 = coalesced (units s) := rfl
  rw [h0, units_plain s hp]
  clear h0
  unfold strBytes
  rw [coalesced_plain_data, List.map_map]
  induction s with
  | nil => rfl
  | cons b t ih =>
    simp only [List.map_cons, List.flatten_cons, Function.comp]
    rw [charOfNat_toNat b (hle b (by simp)),
      utf8EncodeChar_ascii b (hle b (by simp))]
    rw [ih (fun x hx => hp x (by simp [hx])) (fun x hx => hle x (by simp [hx]))]
    rfl

theorem good_atom_bytes (s : List Nat) (h : Item.good (.atom s) = true) :
    s ≠ [] ∧ s.length ≤ 20 ∧ (∀ b ∈ s, goodAtomByte b = true) := by
  simp only [Item.good, Bool.and_eq_true, decide_eq_true_eq, Bool.not_eq_true',
    List.all_eq_true] at h
  obtain ⟨⟨hne, hlen⟩, hall⟩ := h
  refine ⟨?_, hlen, hall⟩
  intro hnil
  rw [hnil] at hne
  simp at hne

theorem good_atom_strBytes (s : List Nat) (h : Item.good (.atom s) = true) :
    strBytes (Item.format (.atom s) 0) = s := by
  obtain ⟨hne, hlen, hall⟩ := good_atom_bytes s h
  show strBytes (pretty s 0) = s
  exact strBytes_pretty_plain s
    (fun b hb => (goodAtomByte_facts b (hall b hb)).2.2.2.2.2.2.2.2.1)
    (fun b hb => by
      have := (goodAtomByte_facts b (hall b hb)).2.2.2.2.2.2.2.2.2.2
      omega)

theorem format_head_nonWs (v : Item) (h : Item.good v = true) (z : List Nat) :
    nonWsHead (strBytes (Item.format v 0) ++ z) = true := by
  match v with
  | .atom s =>
    obtain ⟨hne, _, hall⟩ := good_atom_bytes s h
    rw [good_atom_strBytes s h]
    match s, hne with
    | b :: s2, _ =>
      have hf := goodAtomByte_facts b (hall b (by simp))
      simp only [List.cons_append, nonWsHead, hf.1, Bool.not_false]
  | .list xs =>
    show nonWsHead (strBytes ("(" ++ ItemList.formatElems xs 0 ++ ")") ++ z) = true
    rw [strBytes_append, strBytes_append]
    rfl
  | .map ps =>
    show nonWsHead (strBytes ("(" ++ ItemPairs.formatEntries ps 0 ++ ")") ++ z) = true
    rw [strBytes_append, strBytes_append]
    rfl

/-! ### Compositional lexing of rendered elements -/

theorem lex_open (rest : List Nat) :
    lex (40 :: rest) = (lex rest).map (Token.Open :: ·) := by
  have hfe : 2 * (40 :: rest).length + 2 = (2 * rest.length + 3) + 1 := by
    simp only [List.length_cons]; omega
  have hb : baseTok (40 :: rest) = some (.tok .Open, rest) := rfl
  rw [lex, hfe, lexGo_base_cons, hb]
  dsimp only
  rw [lexGo_eq_lex _ _ (by omega)]

theorem lex_close (rest : List Nat) :
    lex (41 :: rest) = (lex rest).map (Token.Close :: ·) := by
  have hfe : 2 * (41 :: rest).length + 2 = (2 * rest.length + 3) + 1 := by
    simp only [List.length_cons]; omega
  have hb : baseTok (41 :: rest) = some (.tok .Close, rest) := rfl
  rw [lex, hfe, lexGo_base_cons, hb]
  dsimp only
  rw [lexGo_eq_lex _ _ (by omega)]

theorem lex_colon (rest : List Nat) :
    lex (58 :: rest) = (lex rest).map (Token.Colon :: ·) := by
  have hfe : 2 * (58 :: rest).length + 2 = (2 * rest.length + 3) + 1 := by
    simp only [List.length_cons]; omega
  have hb : baseTok (58 :: rest) = some (.tok .Colon, rest) := rfl
  rw [lex, hfe, lexGo_base_cons, hb]
  dsimp only
  rw [lexGo_eq_lex _ _ (by omega)]

theorem lex_space (rest : List Nat) (h : nonWsHead rest = true) :
    lex (32 :: rest) = (lex rest).map (Token.WhiteSpace [32] :: ·) := by
  have hb : baseTok (32 :: rest) = some (.tok (.WhiteSpace [32]), rest) := by
    match rest, h with
    | [], _ => rfl
    | b :: z, h =>
      have hws : isWsByte b = false := by
        simpa [nonWsHead] using h
      simp only [baseTok]
      rw [if_pos (show isWsByte 32 = true from rfl)]
      have hcap : capRun isWsByte 20 (32 :: b :: z) = [32] := by
        simp only [capRun, List.takeWhile_cons, hws]
        rfl
      rw [hcap]
      rfl
  have hfe : 2 * (32 :: rest).length + 2 = (2 * rest.length + 3) + 1 := by
    simp only [List.length_cons]; omega
  rw [lex, hfe, lexGo_base_cons, hb]
  dsimp only
  rw [lexGo_eq_lex _ _ (by omega)]

theorem safeFollow_bare (rest : List Nat) (h : safeFollow rest = true) :
    ∀ b ∈ rest.take 1, isBareByte b = false := by
  match rest with
  | [] => intro b hb; simp at hb
  | c :: z =>
    intro b hb
    simp only [List.take_succ_cons, List.take_zero, List.mem_singleton] at hb
    subst hb
    simp only [safeFollow, Bool.or_eq_true, beq_iff_eq] at h
    rcases h with (h | h) | h <;> subst h <;> rfl

theorem takeWhile_stop (p : Nat → Bool) :
    ∀ (s rest : List Nat), (∀ x ∈ s, p x = true) →
    (∀ b ∈ rest.take 1, p b = false) → (s ++ rest).takeWhile p = s := by
  intro s
  induction s with
  | nil =>
    intro rest _ hstop
    match rest with
    | [] => rfl
    | b :: z =>
      rw [List.nil_append, List.takeWhile_cons, hstop b (by simp)]
      rfl
  | cons a s ih =>
    intro rest hall hstop
    rw [List.cons_append, List.takeWhile_cons, hall a (by simp)]
    rw [if_pos rfl]
    exact congrArg (a :: ·) (ih rest (fun x hx => hall x (by simp [hx])) hstop)

theorem lex_bare (s rest : List Nat) (h1 : s ≠ []) (h2 : s.length ≤ 20)
    (h3 : ∀ b ∈ s, goodAtomByte b = true) (h4 : safeFollow rest = true) :
    lex (s ++ rest) = (lex rest).map (Token.Bare s :: ·) := by
  match s, h1 with
  | b0 :: s2, _ =>
    have hf := goodAtomByte_facts b0 (h3 b0 (by simp))
    have htw : ((b0 :: s2) ++ rest).takeWhile isBareByte = b0 :: s2 :=
      takeWhile_stop isBareByte (b0 :: s2) rest
        (fun x hx => (goodAtomByte_facts x (h3 x hx)).2.2.2.2.2.2.2.1)
        (safeFollow_bare rest h4)
    have hcap : capRun isBareByte 20 ((b0 :: s2) ++ rest) = b0 :: s2 := by
      simp only [capRun, htw]
      exact List.take_of_length_le h2
    have hb : baseTok ((b0 :: s2) ++ rest) = some (.tok (.Bare (b0 :: s2)), rest) := by
      rw [List.cons_append]
      simp only [baseTok]
      rw [if_neg (by simp [hf.1]), if_neg (by simp [hf.2.1]), if_neg (by simp [hf.2.2.1]),
        if_neg (by simp [hf.2.2.2.1]), if_neg (by simp [hf.2.2.2.2.1]),
        if_neg (by simp [hf.2.2.2.2.2.1]), if_neg (by simp [hf.2.2.2.2.2.2.1])]
      rw [← List.cons_append, hcap, List.drop_left]
    have hfe : 2 * ((b0 :: s2) ++ rest).length + 2
        = (2 * ((b0 :: s2) ++ rest).length + 1) + 1 := by omega
    rw [lex, hfe, List.cons_append, lexGo_base_cons, ← List.cons_append, hb]
    dsimp only
    rw [lexGo_eq_lex _ _ (by simp only [List.length_append, List.length_cons]; omega)]

theorem elemsFormat_head_nonWs (y : Item) (ys : ItemList) (hy : Item.good y = true)
    (z : List Nat) :
    nonWsHead (strBytes (ItemList.formatElems (.cons y ys) 0) ++ z) = true := by
  match ys with
  | .nil => exact format_head_nonWs y hy z
  | .cons y2 ys2 =>
    show nonWsHead (strBytes (Item.format y 0 ++ " " ++
      ItemList.formatElems (.cons y2 ys2) 0) ++ z) = true
    rw [strBytes_append, strBytes_append, List.append_assoc, List.append_assoc]
    exact format_head_nonWs y hy _

theorem entriesFormat_head_nonWs (k v : Item) (ps : ItemPairs)
    (hk : Item.good k = true) (z : List Nat) :
    nonWsHead (strBytes (ItemPairs.formatEntries (.cons k v ps) 0) ++ z) = true := by
  match ps with
  | .nil =>
    show nonWsHead (strBytes (Item.format k 0 ++ ": " ++ Item.format v 0) ++ z) = true
    rw [strBytes_append, strBytes_append, List.append_assoc, List.append_assoc]
    exact format_head_nonWs k hk _
  | .cons k2 v2 ps2 =>
    show nonWsHead (strBytes (Item.format k 0 ++ ": " ++ Item.format v 0 ++ " " ++
      ItemPairs.formatEntries (.cons k2 v2 ps2) 0) ++ z) = true
    rw [strBytes_append, strBytes_append, strBytes_append, strBytes_append]
    simp only [List.append_assoc]
    exact format_head_nonWs k hk _

theorem goodTail_cons (k v : Item) (ps : ItemPairs)
    (h : ItemPairs.goodTail (.cons k v ps) = true) :
    Item.good k = true ∧ Item.good v = true ∧ v.isAtom = true ∧
    ItemPairs.goodTail ps = true := by
  have h2 : (Item.good k && Item.good v && v.isAtom && ItemPairs.goodTail ps)
      = true := h
  simp only [Bool.and_eq_true] at h2
  exact ⟨h2.1.1.1, h2.1.1.2, h2.1.2, h2.2⟩

theorem goodElems_cons (x : Item) (xs : ItemList)
    (h : ItemList.goodElems (.cons x xs) = true) :
    Item.good x = true ∧ ItemList.goodElems xs = true := by
  have h2 : (Item.good x && ItemList.goodElems xs) = true := h
  simp only [Bool.and_eq_true] at h2
  exact h2

/-- The rendering of a good tree lexes compositionally: element renderings
contribute their token streams in front of whatever the continuation lexes
to.  The three conjuncts cover single elements, list bodies (followed by the
closing paren) and map bodies (followed by the closing paren). -/
theorem lexRT (n : Nat) :
    (∀ v : Item, Item.sizeI v ≤ n → Item.good v = true → ∀ rest : List Nat,
      safeFollow rest = true →
      lex (strBytes (Item.format v 0) ++ rest) =
        (lex rest).map (Item.elemToks v ++ ·)) ∧
    (∀ xs : ItemList, ItemList.sizeL xs ≤ n → ItemList.goodElems xs = true →
      ∀ rest : List Nat,
      lex (strBytes (ItemList.formatElems xs 0) ++ 41 :: rest) =
        (lex (41 :: rest)).map (ItemList.elemsToks xs ++ ·)) ∧
    (∀ ps : ItemPairs, ItemPairs.sizeP ps ≤ n → ItemPairs.goodTail ps = true →
      ∀ rest : List Nat,
      lex (strBytes (ItemPairs.formatEntries ps 0) ++ 41 :: rest) =
        (lex (41 :: rest)).map (ItemPairs.pairsToks ps ++ ·)) := by
  induction n with
  | zero =>
    refine ⟨fun v hsz => ?_, fun xs hsz => ?_, fun ps hsz => ?_⟩
    · have := sizeI_pos v; omega
    · have := sizeL_pos xs; omega
    · have := sizeP_pos ps; omega
  | succ n ih =>
    refine ⟨fun v hsz hg rest hsafe => ?_, fun xs hsz hg rest => ?_,
      fun ps hsz hg rest => ?_⟩
    · match v with
      | .atom s =>
        obtain ⟨hne, hlen, hall⟩ := good_atom_bytes s hg
        rw [good_atom_strBytes s hg]
        exact lex_bare s rest hne hlen hall hsafe
      | .list xs =>
        have hxs : ItemList.goodElems xs = true := hg
        have hsz2 : ItemList.sizeL xs ≤ n := by
          simp only [Item.sizeI] at hsz; omega
        have hfmt : Item.format (.list xs) 0
            = "(" ++ ItemList.formatElems xs 0 ++ ")" := rfl
        have hbytes : strBytes (Item.format (.list xs) 0) ++ rest
            = 40 :: (strBytes (ItemList.formatElems xs 0) ++ 41 :: rest) := by
          rw [hfmt, strBytes_append, strBytes_append,
            show strBytes "(" = [40] from rfl, show strBytes ")" = [41] from rfl]
          simp [List.append_assoc]
        rw [hbytes, lex_open, ih.2.1 xs hsz2 hxs rest, lex_close]
        cases hlr : lex rest
        · rfl
        · simp [Item.elemToks, List.append_assoc]
      | .map ps =>
        have hps : ItemPairs.goodTail ps = true := goodNE_tail ps hg
        have hsz2 : ItemPairs.sizeP ps ≤ n := by
          simp only [Item.sizeI] at hsz; omega
        have hfmt : Item.format (.map ps) 0
            = "(" ++ ItemPairs.formatEntries ps 0 ++ ")" := rfl
        have hbytes : strBytes (Item.format (.map ps) 0) ++ rest
            = 40 :: (strBytes (ItemPairs.formatEntries ps 0) ++ 41 :: rest) := by
          rw [hfmt, strBytes_append, strBytes_append,
            show strBytes "(" = [40] from rfl, show strBytes ")" = [41] from rfl]
          simp [List.append_assoc]
        rw [hbytes, lex_open, ih.2.2 ps hsz2 hps rest, lex_close]
        cases hlr : lex rest
        · rfl
        · simp [Item.elemToks, List.append_assoc]
    · match xs with
      | .nil =>
        rw [show strBytes (ItemList.formatElems .nil 0) = [] from rfl,
          List.nil_append]
        cases hlr : lex (41 :: rest) <;> rfl
      | .cons x .nil =>
        have hgx : Item.good x = true := (goodElems_cons x .nil hg).1
        have hsz2 : Item.sizeI x ≤ n := by
          simp only [ItemList.sizeL] at hsz
          have := sizeL_pos (ItemList.nil)
          omega
        exact ih.1 x hsz2 hgx (41 :: rest) rfl
      | .cons x (.cons y ys) =>
        obtain ⟨hgx, hgtail⟩ := goodElems_cons x (.cons y ys) hg
        have hgy : Item.good y = true := (goodElems_cons y ys hgtail).1
        have hszx : Item.sizeI x ≤ n := by
          simp only [ItemList.sizeL] at hsz
          have := sizeL_pos ys
          have := sizeI_pos y
          omega
        have hszyys : ItemList.sizeL (.cons y ys) ≤ n := by
          simp only [ItemList.sizeL] at hsz ⊢
          have := sizeI_pos x
          omega
        have hbytes : strBytes (ItemList.formatElems (.cons x (.cons y ys)) 0) ++ 41 :: rest
            = strBytes (Item.format x 0) ++
              32 :: (strBytes (ItemList.formatElems (.cons y ys) 0) ++ 41 :: rest) := by
          show strBytes (Item.format x 0 ++ " " ++
            ItemList.formatElems (.cons y ys) 0) ++ 41 :: rest = _
          rw [strBytes_append, strBytes_append, show strBytes " " = [32] from rfl]
          simp [List.append_assoc]
        rw [hbytes,
          ih.1 x hszx hgx
            (32 :: (strBytes (ItemList.formatElems (.cons y ys) 0) ++ 41 :: rest)) rfl,
          lex_space _ (elemsFormat_head_nonWs y ys hgy _),
          ih.2.1 (.cons y ys) hszyys hgtail rest]
        cases hlr : lex (41 :: rest)
        · rfl
        · simp [ItemList.elemsToks, List.append_assoc]
    · match ps with
      | .nil =>
        rw [show strBytes (ItemPairs.formatEntries .nil 0) = [] from rfl,
          List.nil_append]
        cases hlr : lex (41 :: rest) <;> rfl
      | .cons k v .nil =>
        obtain ⟨hgk, hgv, hva, htl⟩ := goodTail_cons k v .nil hg
        have hszk : Item.sizeI k ≤ n := by
          simp only [ItemPairs.sizeP] at hsz
          have := sizeI_pos v
          have := sizeP_pos (ItemPairs.nil)
          omega
        have hszv : Item.sizeI v ≤ n := by
          simp only [ItemPairs.sizeP] at hsz
          have := sizeI_pos k
          have := sizeP_pos (ItemPairs.nil)
          omega
        have hbytes : strBytes (ItemPairs.formatEntries (.cons k v .nil) 0) ++ 41 :: rest
            = strBytes (Item.format k 0) ++
              58 :: 32 :: (strBytes (Item.format v 0) ++ 41 :: rest) := by
          show strBytes (Item.format k 0 ++ ": " ++ Item.format v 0) ++ 41 :: rest = _
          rw [strBytes_append, strBytes_append, show strBytes ": " = [58, 32] from rfl]
          simp [List.append_assoc]
        rw [hbytes,
          ih.1 k hszk hgk
            (58 :: 32 :: (strBytes (Item.format v 0) ++ 41 :: rest)) rfl,
          lex_colon, lex_space _ (format_head_nonWs v hgv _),
          ih.1 v hszv hgv (41 :: rest) rfl]
        cases hlr : lex (41 :: rest)
        · rfl
        · simp [ItemPairs.pairsToks, List.append_assoc]
      | .cons k v (.cons k2 v2 ps2) =>
        obtain ⟨hgk, hgv, hva, htl⟩ := goodTail_cons k v (.cons k2 v2 ps2) hg
        have hgk2 : Item.good k2 = true := (goodTail_cons k2 v2 ps2 htl).1
        have hszk : Item.sizeI k ≤ n := by
          simp only [ItemPairs.sizeP] at hsz
          have := sizeI_pos v
          have := sizeP_pos (ItemPairs.cons k2 v2 ps2)
          omega
        have hszv : Item.sizeI v ≤ n := by
          simp only [ItemPairs.sizeP] at hsz
          have := sizeI_pos k
          have := sizeP_pos (ItemPairs.cons k2 v2 ps2)
          omega
        have hszps : ItemPairs.sizeP (.cons k2 v2 ps2) ≤ n := by
          simp only [ItemPairs.sizeP] at hsz ⊢
          have := sizeI_pos k
          have := sizeI_pos v
          omega
        have hbytes : strBytes (ItemPairs.formatEntries
              (.cons k v (.cons k2 v2 ps2)) 0) ++ 41 :: rest
            = strBytes (Item.format k 0) ++
              58 :: 32 :: (strBytes (Item.format v 0) ++
                32 :: (strBytes (ItemPairs.formatEntries (.cons k2 v2 ps2) 0) ++
                  41 :: rest)) := by
          show strBytes (Item.format k 0 ++ ": " ++ Item.format v 0 ++ " " ++
            ItemPairs.formatEntries (.cons k2 v2 ps2) 0) ++ 41 :: rest = _
          rw [strBytes_append, strBytes_append, strBytes_append, strBytes_append,
            show strBytes ": " = [58, 32] from rfl, show strBytes " " = [32] from rfl]
          simp [List.append_assoc]
        rw [hbytes,
          ih.1 k hszk hgk
            (58 :: 32 :: (strBytes (Item.format v 0) ++
              32 :: (strBytes (ItemPairs.formatEntries (.cons k2 v2 ps2) 0) ++
                41 :: rest))) rfl,
          lex_colon, lex_space _ (format_head_nonWs v hgv _),
          ih.1 v hszv hgv
            (32 :: (strBytes (ItemPairs.formatEntries (.cons k2 v2 ps2) 0) ++
              41 :: rest)) rfl,
          lex_space _ (entriesFormat_head_nonWs k2 v2 ps2 hgk2 _),
          ih.2.2 (.cons k2 v2 ps2) hszps htl rest]
        cases hlr : lex (41 :: rest)
        · rfl
        · simp [ItemPairs.pairsToks, List.append_assoc]

/-! ### One-step equations for `parseGo` on the token shapes of renderings -/

theorem elemToks_len_pos (v : Item) : 1 ≤ (Item.elemToks v).length := by
  match v with
  | .atom s => simp [Item.elemToks]
  | .list xs => simp [Item.elemToks]
  | .map ps => simp [Item.elemToks]

theorem elemToks_head (v : Item) :
    (∃ s ts', Item.elemToks v = Token.Bare s :: ts') ∨
    (∃ ts', Item.elemToks v = Token.Open :: ts') := by
  match v with
  | .atom s => exact .inl ⟨s, [], rfl⟩
  | .list xs => exact .inr ⟨_, rfl⟩
  | .map ps => exact .inr ⟨_, rfl⟩

theorem pgKey_ws (f : Nat) (top : Bool) (item : Item) (w : List Nat)
    (ts : List Token) :
    parseGo (f + 1) top .key item (Token.WhiteSpace w :: ts)
      = parseGo (f + 1) top .key item ts := rfl

theorem pgKey_bare (f : Nat) (top : Bool) (item : Item) (s : List Nat)
    (r : List Token) :
    parseGo (f + 1) top .key item (Token.Bare s :: r)
      = parseGo f top (.afterKey (Item.atom s)) item r := rfl

theorem pgKey_open (f : Nat) (top : Bool) (item : Item) (r : List Token) :
    parseGo (f + 1) top .key item (Token.Open :: r)
      = match parseGo f false .key (Item.list .nil) r with
        | .error e => .error e
        | .ok (key, r2) => parseGo f top (.afterKey key) item (r2.drop 1) := rfl

theorem pgKey_close (f : Nat) (item : Item) (r : List Token) :
    parseGo (f + 1) false .key item (Token.Close :: r)
      = .ok (item, Token.Close :: r) := rfl

theorem pgAfter_ws (f : Nat) (top : Bool) (key item : Item) (w : List Nat)
    (ts : List Token) :
    parseGo (f + 1) top (.afterKey key) item (Token.WhiteSpace w :: ts)
      = parseGo (f + 1) top (.afterKey key) item ts := rfl

theorem pgAfter_close (f : Nat) (top : Bool) (key : Item) (xs : ItemList)
    (r : List Token) :
    parseGo (f + 1) top (.afterKey key) (.list xs) (Token.Close :: r)
      = parseGo f top .key (.list (xs.push key)) (Token.Close :: r) := rfl

theorem pgAfter_nil (f : Nat) (top : Bool) (key : Item) (xs : ItemList) :
    parseGo (f + 1) top (.afterKey key) (.list xs) []
      = parseGo f top .key (.list (xs.push key)) [] := rfl

theorem pgAfter_bare (f : Nat) (top : Bool) (key : Item) (xs : ItemList)
    (s : List Nat) (r : List Token) :
    parseGo (f + 1) top (.afterKey key) (.list xs) (Token.Bare s :: r)
      = parseGo f top .key (.list (xs.push key)) (Token.Bare s :: r) := rfl

theorem pgAfter_open (f : Nat) (top : Bool) (key : Item) (xs : ItemList)
    (r : List Token) :
    parseGo (f + 1) top (.afterKey key) (.list xs) (Token.Open :: r)
      = parseGo f top .key (.list (xs.push key)) (Token.Open :: r) := rfl

theorem pgAfter_colon_nil (f : Nat) (top : Bool) (key : Item) (r : List Token) :
    parseGo (f + 1) top (.afterKey key) (.list .nil) (Token.Colon :: r)
      = parseGo f top (.value key) (Item.map .nil) r := rfl

theorem pgAfter_colon_map (f : Nat) (top : Bool) (key : Item) (acc : ItemPairs)
    (r : List Token) :
    parseGo (f + 1) top (.afterKey key) (.map acc) (Token.Colon :: r)
      = parseGo f top (.value key) (.map acc) r := rfl

theorem pgValue_ws (f : Nat) (top : Bool) (key item : Item) (w : List Nat)
    (ts : List Token) :
    parseGo (f + 1) top (.value key) item (Token.WhiteSpace w :: ts)
      = parseGo (f + 1) top (.value key) item ts := rfl

theorem pgValue_bare_map (f : Nat) (top : Bool) (key : Item) (acc : ItemPairs)
    (s : List Nat) (r : List Token) :
    parseGo (f + 1) top (.value key) (.map acc) (Token.Bare s :: r)
      = parseGo f top .key (.map (acc.push key (Item.atom s))) r := rfl

theorem parseGo_key_skipAll (f : Nat) (item : Item) (ts : List Token)
    (h : skipWs ts = []) : parseGo (f + 1) true .key item ts = .ok (item, []) := by
  simp only [parseGo, h, if_true]

theorem pgAfter_elem (f : Nat) (top : Bool) (key : Item) (xs : ItemList)
    (y : Item) (z : List Token) :
    parseGo (f + 1) top (.afterKey key) (.list xs) (Item.elemToks y ++ z)
      = parseGo f top .key (.list (xs.push key)) (Item.elemToks y ++ z) := by
  rcases elemToks_head y with ⟨s, ts', hy⟩ | ⟨ts', hy⟩
  · rw [hy, List.cons_append, pgAfter_bare]
  · rw [hy, List.cons_append, pgAfter_open]

theorem elemsToks_cons_decomp (y : Item) (ys : ItemList) :
    ∃ z, ItemList.elemsToks (.cons y ys) = Item.elemToks y ++ z := by
  match ys with
  | .nil => exact ⟨[], by simp [ItemList.elemsToks]⟩
  | .cons y2 ys2 => exact ⟨_, rfl⟩

/-- The parser consumes the token stream of a good tree compositionally:
consuming an element's tokens moves the key phase to the after-key phase on
that element; list and map bodies accumulate onto the compound and stop at
the closing paren. -/
theorem parseRT (n : Nat) :
    (∀ v : Item, Item.sizeI v ≤ n → Item.good v = true →
      ∀ f : Nat, 2 * (Item.elemToks v).length ≤ f → ∀ (top : Bool) (acc : Item)
        (rest : List Token),
      parseGo (f + 1) top .key acc (Item.elemToks v ++ rest)
        = parseGo f top (.afterKey v) acc rest) ∧
    (∀ xs : ItemList, ItemList.sizeL xs ≤ n → ItemList.goodElems xs = true →
      ∀ f : Nat, 2 * (ItemList.elemsToks xs).length + 2 ≤ f →
      ∀ (acc : ItemList) (rest : List Token),
      parseGo f false .key (Item.list acc)
          (ItemList.elemsToks xs ++ Token.Close :: rest)
        = .ok (Item.list (ItemList.appendL acc xs), Token.Close :: rest)) ∧
    (∀ ps : ItemPairs, ItemPairs.sizeP ps ≤ n → ItemPairs.goodTail ps = true →
      ∀ f : Nat, 2 * (ItemPairs.pairsToks ps).length + 2 ≤ f →
      ∀ (acc : ItemPairs) (rest : List Token),
      parseGo f false .key (Item.map acc)
          (ItemPairs.pairsToks ps ++ Token.Close :: rest)
        = .ok (Item.map (ItemPairs.appendP acc ps), Token.Close :: rest)) := by
  induction n with
  | zero =>
    refine ⟨fun v hsz => ?_, fun xs hsz => ?_, fun ps hsz => ?_⟩
    · have := sizeI_pos v; omega
    · have := sizeL_pos xs; omega
    · have := sizeP_pos ps; omega
  | succ n ih =>
    refine ⟨fun v hsz hg f hf top acc rest => ?_,
      fun xs hsz hg f hf acc rest => ?_, fun ps hsz hg f hf acc rest => ?_⟩
    · match v with
      | .atom s =>
        rw [show Item.elemToks (.atom s) ++ rest = Token.Bare s :: rest from rfl,
          pgKey_bare]
      | .list xs =>
        have hxs : ItemList.goodElems xs = true := hg
        have hsz2 : ItemList.sizeL xs ≤ n := by
          simp only [Item.sizeI] at hsz; omega
        have hlen : 2 * (ItemList.elemsToks xs).length + 2 ≤ f := by
          simp only [Item.elemToks, List.length_cons, List.length_append,
            List.length_nil] at hf
          omega
        have htoks : Item.elemToks (.list xs) ++ rest
            = Token.Open :: (ItemList.elemsToks xs ++ Token.Close :: rest) := by
          show (Token.Open :: ItemList.elemsToks xs ++ [Token.Close]) ++ rest = _
          simp [List.append_assoc]
        rw [htoks, pgKey_open, ih.2.1 xs hsz2 hxs f hlen .nil rest]
        rfl
      | .map ps =>
        match ps, hg with
        | .nil, hg => simp [Item.good, ItemPairs.goodNE] at hg
        | .cons k v ps', hg =>
          obtain ⟨hgk, hgv, hva, htl⟩ := goodTail_cons k v ps' (goodNE_tail _ hg)
          match v, hva with
          | .atom sv, _ =>
            have hszk : Item.sizeI k ≤ n := by
              simp only [Item.sizeI, ItemPairs.sizeP] at hsz
              have := sizeI_pos (Item.atom sv)
              have := sizeP_pos ps'
              omega
            match ps' with
            | .nil =>
              have hlt : 2 * (Item.elemToks k).length ≤ f - 1 ∧ 4 ≤ f := by
                simp only [Item.elemToks, ItemPairs.pairsToks, List.length_cons,
                  List.length_append, List.length_nil] at hf
                omega
              obtain ⟨f1, rfl⟩ : ∃ f1, f = f1 + 1 := ⟨f - 1, by omega⟩
              have htoks : Item.elemToks (.map (.cons k (.atom sv) .nil)) ++ rest
                  = Token.Open :: (Item.elemToks k ++
                    Token.Colon :: Token.WhiteSpace [32] :: Token.Bare sv ::
                      Token.Close :: rest) := by
                show (Token.Open ::
                  (Item.elemToks k ++ Token.Colon :: Token.WhiteSpace [32] ::
                    [Token.Bare sv]) ++ [Token.Close]) ++ rest = _
                simp [List.append_assoc]
              rw [htoks, pgKey_open,
                ih.1 k hszk hgk f1 (by omega) false (Item.list .nil) _]
              obtain ⟨f2, rfl⟩ : ∃ f2, f1 = f2 + 1 := ⟨f1 - 1, by omega⟩
              rw [pgAfter_colon_nil]
              obtain ⟨f3, rfl⟩ : ∃ f3, f2 = f3 + 1 := ⟨f2 - 1, by omega⟩
              rw [pgValue_ws, pgValue_bare_map]
              obtain ⟨f4, rfl⟩ : ∃ f4, f3 = f4 + 1 := ⟨f3 - 1, by omega⟩
              rw [pgKey_close]
              rfl
            | .cons k2 v2 ps2 =>
              have hszps : ItemPairs.sizeP (.cons k2 v2 ps2) ≤ n := by
                simp only [Item.sizeI, ItemPairs.sizeP] at hsz ⊢
                have := sizeI_pos k
                have := sizeI_pos (Item.atom sv)
                omega
              have hlt : 2 * (Item.elemToks k).length ≤ f - 1 ∧
                  2 * (ItemPairs.pairsToks (.cons k2 v2 ps2)).length + 2 ≤ f - 3 ∧
                  6 ≤ f := by
                simp only [Item.elemToks, ItemPairs.pairsToks, List.length_cons,
                  List.length_append, List.length_nil] at hf
                omega
              obtain ⟨f1, rfl⟩ : ∃ f1, f = f1 + 1 := ⟨f - 1, by omega⟩
              have htoks : Item.elemToks
                    (.map (.cons k (.atom sv) (.cons k2 v2 ps2))) ++ rest
                  = Token.Open :: (Item.elemToks k ++
                    Token.Colon :: Token.WhiteSpace [32] :: Token.Bare sv ::
                      Token.WhiteSpace [32] ::
                        (ItemPairs.pairsToks (.cons k2 v2 ps2) ++
                          Token.Close :: rest)) := by
                show (Token.Open ::
                  (Item.elemToks k ++ Token.Colon :: Token.WhiteSpace [32] ::
                    ([Token.Bare sv] ++ Token.WhiteSpace [32] ::
                      ItemPairs.pairsToks (.cons k2 v2 ps2))) ++
                        [Token.Close]) ++ rest = _
                simp [List.append_assoc]
              rw [htoks, pgKey_open,
                ih.1 k hszk hgk f1 (by omega) false (Item.list .nil) _]
              obtain ⟨f2, rfl⟩ : ∃ f2, f1 = f2 + 1 := ⟨f1 - 1, by omega⟩
              rw [pgAfter_colon_nil]
              obtain ⟨f3, rfl⟩ : ∃ f3, f2 = f3 + 1 := ⟨f2 - 1, by omega⟩
              rw [pgValue_ws, pgValue_bare_map]
              obtain ⟨f4, rfl⟩ : ∃ f4, f3 = f4 + 1 := ⟨f3 - 1, by omega⟩
              rw [pgKey_ws,
                ih.2.2 (.cons k2 v2 ps2) hszps htl (f4 + 1) (by omega)
                  (ItemPairs.nil.push k (Item.atom sv)) rest]
              rfl
    · match xs with
      | .nil =>
        obtain ⟨f1, rfl⟩ : ∃ f1, f = f1 + 1 := ⟨f - 1, by omega⟩
        rw [show ItemList.elemsToks .nil ++ Token.Close :: rest
            = Token.Close :: rest from rfl, pgKey_close, appendL_nil]
      | .cons x .nil =>
        obtain ⟨hgx, _⟩ := goodElems_cons x .nil hg
        have hszx : Item.sizeI x ≤ n := by
          simp only [ItemList.sizeL] at hsz
          have := sizeL_pos (ItemList.nil)
          omega
        have hlx : 2 * (Item.elemToks x).length ≤ f - 1 ∧ 4 ≤ f := by
          simp only [ItemList.elemsToks] at hf
          have := elemToks_len_pos x
          omega
        obtain ⟨f1, rfl⟩ : ∃ f1, f = f1 + 1 := ⟨f - 1, by omega⟩
        rw [show ItemList.elemsToks (.cons x .nil) ++ Token.Close :: rest
            = Item.elemToks x ++ Token.Close :: rest from rfl,
          ih.1 x hszx hgx f1 (by omega) false (Item.list acc) _]
        obtain ⟨f2, rfl⟩ : ∃ f2, f1 = f2 + 1 := ⟨f1 - 1, by omega⟩
        rw [pgAfter_close]
        obtain ⟨f3, rfl⟩ : ∃ f3, f2 = f3 + 1 := ⟨f2 - 1, by omega⟩
        rw [pgKey_close, ← appendL_push, appendL_nil]
      | .cons x (.cons y ys) =>
        obtain ⟨hgx, hgtail⟩ := goodElems_cons x (.cons y ys) hg
        have hszx : Item.sizeI x ≤ n := by
          simp only [ItemList.sizeL] at hsz
          have := sizeI_pos y
          have := sizeL_pos ys
          omega
        have hszyys : ItemList.sizeL (.cons y ys) ≤ n := by
          simp only [ItemList.sizeL] at hsz ⊢
          have := sizeI_pos x
          omega
        have hlx : 2 * (Item.elemToks x).length ≤ f - 1 ∧
            2 * (ItemList.elemsToks (.cons y ys)).length + 2 ≤ f - 2 ∧
            4 ≤ f := by
          simp only [ItemList.elemsToks, List.length_append, List.length_cons] at hf
          have := elemToks_len_pos x
          omega
        obtain ⟨f1, rfl⟩ : ∃ f1, f = f1 + 1 := ⟨f - 1, by omega⟩
        have htoks : ItemList.elemsToks (.cons x (.cons y ys)) ++ Token.Close :: rest
            = Item.elemToks x ++ (Token.WhiteSpace [32] ::
              (ItemList.elemsToks (.cons y ys) ++ Token.Close :: rest)) := by
          show (Item.elemToks x ++ Token.WhiteSpace [32] ::
            ItemList.elemsToks (.cons y ys)) ++ Token.Close :: rest = _
          simp [List.append_assoc]
        rw [htoks, ih.1 x hszx hgx f1 (by omega) false (Item.list acc) _]
        obtain ⟨f2, rfl⟩ : ∃ f2, f1 = f2 + 1 := ⟨f1 - 1, by omega⟩
        rw [pgAfter_ws]
        obtain ⟨z, hz⟩ := elemsToks_cons_decomp y ys
        rw [hz, List.append_assoc, pgAfter_elem, ← List.append_assoc, ← hz,
          ih.2.1 (.cons y ys) hszyys hgtail f2 (by omega) (acc.push x) rest,
          appendL_push]
    · match ps with
      | .nil =>
        obtain ⟨f1, rfl⟩ : ∃ f1, f = f1 + 1 := ⟨f - 1, by omega⟩
        rw [show ItemPairs.pairsToks .nil ++ Token.Close :: rest
            = Token.Close :: rest from rfl, pgKey_close, appendP_nil]
      | .cons k v ps' =>
        obtain ⟨hgk, hgv, hva, htl⟩ := goodTail_cons k v ps' hg
        match v, hva with
        | .atom sv, _ =>
          have hszk : Item.sizeI k ≤ n := by
            simp only [ItemPairs.sizeP] at hsz
            have := sizeI_pos (Item.atom sv)
            have := sizeP_pos ps'
            omega
          match ps' with
          | .nil =>
            have hlt : 2 * (Item.elemToks k).length ≤ f - 1 ∧ 4 ≤ f := by
              simp only [ItemPairs.pairsToks, Item.elemToks, List.length_append,
                List.length_cons, List.length_nil] at hf
              omega
            obtain ⟨f1, rfl⟩ : ∃ f1, f = f1 + 1 := ⟨f - 1, by omega⟩
            have htoks : ItemPairs.pairsToks (.cons k (.atom sv) .nil) ++
                  Token.Close :: rest
                = Item.elemToks k ++ (Token.Colon :: Token.WhiteSpace [32] ::
                  Token.Bare sv :: Token.Close :: rest) := by
              show (Item.elemToks k ++ Token.Colon :: Token.WhiteSpace [32] ::
                [Token.Bare sv]) ++ Token.Close :: rest = _
              simp [List.append_assoc]
            rw [htoks, ih.1 k hszk hgk f1 (by omega) false (Item.map acc) _]
            obtain ⟨f2, rfl⟩ : ∃ f2, f1 = f2 + 1 := ⟨f1 - 1, by omega⟩
            rw [pgAfter_colon_map]
            obtain ⟨f3, rfl⟩ : ∃ f3, f2 = f3 + 1 := ⟨f2 - 1, by omega⟩
            rw [pgValue_ws, pgValue_bare_map]
            obtain ⟨f4, rfl⟩ : ∃ f4, f3 = f4 + 1 := ⟨f3 - 1, by omega⟩
            rw [pgKey_close, ← appendP_push, appendP_nil]
          | .cons k2 v2 ps2 =>
            have hszps : ItemPairs.sizeP (.cons k2 v2 ps2) ≤ n := by
              simp only [ItemPairs.sizeP] at hsz ⊢
              have := sizeI_pos k
              have := sizeI_pos (Item.atom sv)
              omega
            have hlt : 2 * (Item.elemToks k).length ≤ f - 1 ∧
                2 * (ItemPairs.pairsToks (.cons k2 v2 ps2)).length + 2 ≤ f - 3 ∧
                6 ≤ f := by
              simp only [ItemPairs.pairsToks, Item.elemToks, List.length_append,
                List.length_cons, List.length_nil] at hf
              omega
            obtain ⟨f1, rfl⟩ : ∃ f1, f = f1 + 1 := ⟨f - 1, by omega⟩
            have htoks : ItemPairs.pairsToks
                  (.cons k (.atom sv) (.cons k2 v2 ps2)) ++ Token.Close :: rest
                = Item.elemToks k ++ (Token.Colon :: Token.WhiteSpace [32] ::
                  Token.Bare sv :: Token.WhiteSpace [32] ::
                    (ItemPairs.pairsToks (.cons k2 v2 ps2) ++
                      Token.Close :: rest)) := by
              show (Item.elemToks k ++ Token.Colon :: Token.WhiteSpace [32] ::
                ([Token.Bare sv] ++ Token.WhiteSpace [32] ::
                  ItemPairs.pairsToks (.cons k2 v2 ps2))) ++
                    Token.Close :: rest = _
              simp [List.append_assoc]
            rw [htoks, ih.1 k hszk hgk f1 (by omega) false (Item.map acc) _]
            obtain ⟨f2, rfl⟩ : ∃ f2, f1 = f2 + 1 := ⟨f1 - 1, by omega⟩
            rw [pgAfter_colon_map]
            obtain ⟨f3, rfl⟩ : ∃ f3, f2 = f3 + 1 := ⟨f2 - 1, by omega⟩
            rw [pgValue_ws, pgValue_bare_map]
            obtain ⟨f4, rfl⟩ : ∃ f4, f3 = f4 + 1 := ⟨f3 - 1, by omega⟩
            rw [pgKey_ws,
              ih.2.2 (.cons k2 v2 ps2) hszps htl (f4 + 1) (by omega)
                (acc.push k (Item.atom sv)) rest,
              appendP_push]

/-- C1, counterexample: the claim promises `parse (render v)` reproduces `v`
itself, but `parse` wraps the top-level element sequence in a fresh list:
rendering the empty list `()` parses back as a list *containing* the empty
list. -/
theorem c1_counterexample :
    parse (strBytes (Item.format Item.nil 0))
      = some (.ok (Item.list (.cons Item.nil .nil))) ∧
    Item.list (.cons Item.nil .nil) ≠ Item.nil := by decide

/-- C1, amended: for every good tree `v` (atoms are nonempty runs of at most
20 printable non-reserved ASCII bytes, maps are nonempty and have atom
values), parsing the rendering of `v` succeeds and returns the top-level
list wrapping exactly `v`. -/
theorem c1_amended (v : Item) (h : Item.good v = true) :
    parse (strBytes (Item.format v 0))
      = some (.ok (Item.list (.cons v .nil))) := by
  have hlex := (lexRT (Item.sizeI v)).1 v le_rfl h [] rfl
  rw [List.append_nil] at hlex
  have hlex2 : lex (strBytes (Item.format v 0)) = some (Item.elemToks v) := by
    rw [hlex]
    show (some ([] : List Token)).map _ = _
    simp
  unfold parse
  rw [hlex2]
  dsimp only
  have hstep := (parseRT (Item.sizeI v)).1 v le_rfl h
    (4 * (Item.elemToks v).length + 3) (by omega) true (Item.list .nil) []
  rw [List.append_nil] at hstep
  rw [show 4 * (Item.elemToks v).length + 4
      = (4 * (Item.elemToks v).length + 3) + 1 from by omega, hstep,
    show 4 * (Item.elemToks v).length + 3
      = (4 * (Item.elemToks v).length + 2) + 1 from by omega, pgAfter_nil,
    show 4 * (Item.elemToks v).length + 2
      = (4 * (Item.elemToks v).length + 1) + 1 from by omega,
    parseGo_key_skipAll (4 * (Item.elemToks v).length + 1)
      (Item.list (ItemList.nil.push v)) [] rfl]
  rfl

/-- C1, amended, witness at the map `(k: v)`. -/
theorem c1_amended_witness :
    Item.good (Item.map (.cons (.atom [107]) (.atom [118]) .nil)) = true ∧
    parse (strBytes (Item.format
        (Item.map (.cons (.atom [107]) (.atom [118]) .nil)) 0))
      = some (.ok (Item.list
          (.cons (Item.map (.cons (.atom [107]) (.atom [118]) .nil)) .nil))) :=
  ⟨by decide, c1_amended (Item.map (.cons (.atom [107]) (.atom [118]) .nil))
    (by decide)⟩

/-! ## Top-level parse facts: C2, C3, C10 -/

/-- C2: `parse(b"k: v")` at top level returns `Ok` of a `Map` with exactly the
one pair `(Atom "k", Atom "v")` — the colon after the first element fixes the
compound as a `Map`, and the top level is parsed as a compound's contents
without enclosing parentheses. -/
theorem c2_confirmed :
    parse (strBytes "k: v") =
      some (.ok (Item.map (.cons (.atom [107]) (.atom [118]) .nil))) := by
  decide

/-- C3: the claim says a `Quoted` run accumulates into an `Atom` and parsing
of that element succeeds.  In the code `parse_quoted` (`parse.rs` lines
188–190) is `throw!("todo ...")`: every `Quoted` token at key or element
position is rejected with the `todo` parse error, never accumulated.  The
input here is `"x"` (bytes `34, 120, 34`), the simplest quoted atom. -/
theorem c3_quoted_todo : parse [34, 120, 34] = some (.error "todo") := by
  decide

/-- C10: `parse` of the empty byte string, or of any input that lexes to
whitespace and comment tokens only, returns `Ok` of the empty list; empty
input is not a parse error. -/
theorem c10_confirmed (bs : List Nat) (ts : List Token) (h1 : lex bs = some ts)
    (h2 : ∀ t ∈ ts, t.isSkip = true) : parse bs = some (.ok Item.nil) := by
  have hskip : skipWs ts = [] := by
    simp only [skipWs, List.dropWhile_eq_nil_iff]
    exact h2
  have hgo : parseGo (4 * ts.length + 4) true .key (Item.list .nil) ts
      = .ok (Item.list .nil, []) := by
    have h4 : 4 * ts.length + 4 = (4 * ts.length + 3) + 1 := by omega
    rw [h4]
    exact parseGo_key_skipAll _ _ _ hskip
  unfold parse
  rw [h1]
  dsimp only
  rw [hgo]
  rfl

/-- C10, witness: `" # c\n"` lexes to a whitespace token, a comment token and
a whitespace token, and parses to the empty list. -/
theorem c10_confirmed_witness :
    (lex (strBytes " # c\n") =
        some [Token.WhiteSpace [32], Token.Comment [35, 32, 99], Token.WhiteSpace [10]]) ∧
    (∀ t ∈ [Token.WhiteSpace [32], Token.Comment [35, 32, 99], Token.WhiteSpace [10]],
        t.isSkip = true) ∧
    parse (strBytes " # c\n") = some (.ok Item.nil) :=
  ⟨by decide, by decide,
    c10_confirmed (strBytes " # c\n")
      [Token.WhiteSpace [32], Token.Comment [35, 32, 99], Token.WhiteSpace [10]]
      (by decide) (by decide)⟩

